import Mathlib

/-!
Model of `nall/primitives.hpp`: the value types `Natural<Bits>` and `Integer<Bits>`.

A shallow embedding of the fixed-width value types of `nall/primitives.hpp`
together with their bit-range views and the clamp / clip operations.

The C++ expressions of the source are evaluated over a small model of the
native integer types (LP64, two's complement): a native value is a type
(signedness, width) and a bit pattern; the integral promotions and the usual
arithmetic conversions pick the type an operator computes in. Addition,
subtraction, multiplication and negation are computed modulo `2^width` in that
type: unsigned arithmetic is modular, and a signed result that overflows wraps
the same way, which is what the two's-complement target stores; likewise a left
shift moves the bit pattern, of a signed value as of an unsigned one. An operator
has no result, `none`, in two cases: a shift count that is negative or not
smaller than the width, where the outcome depends on how the expression is
compiled; and division by zero or with a quotient that is not representable,
which traps.
-/

namespace nall

/-! ## Native integer types -/

/-- A native integer type: signedness and width in bits. -/
structure CType where
  isSigned : Bool
  width : Nat
deriving DecidableEq

/-- A native integer value: its type and its bit pattern. -/
structure CInt where
  ty : CType
  bits : Nat
deriving DecidableEq

namespace CType

/-- The type `int`. -/
def int : CType := ⟨true, 32⟩
/-- The type `unsigned int` (`uint`). -/
def uint : CType := ⟨false, 32⟩
/-- The type `long long` (`intmax`). -/
def intmax : CType := ⟨true, 64⟩
/-- The type `unsigned long long` (`uintmax`). -/
def uintmax : CType := ⟨false, 64⟩

/-- Integral promotion: a type narrower than `int` is promoted to `int`. -/
def promote (t : CType) : CType :=
  if t.width < 32 then int else t

/-- Usual arithmetic conversions: the type a binary operator computes in. -/
def common (a b : CType) : CType :=
  let a := a.promote
  let b := b.promote
  if a.width < b.width then b
  else if b.width < a.width then a
  else ⟨a.isSigned && b.isSigned, a.width⟩

/-- Conversion of a mathematical integer to type `t`: reduction modulo `2^width`. -/
def ofInt (t : CType) (v : Int) : CInt :=
  ⟨t, (v % 2 ^ t.width).toNat⟩

/-- Whether the mathematical integer `v` is representable in type `t`. -/
def holds (t : CType) (v : Int) : Bool :=
  if t.isSigned then decide (-(2 ^ (t.width - 1) : Int) ≤ v ∧ v < 2 ^ (t.width - 1))
  else decide (0 ≤ v ∧ v < 2 ^ t.width)

/-- Whether the natural number `n` is a (non-negative) value of type `t`. -/
def fits (t : CType) (n : Nat) : Prop :=
  if t.isSigned then n < 2 ^ (t.width - 1) else n < 2 ^ t.width

end CType

namespace CInt

/-- The mathematical value of a native value (two's complement for signed types). -/
def toInt (a : CInt) : Int :=
  if a.ty.isSigned ∧ 2 ^ (a.ty.width - 1) ≤ a.bits then (a.bits : Int) - 2 ^ a.ty.width
  else (a.bits : Int)

/-- Conversion to another integer type. -/
def cast (a : CInt) (t : CType) : CInt :=
  t.ofInt a.toInt

/-- Arithmetic operator `f` in the common type, reduced modulo `2^width`: a signed
result that overflows wraps as an unsigned one does. -/
def arith (f : Int → Int → Int) (a b : CInt) : Option CInt :=
  let t := a.ty.common b.ty
  let r := f (a.cast t).toInt (b.cast t).toInt
  some (t.ofInt r)

/-- The operator `a + b`. -/
def add (a b : CInt) : Option CInt := arith (fun x y => x + y) a b
/-- The operator `a - b`. -/
def sub (a b : CInt) : Option CInt := arith (fun x y => x - y) a b
/-- The operator `a * b`. -/
def mul (a b : CInt) : Option CInt := arith (fun x y => x * y) a b

/-- The operator `a / b` (truncating); division by zero traps, and so does a signed
quotient that is not representable in the common type. -/
def div (a b : CInt) : Option CInt :=
  let t := a.ty.common b.ty
  if (b.cast t).toInt = 0 then none
  else if t.isSigned ∧ ¬ t.holds (Int.tdiv (a.cast t).toInt (b.cast t).toInt) then none
  else arith Int.tdiv a b

/-- The operator `a % b`; it traps exactly where `a / b` does. -/
def mod (a b : CInt) : Option CInt :=
  match div a b with
  | none => none
  | some _ => arith Int.tmod a b

/-- The operator `a & b`. -/
def band (a b : CInt) : CInt :=
  let t := a.ty.common b.ty
  ⟨t, (a.cast t).bits &&& (b.cast t).bits⟩

/-- The operator `a | b`. -/
def bor (a b : CInt) : CInt :=
  let t := a.ty.common b.ty
  ⟨t, (a.cast t).bits ||| (b.cast t).bits⟩

/-- The operator `a ^ b`. -/
def bxor (a b : CInt) : CInt :=
  let t := a.ty.common b.ty
  ⟨t, (a.cast t).bits ^^^ (b.cast t).bits⟩

/-- The operator `~a`. -/
def bnot (a : CInt) : CInt :=
  let t := a.ty.promote
  ⟨t, (2 ^ t.width - 1) ^^^ (a.cast t).bits⟩

/-- The operator `a << b`, computed in the promoted type of `a`: the bit pattern is
shifted and reduced modulo `2^width`, for a signed `a` as for an unsigned one. -/
def shl (a b : CInt) : Option CInt :=
  let t := a.ty.promote
  let x := (a.cast t).toInt
  let n := b.toInt
  if n < 0 ∨ (t.width : Int) ≤ n then none
  else some (t.ofInt (x * 2 ^ n.toNat))

/-- The operator `a >> b`, computed in the promoted type of `a` (arithmetic shift on
a negative value). -/
def shr (a b : CInt) : Option CInt :=
  let t := a.ty.promote
  let x := (a.cast t).toInt
  let n := b.toInt
  if n < 0 ∨ (t.width : Int) ≤ n then none
  else some (t.ofInt (x / 2 ^ n.toNat))

/-- The comparison `a < b`, made in the common type. -/
def lt (a b : CInt) : Bool :=
  let t := a.ty.common b.ty
  decide ((a.cast t).toInt < (b.cast t).toInt)

/-- The comparison `a > b`. -/
def gt (a b : CInt) : Bool := lt b a

/-- The conditional `c ? a : b`; the result has the common type of both branches. -/
def cond (c : Bool) (a b : CInt) : CInt :=
  let t := a.ty.common b.ty
  if c then a.cast t else b.cast t

/-- The unary operator `-a`, computed in the promoted type, modulo `2^width`. -/
def neg (a : CInt) : Option CInt :=
  let t := a.ty.promote
  let r := -(a.cast t).toInt
  some (t.ofInt r)

end CInt

/-- An integer literal of type `int`. -/
def lit (n : Int) : CInt := CType.int.ofInt n
/-- An integer literal with the suffix `ull`. -/
def litull (n : Int) : CInt := CType.uintmax.ofInt n

/-- Width of the native storage type selected for `Bits` (the `type_if` chain); a width
above 64 selects `void` in the source and does not compile. -/
def storageWidth (Bits : Nat) : Nat :=
  if Bits ≤ 8 then 8 else if Bits ≤ 16 then 16 else if Bits ≤ 32 then 32 else 64

/-- The number whose binary digits are ones exactly at the positions `lo..hi`. -/
def rangeMask (lo hi : Nat) : Nat := (2 ^ (hi - lo + 1) - 1) * 2 ^ lo

/-- The value in `[-2^(Bits-1), 2^(Bits-1) - 1]` congruent to `v` modulo `2^Bits`: the
`Bits`-bit two's-complement wrap of `v`. -/
def wrapSigned (Bits : Nat) (v : Int) : Int :=
  (v + 2 ^ (Bits - 1)) % 2 ^ Bits - 2 ^ (Bits - 1)

/-! ## Public mutators, as data -/

/-- A write through a view: `set`, view assignment, the compound operators and the
increments / decrements of `Reference`. -/
inductive ViewOp where
  | set (value : CInt)
  | assign (value : CInt)
  | andAssign (value : CInt)
  | orAssign (value : CInt)
  | xorAssign (value : CInt)
  | shlAssign (value : CInt)
  | shrAssign (value : CInt)
  | addAssign (value : CInt)
  | subAssign (value : CInt)
  | mulAssign (value : CInt)
  | divAssign (value : CInt)
  | modAssign (value : CInt)
  | postInc
  | postDec
  | preInc
  | preDec

/-- The view factories `bits(lo, hi)`, `bit(index)`, `byte(index)`. -/
inductive View where
  | bits (lo hi : CInt)
  | bit (index : CInt)
  | byte (index : CInt)

/-- A public mutator of a value type. -/
inductive Op where
  | assign (value : CInt)
  | postInc
  | postDec
  | preInc
  | preDec
  | andAssign (value : CInt)
  | orAssign (value : CInt)
  | xorAssign (value : CInt)
  | shlAssign (value : CInt)
  | shrAssign (value : CInt)
  | addAssign (value : CInt)
  | subAssign (value : CInt)
  | mulAssign (value : CInt)
  | divAssign (value : CInt)
  | modAssign (value : CInt)
  | view (w : View) (o : ViewOp)

/-- The writes through a view whose expression is built from assignment, `+`, `-`,
`*`, `&`, `|`, `^` only: no shift of the operand, no division. -/
def ViewOp.isArith : ViewOp → Bool
  | .shlAssign _ => false
  | .shrAssign _ => false
  | .divAssign _ => false
  | .modAssign _ => false
  | _ => true

/-- The mutators whose expression is built from assignment, `+`, `-`, `*`, `&`, `|`,
`^` only: no shift, no division, no view. -/
def Op.isArith : Op → Bool
  | .shlAssign _ => false
  | .shrAssign _ => false
  | .divAssign _ => false
  | .modAssign _ => false
  | .view _ _ => false
  | _ => true

/-! ## Natural<Bits> -/

/-- The value type `Natural<Bits>`: its only field is `data`. -/
structure Natural (Bits : Nat) where
  data : Nat
deriving DecidableEq

namespace Natural

variable {Bits : Nat}

/-- The storage type `Natural<Bits>::type`. -/
def type (Bits : Nat) : CType := ⟨false, storageWidth Bits⟩

/-- The enumerator `Mask = ~0ull >> (64 - Bits)`, as a number. -/
def Mask (Bits : Nat) : Nat := (2 ^ 64 - 1) >>> (64 - Bits)

/-- The enumerator `Mask` as a value of the enumeration (underlying type `type`). -/
def MaskC (Bits : Nat) : CInt := ⟨type Bits, Mask Bits⟩

/-- The field `data` read as a native value of type `type`; this is also the
conversion `operator type()`. -/
def dataC (x : Natural Bits) : CInt := (type Bits).ofInt x.data

/-- Private setter `set(type value)`: `data = value & Mask`. -/
def set (Bits : Nat) (value : CInt) : Natural Bits :=
  let value := value.cast (type Bits)
  ⟨((value.band (MaskC Bits)).cast (type Bits)).bits⟩

/-- Default constructor `Natural() : data(0)`. -/
def zero (Bits : Nat) : Natural Bits := ⟨0⟩

/-- Constructor `Natural(const T& value) { set(value); }`. -/
def construct (Bits : Nat) (value : CInt) : Natural Bits := set Bits value

/-- Assignment `operator=(const T& value) { set(value); return *this; }`. -/
def assign (_x : Natural Bits) (value : CInt) : Natural Bits := set Bits value

/-- Post-increment `operator++(int)`: the old value and the updated object. -/
def postInc (x : Natural Bits) : Option (CInt × Natural Bits) := do
  let value := x.dataC
  let r ← x.dataC.add (lit 1)
  pure (value, set Bits r)

/-- Post-decrement `operator--(int)`. -/
def postDec (x : Natural Bits) : Option (CInt × Natural Bits) := do
  let value := x.dataC
  let r ← x.dataC.sub (lit 1)
  pure (value, set Bits r)

/-- Pre-increment `operator++()`: `set(data + 1)`. -/
def preInc (x : Natural Bits) : Option (Natural Bits) := do
  let r ← x.dataC.add (lit 1)
  pure (set Bits r)

/-- Pre-decrement `operator--()`: `set(data - 1)`. -/
def preDec (x : Natural Bits) : Option (Natural Bits) := do
  let r ← x.dataC.sub (lit 1)
  pure (set Bits r)

/-- Compound `operator&=(const type value)`: `set(data & value)`. -/
def andAssign (x : Natural Bits) (value : CInt) : Natural Bits :=
  let value := value.cast (type Bits)
  set Bits (x.dataC.band value)

/-- Compound `operator|=`: `set(data | value)`. -/
def orAssign (x : Natural Bits) (value : CInt) : Natural Bits :=
  let value := value.cast (type Bits)
  set Bits (x.dataC.bor value)

/-- Compound `operator^=`: `set(data ^ value)`. -/
def xorAssign (x : Natural Bits) (value : CInt) : Natural Bits :=
  let value := value.cast (type Bits)
  set Bits (x.dataC.bxor value)

/-- Compound `operator<<=`: `set(data << value)`. -/
def shlAssign (x : Natural Bits) (value : CInt) : Option (Natural Bits) := do
  let value := value.cast (type Bits)
  let r ← x.dataC.shl value
  pure (set Bits r)

/-- Compound `operator>>=`: `set(data >> value)`. -/
def shrAssign (x : Natural Bits) (value : CInt) : Option (Natural Bits) := do
  let value := value.cast (type Bits)
  let r ← x.dataC.shr value
  pure (set Bits r)

/-- Compound `operator+=`: `set(data + value)`. -/
def addAssign (x : Natural Bits) (value : CInt) : Option (Natural Bits) := do
  let value := value.cast (type Bits)
  let r ← x.dataC.add value
  pure (set Bits r)

/-- Compound `operator-=`: `set(data - value)`. -/
def subAssign (x : Natural Bits) (value : CInt) : Option (Natural Bits) := do
  let value := value.cast (type Bits)
  let r ← x.dataC.sub value
  pure (set Bits r)

/-- Compound `operator*=`: `set(data * value)`. -/
def mulAssign (x : Natural Bits) (value : CInt) : Option (Natural Bits) := do
  let value := value.cast (type Bits)
  let r ← x.dataC.mul value
  pure (set Bits r)

/-- Compound `operator/=`: `set(data / value)`. -/
def divAssign (x : Natural Bits) (value : CInt) : Option (Natural Bits) := do
  let value := value.cast (type Bits)
  let r ← x.dataC.div value
  pure (set Bits r)

/-- Compound `operator%=`: `set(data % value)`. -/
def modAssign (x : Natural Bits) (value : CInt) : Option (Natural Bits) := do
  let value := value.cast (type Bits)
  let r ← x.dataC.mod value
  pure (set Bits r)

/-- The view `Natural<Bits>::Reference`: the parent and the members `Lo`, `Hi`
(both of type `const type`). -/
structure Reference (Bits : Nat) where
  source : Natural Bits
  Lo : CInt
  Hi : CInt

namespace Reference

/-- Constructor `Reference(Natural& source, uint lo, uint hi)`: the members
`Lo(lo)`, `Hi(hi)` are converted to `type`. -/
def construct (source : Natural Bits) (lo hi : CInt) : Reference Bits :=
  let lo := lo.cast CType.uint
  let hi := hi.cast CType.uint
  ⟨source, lo.cast (type Bits), hi.cast (type Bits)⟩

/-- The local `RangeBits = Hi - Lo + 1` of `get` and `set`. -/
def RangeBits (r : Reference Bits) : Option CInt := do
  let d ← r.Hi.sub r.Lo
  let e ← d.add (lit 1)
  pure (e.cast (type Bits))

/-- The local `RangeMask = (((1ull << RangeBits) - 1) << Lo) & Mask` of `get` and `set`. -/
def RangeMask (r : Reference Bits) : Option CInt := do
  let RangeBits ← r.RangeBits
  let a ← (litull 1).shl RangeBits
  let b ← a.sub (lit 1)
  let c ← b.shl r.Lo
  pure ((c.band (MaskC Bits)).cast (type Bits))

/-- The method `get()`: `return (source & RangeMask) >> Lo`. -/
def get (r : Reference Bits) : Option CInt := do
  let RangeMask ← r.RangeMask
  let v ← (r.source.dataC.band RangeMask).shr r.Lo
  pure (v.cast (type Bits))

/-- The method `set(const type value)`:
`source = (source & ~RangeMask) | ((value << Lo) & RangeMask)`. -/
def set (r : Reference Bits) (value : CInt) : Option (Reference Bits) := do
  let value := value.cast (type Bits)
  let RangeMask ← r.RangeMask
  let s ← value.shl r.Lo
  let v := (r.source.dataC.band RangeMask.bnot).bor (s.band RangeMask)
  pure { r with source := r.source.assign v }

/-- View `operator=(const type value)`: `set(value)`. -/
def assign (r : Reference Bits) (value : CInt) : Option (Reference Bits) :=
  r.set (value.cast (type Bits))

/-- View `operator&=`: `set(get() & value)`. -/
def andAssign (r : Reference Bits) (value : CInt) : Option (Reference Bits) := do
  let value := value.cast (type Bits)
  let g ← r.get
  r.set (g.band value)

/-- View `operator|=`: `set(get() | value)`. -/
def orAssign (r : Reference Bits) (value : CInt) : Option (Reference Bits) := do
  let value := value.cast (type Bits)
  let g ← r.get
  r.set (g.bor value)

/-- View `operator^=`: `set(get() ^ value)`. -/
def xorAssign (r : Reference Bits) (value : CInt) : Option (Reference Bits) := do
  let value := value.cast (type Bits)
  let g ← r.get
  r.set (g.bxor value)

/-- View `operator<<=`: `set(get() << value)`. -/
def shlAssign (r : Reference Bits) (value : CInt) : Option (Reference Bits) := do
  let value := value.cast (type Bits)
  let g ← r.get
  let v ← g.shl value
  r.set v

/-- View `operator>>=`: `set(get() >> value)`. -/
def shrAssign (r : Reference Bits) (value : CInt) : Option (Reference Bits) := do
  let value := value.cast (type Bits)
  let g ← r.get
  let v ← g.shr value
  r.set v

/-- View `operator+=`: `set(get() + value)`. -/
def addAssign (r : Reference Bits) (value : CInt) : Option (Reference Bits) := do
  let value := value.cast (type Bits)
  let g ← r.get
  let v ← g.add value
  r.set v

/-- View `operator-=`: `set(get() - value)`. -/
def subAssign (r : Reference Bits) (value : CInt) : Option (Reference Bits) := do
  let value := value.cast (type Bits)
  let g ← r.get
  let v ← g.sub value
  r.set v

/-- View `operator*=`: `set(get() * value)`. -/
def mulAssign (r : Reference Bits) (value : CInt) : Option (Reference Bits) := do
  let value := value.cast (type Bits)
  let g ← r.get
  let v ← g.mul value
  r.set v

/-- View `operator/=`: `set(get() / value)`. -/
def divAssign (r : Reference Bits) (value : CInt) : Option (Reference Bits) := do
  let value := value.cast (type Bits)
  let g ← r.get
  let v ← g.div value
  r.set v

/-- View `operator%=`: `set(get() % value)`. -/
def modAssign (r : Reference Bits) (value : CInt) : Option (Reference Bits) := do
  let value := value.cast (type Bits)
  let g ← r.get
  let v ← g.mod value
  r.set v

/-- View `operator++(int)`: `auto value = get(); set(value + 1); return value;`. -/
def postInc (r : Reference Bits) : Option (CInt × Reference Bits) := do
  let value ← r.get
  let v ← value.add (lit 1)
  let r2 ← r.set v
  pure (value, r2)

/-- View `operator--(int)`: `auto value = get(); set(value - 1); return value;`. -/
def postDec (r : Reference Bits) : Option (CInt × Reference Bits) := do
  let value ← r.get
  let v ← value.sub (lit 1)
  let r2 ← r.set v
  pure (value, r2)

/-- View `operator++()`: `set(get() + 1)`. -/
def preInc (r : Reference Bits) : Option (Reference Bits) := do
  let g ← r.get
  let v ← g.add (lit 1)
  r.set v

/-- View `operator--()`: `set(get() - 1)`. -/
def preDec (r : Reference Bits) : Option (Reference Bits) := do
  let g ← r.get
  let v ← g.sub (lit 1)
  r.set v

end Reference

/-- The factory `bits(uint lo, uint hi)`:
`{*this, lo < hi ? lo : hi, hi > lo ? hi : lo}`. -/
def bits (x : Natural Bits) (lo hi : CInt) : Reference Bits :=
  let lo := lo.cast CType.uint
  let hi := hi.cast CType.uint
  Reference.construct x (CInt.cond (lo.lt hi) lo hi) (CInt.cond (hi.gt lo) hi lo)

/-- The factory `bit(uint index)`: `{*this, index, index}`. -/
def bit (x : Natural Bits) (index : CInt) : Reference Bits :=
  let index := index.cast CType.uint
  Reference.construct x index index

/-- The factory `byte(uint index)`: `{*this, index * 8 + 0, index * 8 + 7}`. -/
def byte (x : Natural Bits) (index : CInt) : Option (Reference Bits) := do
  let index := index.cast CType.uint
  let m ← index.mul (lit 8)
  let lo ← m.add (lit 0)
  let hi ← m.add (lit 7)
  pure (Reference.construct x lo hi)

/-- The method `clamp(uint bits) -> uintmax`. -/
def clamp (x : Natural Bits) (bits : CInt) : Option CInt := do
  let bits := bits.cast CType.uint
  let n ← bits.sub (lit 1)
  let b := (← (litull 1).shl n).cast CType.uintmax
  let m := (← (← b.mul (lit 2)).sub (lit 1)).cast CType.uintmax
  pure ((CInt.cond (x.dataC.lt m) x.dataC m).cast CType.uintmax)

/-- The method `clip(uint bits) -> uintmax`. -/
def clip (x : Natural Bits) (bits : CInt) : Option CInt := do
  let bits := bits.cast CType.uint
  let n ← bits.sub (lit 1)
  let b := (← (litull 1).shl n).cast CType.uintmax
  let m := (← (← b.mul (lit 2)).sub (lit 1)).cast CType.uintmax
  pure ((x.dataC.band m).cast CType.uintmax)

/-- A write through a view, by name. -/
def Reference.apply (r : Reference Bits) : ViewOp → Option (Reference Bits)
  | .set v => r.set v
  | .assign v => r.assign v
  | .andAssign v => r.andAssign v
  | .orAssign v => r.orAssign v
  | .xorAssign v => r.xorAssign v
  | .shlAssign v => r.shlAssign v
  | .shrAssign v => r.shrAssign v
  | .addAssign v => r.addAssign v
  | .subAssign v => r.subAssign v
  | .mulAssign v => r.mulAssign v
  | .divAssign v => r.divAssign v
  | .modAssign v => r.modAssign v
  | .postInc => r.postInc.map Prod.snd
  | .postDec => r.postDec.map Prod.snd
  | .preInc => r.preInc
  | .preDec => r.preDec

/-- A view factory, by name. -/
def view (x : Natural Bits) : View → Option (Reference Bits)
  | .bits lo hi => some (x.bits lo hi)
  | .bit index => some (x.bit index)
  | .byte index => x.byte index

/-- One public mutator applied to the object; `none` when its native operation has
no result. -/
def step (x : Natural Bits) : Op → Option (Natural Bits)
  | .assign v => some (x.assign v)
  | .postInc => x.postInc.map Prod.snd
  | .postDec => x.postDec.map Prod.snd
  | .preInc => x.preInc
  | .preDec => x.preDec
  | .andAssign v => some (x.andAssign v)
  | .orAssign v => some (x.orAssign v)
  | .xorAssign v => some (x.xorAssign v)
  | .shlAssign v => x.shlAssign v
  | .shrAssign v => x.shrAssign v
  | .addAssign v => x.addAssign v
  | .subAssign v => x.subAssign v
  | .mulAssign v => x.mulAssign v
  | .divAssign v => x.divAssign v
  | .modAssign v => x.modAssign v
  | .view w o => do
    let r ← x.view w
    let r2 ← r.apply o
    pure r2.source

/-- A sequence of public mutators applied in order. -/
def run (x : Natural Bits) : List Op → Option (Natural Bits)
  | [] => some x
  | o :: os => (x.step o).bind fun y => y.run os

end Natural

/-! ## Integer<Bits> -/

/-- The value type `Integer<Bits>`: its only field is `data`. -/
structure Integer (Bits : Nat) where
  data : Int
deriving DecidableEq

namespace Integer

variable {Bits : Nat}

/-- The storage type `Integer<Bits>::type`. -/
def type (Bits : Nat) : CType := ⟨true, storageWidth Bits⟩

/-- The type `Integer<Bits>::utype = Natural<Bits>::type`. -/
def utype (Bits : Nat) : CType := Natural.type Bits

/-- The enumerator `Mask = ~0ull >> (64 - Bits)`, as a number. -/
def Mask (Bits : Nat) : Nat := (2 ^ 64 - 1) >>> (64 - Bits)

/-- The enumerator `Sign = 1ull << (Bits - 1)`, as a number. -/
def Sign (Bits : Nat) : Nat := 1 <<< (Bits - 1)

/-- The enumerator `Mask` as a value of the enumeration (underlying type `utype`). -/
def MaskC (Bits : Nat) : CInt := ⟨utype Bits, Mask Bits⟩

/-- The enumerator `Sign` as a value of the enumeration (underlying type `utype`). -/
def SignC (Bits : Nat) : CInt := ⟨utype Bits, Sign Bits⟩

/-- The field `data` read as a native value of type `type`; this is also the
conversion `operator type()`. -/
def dataC (x : Integer Bits) : CInt := (type Bits).ofInt x.data

/-- Private setter `set(type value)`: `data = ((value & Mask) ^ Sign) - Sign`. -/
def set (Bits : Nat) (value : CInt) : Option (Integer Bits) := do
  let value := value.cast (type Bits)
  let r ← ((value.band (MaskC Bits)).bxor (SignC Bits)).sub (SignC Bits)
  pure ⟨(r.cast (type Bits)).toInt⟩

/-- Default constructor `Integer() : data(0)`. -/
def zero (Bits : Nat) : Integer Bits := ⟨0⟩

/-- Constructor `Integer(const T& value) { set(value); }`. -/
def construct (Bits : Nat) (value : CInt) : Option (Integer Bits) := set Bits value

/-- Assignment `operator=(const T& value) { set(value); return *this; }`. -/
def assign (_x : Integer Bits) (value : CInt) : Option (Integer Bits) := set Bits value

/-- Post-increment `operator++(int)`: the old value and the updated object. -/
def postInc (x : Integer Bits) : Option (CInt × Integer Bits) := do
  let value := x.dataC
  let r ← x.dataC.add (lit 1)
  let y ← set Bits r
  pure (value, y)

/-- Post-decrement `operator--(int)`. -/
def postDec (x : Integer Bits) : Option (CInt × Integer Bits) := do
  let value := x.dataC
  let r ← x.dataC.sub (lit 1)
  let y ← set Bits r
  pure (value, y)

/-- Pre-increment `operator++()`: `set(data + 1)`. -/
def preInc (x : Integer Bits) : Option (Integer Bits) := do
  let r ← x.dataC.add (lit 1)
  set Bits r

/-- Pre-decrement `operator--()`: `set(data - 1)`. -/
def preDec (x : Integer Bits) : Option (Integer Bits) := do
  let r ← x.dataC.sub (lit 1)
  set Bits r

/-- Compound `operator&=(const type value)`: `set(data & value)`. -/
def andAssign (x : Integer Bits) (value : CInt) : Option (Integer Bits) :=
  let value := value.cast (type Bits)
  set Bits (x.dataC.band value)

/-- Compound `operator|=`: `set(data | value)`. -/
def orAssign (x : Integer Bits) (value : CInt) : Option (Integer Bits) :=
  let value := value.cast (type Bits)
  set Bits (x.dataC.bor value)

/-- Compound `operator^=`: `set(data ^ value)`. -/
def xorAssign (x : Integer Bits) (value : CInt) : Option (Integer Bits) :=
  let value := value.cast (type Bits)
  set Bits (x.dataC.bxor value)

/-- Compound `operator<<=`: `set(data << value)`. -/
def shlAssign (x : Integer Bits) (value : CInt) : Option (Integer Bits) := do
  let value := value.cast (type Bits)
  let r ← x.dataC.shl value
  set Bits r

/-- Compound `operator>>=`: `set(data >> value)`. -/
def shrAssign (x : Integer Bits) (value : CInt) : Option (Integer Bits) := do
  let value := value.cast (type Bits)
  let r ← x.dataC.shr value
  set Bits r

/-- Compound `operator+=`: `set(data + value)`. -/
def addAssign (x : Integer Bits) (value : CInt) : Option (Integer Bits) := do
  let value := value.cast (type Bits)
  let r ← x.dataC.add value
  set Bits r

/-- Compound `operator-=`: `set(data - value)`. -/
def subAssign (x : Integer Bits) (value : CInt) : Option (Integer Bits) := do
  let value := value.cast (type Bits)
  let r ← x.dataC.sub value
  set Bits r

/-- Compound `operator*=`: `set(data * value)`. -/
def mulAssign (x : Integer Bits) (value : CInt) : Option (Integer Bits) := do
  let value := value.cast (type Bits)
  let r ← x.dataC.mul value
  set Bits r

/-- Compound `operator/=`: `set(data / value)`. -/
def divAssign (x : Integer Bits) (value : CInt) : Option (Integer Bits) := do
  let value := value.cast (type Bits)
  let r ← x.dataC.div value
  set Bits r

/-- Compound `operator%=`: `set(data % value)`. -/
def modAssign (x : Integer Bits) (value : CInt) : Option (Integer Bits) := do
  let value := value.cast (type Bits)
  let r ← x.dataC.mod value
  set Bits r

/-- The view `Integer<Bits>::Reference`: the parent and the members `Lo`, `Hi`
(both of type `const uint`). -/
structure Reference (Bits : Nat) where
  source : Integer Bits
  Lo : CInt
  Hi : CInt

namespace Reference

/-- Constructor `Reference(Integer& source, uint lo, uint hi)`. -/
def construct (source : Integer Bits) (lo hi : CInt) : Reference Bits :=
  ⟨source, lo.cast CType.uint, hi.cast CType.uint⟩

/-- The local `const type RangeBits = Hi - Lo + 1` of `get` and `set`. -/
def RangeBits (r : Reference Bits) : Option CInt := do
  let d ← r.Hi.sub r.Lo
  let e ← d.add (lit 1)
  pure (e.cast (type Bits))

/-- The local `const type RangeMask = (((1ull << RangeBits) - 1) << Lo) & Mask`
of `get` and `set`. -/
def RangeMask (r : Reference Bits) : Option CInt := do
  let RangeBits ← r.RangeBits
  let a ← (litull 1).shl RangeBits
  let b ← a.sub (lit 1)
  let c ← b.shl r.Lo
  pure ((c.band (MaskC Bits)).cast (type Bits))

/-- The method `get() -> utype`: `return ((utype)source & RangeMask) >> Lo`. -/
def get (r : Reference Bits) : Option CInt := do
  let RangeMask ← r.RangeMask
  let v ← ((r.source.dataC.cast (utype Bits)).band RangeMask).shr r.Lo
  pure (v.cast (utype Bits))

/-- The method `set(const utype value)`:
`source = ((utype)source & ~RangeMask) | ((value << Lo) & RangeMask)`. -/
def set (r : Reference Bits) (value : CInt) : Option (Reference Bits) := do
  let value := value.cast (utype Bits)
  let RangeMask ← r.RangeMask
  let s ← value.shl r.Lo
  let v := ((r.source.dataC.cast (utype Bits)).band RangeMask.bnot).bor (s.band RangeMask)
  let y ← r.source.assign v
  pure { r with source := y }

/-- View `operator=(const utype value)`: `set(value)`. -/
def assign (r : Reference Bits) (value : CInt) : Option (Reference Bits) :=
  r.set (value.cast (utype Bits))

/-- View `operator&=`: `set(get() & value)`. -/
def andAssign (r : Reference Bits) (value : CInt) : Option (Reference Bits) := do
  let value := value.cast (utype Bits)
  let g ← r.get
  r.set (g.band value)

/-- View `operator|=`: `set(get() | value)`. -/
def orAssign (r : Reference Bits) (value : CInt) : Option (Reference Bits) := do
  let value := value.cast (utype Bits)
  let g ← r.get
  r.set (g.bor value)

/-- View `operator^=`: `set(get() ^ value)`. -/
def xorAssign (r : Reference Bits) (value : CInt) : Option (Reference Bits) := do
  let value := value.cast (utype Bits)
  let g ← r.get
  r.set (g.bxor value)

/-- View `operator<<=`: `set(get() << value)`. -/
def shlAssign (r : Reference Bits) (value : CInt) : Option (Reference Bits) := do
  let value := value.cast (utype Bits)
  let g ← r.get
  let v ← g.shl value
  r.set v

/-- View `operator>>=`: `set(get() >> value)`. -/
def shrAssign (r : Reference Bits) (value : CInt) : Option (Reference Bits) := do
  let value := value.cast (utype Bits)
  let g ← r.get
  let v ← g.shr value
  r.set v

/-- View `operator+=`: `set(get() + value)`. -/
def addAssign (r : Reference Bits) (value : CInt) : Option (Reference Bits) := do
  let value := value.cast (utype Bits)
  let g ← r.get
  let v ← g.add value
  r.set v

/-- View `operator-=`: `set(get() - value)`. -/
def subAssign (r : Reference Bits) (value : CInt) : Option (Reference Bits) := do
  let value := value.cast (utype Bits)
  let g ← r.get
  let v ← g.sub value
  r.set v

/-- View `operator*=`: `set(get() * value)`. -/
def mulAssign (r : Reference Bits) (value : CInt) : Option (Reference Bits) := do
  let value := value.cast (utype Bits)
  let g ← r.get
  let v ← g.mul value
  r.set v

/-- View `operator/=`: `set(get() / value)`. -/
def divAssign (r : Reference Bits) (value : CInt) : Option (Reference Bits) := do
  let value := value.cast (utype Bits)
  let g ← r.get
  let v ← g.div value
  r.set v

/-- View `operator%=`: `set(get() % value)`. -/
def modAssign (r : Reference Bits) (value : CInt) : Option (Reference Bits) := do
  let value := value.cast (utype Bits)
  let g ← r.get
  let v ← g.mod value
  r.set v

/-- View `operator++(int)`: `auto value = get(); set(value + 1); return value;`. -/
def postInc (r : Reference Bits) : Option (CInt × Reference Bits) := do
  let value ← r.get
  let v ← value.add (lit 1)
  let r2 ← r.set v
  pure (value, r2)

/-- View `operator--(int)`: `auto value = get(); set(value - 1); return value;`. -/
def postDec (r : Reference Bits) : Option (CInt × Reference Bits) := do
  let value ← r.get
  let v ← value.sub (lit 1)
  let r2 ← r.set v
  pure (value, r2)

/-- View `operator++()`: `set(get() + 1)`. -/
def preInc (r : Reference Bits) : Option (Reference Bits) := do
  let g ← r.get
  let v ← g.add (lit 1)
  r.set v

/-- View `operator--()`: `set(get() - 1)`. -/
def preDec (r : Reference Bits) : Option (Reference Bits) := do
  let g ← r.get
  let v ← g.sub (lit 1)
  r.set v

end Reference

/-- The factory `bits(uint lo, uint hi)`:
`{*this, lo < hi ? lo : hi, hi > lo ? hi : lo}`. -/
def bits (x : Integer Bits) (lo hi : CInt) : Reference Bits :=
  let lo := lo.cast CType.uint
  let hi := hi.cast CType.uint
  Reference.construct x (CInt.cond (lo.lt hi) lo hi) (CInt.cond (hi.gt lo) hi lo)

/-- The factory `bit(uint index)`: `{*this, index, index}`. -/
def bit (x : Integer Bits) (index : CInt) : Reference Bits :=
  let index := index.cast CType.uint
  Reference.construct x index index

/-- The factory `byte(uint index)`: `{*this, index * 8 + 0, index * 8 + 7}`. -/
def byte (x : Integer Bits) (index : CInt) : Option (Reference Bits) := do
  let index := index.cast CType.uint
  let m ← index.mul (lit 8)
  let lo ← m.add (lit 0)
  let hi ← m.add (lit 7)
  pure (Reference.construct x lo hi)

/-- The method `clamp(uint bits) -> intmax`:
`return data > m ? m : data < -b ? -b : data`, the branches evaluated on demand. -/
def clamp (x : Integer Bits) (bits : CInt) : Option CInt := do
  let bits := bits.cast CType.uint
  let n ← bits.sub (lit 1)
  let b := (← (litull 1).shl n).cast CType.intmax
  let m := (← b.sub (lit 1)).cast CType.intmax
  if x.dataC.gt m then pure (m.cast CType.intmax)
  else do
    let nb ← b.neg
    if x.dataC.lt nb then pure (nb.cast CType.intmax)
    else pure (x.dataC.cast CType.intmax)

/-- The method `clip(uint bits) -> intmax`: `return ((data & m) ^ b) - b`. -/
def clip (x : Integer Bits) (bits : CInt) : Option CInt := do
  let bits := bits.cast CType.uint
  let n ← bits.sub (lit 1)
  let b := (← (litull 1).shl n).cast CType.uintmax
  let m := (← (← b.mul (lit 2)).sub (lit 1)).cast CType.uintmax
  let r ← ((x.dataC.band m).bxor b).sub b
  pure (r.cast CType.intmax)

/-- A write through a view, by name. -/
def Reference.apply (r : Reference Bits) : ViewOp → Option (Reference Bits)
  | .set v => r.set v
  | .assign v => r.assign v
  | .andAssign v => r.andAssign v
  | .orAssign v => r.orAssign v
  | .xorAssign v => r.xorAssign v
  | .shlAssign v => r.shlAssign v
  | .shrAssign v => r.shrAssign v
  | .addAssign v => r.addAssign v
  | .subAssign v => r.subAssign v
  | .mulAssign v => r.mulAssign v
  | .divAssign v => r.divAssign v
  | .modAssign v => r.modAssign v
  | .postInc => r.postInc.map Prod.snd
  | .postDec => r.postDec.map Prod.snd
  | .preInc => r.preInc
  | .preDec => r.preDec

/-- A view factory, by name. -/
def view (x : Integer Bits) : View → Option (Reference Bits)
  | .bits lo hi => some (x.bits lo hi)
  | .bit index => some (x.bit index)
  | .byte index => x.byte index

/-- One public mutator applied to the object; `none` when its native operation has
no result. -/
def step (x : Integer Bits) : Op → Option (Integer Bits)
  | .assign v => x.assign v
  | .postInc => x.postInc.map Prod.snd
  | .postDec => x.postDec.map Prod.snd
  | .preInc => x.preInc
  | .preDec => x.preDec
  | .andAssign v => x.andAssign v
  | .orAssign v => x.orAssign v
  | .xorAssign v => x.xorAssign v
  | .shlAssign v => x.shlAssign v
  | .shrAssign v => x.shrAssign v
  | .addAssign v => x.addAssign v
  | .subAssign v => x.subAssign v
  | .mulAssign v => x.mulAssign v
  | .divAssign v => x.divAssign v
  | .modAssign v => x.modAssign v
  | .view w o => do
    let r ← x.view w
    let r2 ← r.apply o
    pure r2.source

/-- A sequence of public mutators applied in order. -/
def run (x : Integer Bits) : List Op → Option (Integer Bits)
  | [] => some x
  | o :: os => (x.step o).bind fun y => y.run os

/-- Whether the division of a mutator traps: `/=` and `%=` on the object when the
operator has no result (a zero divisor, or a quotient that is not representable), and
`/=` and `%=` through a view, which divide unsigned values, for a zero divisor. -/
def traps (x : Integer Bits) : Op → Bool
  | .divAssign v => (x.dataC.div (v.cast (type Bits))).isNone
  | .modAssign v => (x.dataC.mod (v.cast (type Bits))).isNone
  | .view _ (.divAssign v) => decide ((v.cast (utype Bits)).toInt = 0)
  | .view _ (.modAssign v) => decide ((v.cast (utype Bits)).toInt = 0)
  | _ => false

/-- One public mutator in an arbitrary run of the code. The body of every mutator is
`set(e); return ...`, and a write through a view is `source = e`, that is
`source.set(e)`: unless a division traps, the mutator ends in the setter of the
object. Where every operator of `e` has a result, this is `step`. Where one has none
(a shift count out of range: the outcome depends on how the expression is compiled),
the setter receives the value `u` that this run computed for `e`, whatever it is. -/
def stepAny (x : Integer Bits) (o : Op) (u : CInt) : Option (Integer Bits) :=
  if x.traps o then none
  else
    match x.step o with
    | some y => some y
    | none => set Bits u

/-- A sequence of public mutators in an arbitrary run of the code, each paired with
the value its run computes where the operators give none; a trapping division ends
the sequence, with the object as it is. -/
def runAny (x : Integer Bits) : List (Op × CInt) → Integer Bits
  | [] => x
  | (o, u) :: os =>
    match x.stepAny o u with
    | some y => y.runAny os
    | none => x

end Integer

end nall

namespace nall

/-! ## Lemmas: non-negative values of the native types -/

theorem two_pow_mono {a b : Nat} (h : a ≤ b) : 2 ^ a ≤ 2 ^ b :=
  Nat.pow_le_pow_right (by decide) h

theorem CType.fits_lt {t : CType} {n : Nat} (h : t.fits n) : n < 2 ^ t.width := by
  unfold CType.fits at h
  split at h
  · exact lt_of_lt_of_le h (two_pow_mono (Nat.sub_le _ _))
  · exact h

theorem CType.width_le_promote (t : CType) : t.width ≤ t.promote.width := by
  unfold CType.promote CType.int
  split <;> simp; omega

theorem CType.fits_promote {t : CType} {n : Nat} (h : t.fits n) : t.promote.fits n := by
  unfold CType.promote
  split
  · rename_i hw
    have := CType.fits_lt h
    have h2 : 2 ^ t.width ≤ 2 ^ 31 := two_pow_mono (by omega)
    simp [CType.fits, CType.int]; omega
  · exact h

theorem CType.fits_common_left {ta : CType} (tb : CType) {n : Nat} (h : ta.fits n) :
    (ta.common tb).fits n := by
  have hp := CType.fits_promote h
  have hl := CType.fits_lt hp
  unfold CType.common
  simp only
  split
  · rename_i hw
    unfold CType.fits
    split
    · exact lt_of_lt_of_le hl (two_pow_mono (by omega))
    · exact lt_of_lt_of_le hl (two_pow_mono (by omega))
  · split
    · exact hp
    · unfold CType.fits at hp ⊢
      cases hs : ta.promote.isSigned <;> cases hs2 : tb.promote.isSigned <;> simp_all

theorem CType.fits_common_right (ta : CType) {tb : CType} {n : Nat} (h : tb.fits n) :
    (ta.common tb).fits n := by
  have hp := CType.fits_promote h
  have hl := CType.fits_lt hp
  unfold CType.common
  simp only
  split
  · exact hp
  · split
    · unfold CType.fits
      split
      · exact lt_of_lt_of_le hl (two_pow_mono (by omega))
      · exact lt_of_lt_of_le hl (two_pow_mono (by omega))
    · have hw : ta.promote.width = tb.promote.width := by omega
      unfold CType.fits at hp ⊢
      cases hs : ta.promote.isSigned <;> cases hs2 : tb.promote.isSigned <;> simp_all

theorem CInt.toInt_mk {t : CType} {n : Nat} (h : t.fits n) : (CInt.mk t n).toInt = n := by
  unfold CInt.toInt CType.fits at *
  split at h
  · rename_i hs
    simp only [hs, true_and]
    rw [if_neg (by omega)]
  · rename_i hs
    simp [hs]

theorem CType.ofInt_natCast (t : CType) {n : Nat} (h : n < 2 ^ t.width) :
    t.ofInt (n : Int) = ⟨t, n⟩ := by
  unfold CType.ofInt
  congr 1
  have : ((n : Int) % 2 ^ t.width) = ((n % 2 ^ t.width : Nat) : Int) := by
    push_cast; rfl
  rw [this, Int.toNat_ofNat, Nat.mod_eq_of_lt h]

theorem CInt.cast_mk {t : CType} {n : Nat} (h : t.fits n) (t2 : CType) (h2 : n < 2 ^ t2.width) :
    (CInt.mk t n).cast t2 = ⟨t2, n⟩ := by
  unfold CInt.cast
  rw [CInt.toInt_mk h, CType.ofInt_natCast t2 h2]

theorem CInt.cast_mk_fits {t : CType} {n : Nat} (h : t.fits n) {t2 : CType} (h2 : t2.fits n) :
    (CInt.mk t n).cast t2 = ⟨t2, n⟩ :=
  CInt.cast_mk h t2 (CType.fits_lt h2)

theorem CInt.band_mk {ta tb : CType} {n m : Nat} (ha : ta.fits n) (hb : tb.fits m) :
    (CInt.mk ta n).band (CInt.mk tb m) = ⟨ta.common tb, n &&& m⟩ := by
  unfold CInt.band
  simp only
  rw [CInt.cast_mk_fits ha (CType.fits_common_left tb ha),
    CInt.cast_mk_fits hb (CType.fits_common_right ta hb)]

theorem CInt.bor_mk {ta tb : CType} {n m : Nat} (ha : ta.fits n) (hb : tb.fits m) :
    (CInt.mk ta n).bor (CInt.mk tb m) = ⟨ta.common tb, n ||| m⟩ := by
  unfold CInt.bor
  simp only
  rw [CInt.cast_mk_fits ha (CType.fits_common_left tb ha),
    CInt.cast_mk_fits hb (CType.fits_common_right ta hb)]

theorem CInt.bxor_mk {ta tb : CType} {n m : Nat} (ha : ta.fits n) (hb : tb.fits m) :
    (CInt.mk ta n).bxor (CInt.mk tb m) = ⟨ta.common tb, n ^^^ m⟩ := by
  unfold CInt.bxor
  simp only
  rw [CInt.cast_mk_fits ha (CType.fits_common_left tb ha),
    CInt.cast_mk_fits hb (CType.fits_common_right ta hb)]

theorem CInt.arith_mk (f : Int → Int → Int) {ta tb : CType} {n m : Nat}
    (ha : ta.fits n) (hb : tb.fits m) :
    CInt.arith f (CInt.mk ta n) (CInt.mk tb m) = some ((ta.common tb).ofInt (f n m)) := by
  unfold CInt.arith
  simp only
  rw [CInt.cast_mk_fits ha (CType.fits_common_left tb ha),
    CInt.cast_mk_fits hb (CType.fits_common_right ta hb),
    CInt.toInt_mk (CType.fits_common_left tb ha), CInt.toInt_mk (CType.fits_common_right ta hb)]

theorem CInt.shl_mk {ta tb : CType} {n m : Nat} (ha : ta.fits n) (hb : tb.fits m) :
    (CInt.mk ta n).shl (CInt.mk tb m) =
      if ta.promote.width ≤ m then none
      else some (ta.promote.ofInt ((n * 2 ^ m : Nat) : Int)) := by
  unfold CInt.shl
  simp only
  rw [CInt.cast_mk_fits ha (CType.fits_promote ha), CInt.toInt_mk (CType.fits_promote ha),
    CInt.toInt_mk hb]
  have h0 : ¬ ((m : Int) < 0) := by omega
  simp only [h0, false_or, Int.toNat_ofNat, Nat.cast_le]
  split
  · rfl
  · congr 1
    push_cast; rfl

theorem CInt.shr_mk {ta tb : CType} {n m : Nat} (ha : ta.fits n) (hb : tb.fits m) :
    (CInt.mk ta n).shr (CInt.mk tb m) =
      if ta.promote.width ≤ m then none else some ⟨ta.promote, n / 2 ^ m⟩ := by
  unfold CInt.shr
  simp only
  rw [CInt.cast_mk_fits ha (CType.fits_promote ha), CInt.toInt_mk (CType.fits_promote ha),
    CInt.toInt_mk hb]
  have h0 : ¬ ((m : Int) < 0) := by omega
  simp only [h0, false_or, Int.toNat_ofNat, Nat.cast_le]
  split
  · rfl
  · congr 1
    have : ((n : Int) / 2 ^ m) = ((n / 2 ^ m : Nat) : Int) := by push_cast; rfl
    rw [this]
    apply CType.ofInt_natCast
    exact lt_of_le_of_lt (Nat.div_le_self _ _) (CType.fits_lt (CType.fits_promote ha))

theorem CInt.lt_mk {ta tb : CType} {n m : Nat} (ha : ta.fits n) (hb : tb.fits m) :
    (CInt.mk ta n).lt (CInt.mk tb m) = decide (n < m) := by
  unfold CInt.lt
  simp only
  rw [CInt.cast_mk_fits ha (CType.fits_common_left tb ha),
    CInt.cast_mk_fits hb (CType.fits_common_right ta hb),
    CInt.toInt_mk (CType.fits_common_left tb ha), CInt.toInt_mk (CType.fits_common_right ta hb)]
  simp

theorem CInt.cond_mk (c : Bool) {ta tb : CType} {n m : Nat} (ha : ta.fits n) (hb : tb.fits m) :
    CInt.cond c (CInt.mk ta n) (CInt.mk tb m) = ⟨ta.common tb, if c then n else m⟩ := by
  unfold CInt.cond
  simp only
  rw [CInt.cast_mk_fits ha (CType.fits_common_left tb ha),
    CInt.cast_mk_fits hb (CType.fits_common_right ta hb)]
  cases c <;> rfl

/-! ## Lemmas: the storage width and the setter of Natural -/

theorem le_storageWidth {Bits : Nat} (h : Bits ≤ 64) : Bits ≤ storageWidth Bits := by
  unfold storageWidth
  split_ifs <;> omega

theorem storageWidth_pos (Bits : Nat) : 1 ≤ storageWidth Bits := by
  unfold storageWidth
  split_ifs <;> omega

theorem storageWidth_le (Bits : Nat) : storageWidth Bits ≤ 64 := by
  unfold storageWidth
  split_ifs <;> omega

theorem Natural.Mask_eq {Bits : Nat} (h : Bits ≤ 64) : Natural.Mask Bits = 2 ^ Bits - 1 := by
  unfold Natural.Mask
  interval_cases Bits <;> rfl

/-- Reduction modulo `2^k` of a reduction modulo `2^w`, for `k ≤ w`. -/
theorem toNat_emod_emod {k w : Nat} (h : k ≤ w) (v : Int) :
    (v % 2 ^ w).toNat % 2 ^ k = (v % 2 ^ k).toNat := by
  have hd : (2 : Int) ^ k ∣ 2 ^ w := pow_dvd_pow 2 h
  have h1 : (0 : Int) ≤ v % 2 ^ w := Int.emod_nonneg _ (by positivity)
  have h2 : (0 : Int) ≤ v % 2 ^ k := Int.emod_nonneg _ (by positivity)
  zify
  rw [Int.toNat_of_nonneg h1, Int.toNat_of_nonneg h2, Int.emod_emod_of_dvd _ hd]

theorem toNat_emod_lt (w : Nat) (v : Int) : (v % 2 ^ w).toNat < 2 ^ w := by
  have h1 : (0 : Int) ≤ v % 2 ^ w := Int.emod_nonneg _ (by positivity)
  have h2 : v % 2 ^ w < 2 ^ w := Int.emod_lt_of_pos _ (by positivity)
  zify
  rw [Int.toNat_of_nonneg h1]
  exact h2

theorem CInt.cast_eq_mk (a : CInt) (t : CType) :
    a.cast t = ⟨t, (a.toInt % 2 ^ t.width).toNat⟩ := rfl

theorem Natural.type_width (Bits : Nat) : (Natural.type Bits).width = storageWidth Bits := rfl

theorem Natural.fits_type {Bits n : Nat} (h : n < 2 ^ storageWidth Bits) :
    (Natural.type Bits).fits n := by
  simp [CType.fits, Natural.type, h]

theorem Natural.set_data {Bits : Nat} (h64 : Bits ≤ 64) (v : CInt) :
    (Natural.set Bits v).data = (v.toInt % 2 ^ Bits).toNat := by
  have hW := le_storageWidth h64
  have ha : (v.toInt % 2 ^ storageWidth Bits).toNat < 2 ^ storageWidth Bits := toNat_emod_lt _ _
  have hM : Natural.Mask Bits < 2 ^ storageWidth Bits := by
    rw [Natural.Mask_eq h64]
    have := two_pow_mono hW
    have : 0 < 2 ^ Bits := by positivity
    omega
  have hand : (v.toInt % 2 ^ storageWidth Bits).toNat &&& Natural.Mask Bits
      < 2 ^ storageWidth Bits := lt_of_le_of_lt Nat.and_le_right hM
  unfold Natural.set Natural.MaskC
  simp only
  rw [CInt.cast_eq_mk v (Natural.type Bits), Natural.type_width,
    CInt.band_mk (Natural.fits_type ha) (Natural.fits_type hM),
    CInt.cast_mk (CType.fits_common_left (Natural.type Bits) (Natural.fits_type hand))
      (Natural.type Bits) hand,
    Natural.Mask_eq h64, Nat.and_pow_two_sub_one_eq_mod, toNat_emod_emod hW]

theorem Natural.set_le {Bits : Nat} (h64 : Bits ≤ 64) (v : CInt) :
    (Natural.set Bits v).data ≤ 2 ^ Bits - 1 := by
  rw [Natural.set_data h64]
  have := toNat_emod_lt Bits v.toInt
  omega

theorem Natural.ext_data {Bits : Nat} {x y : Natural Bits} (h : x.data = y.data) : x = y := by
  cases x; cases y; simp_all

/-! ## Lemmas: conversions, residues and masking -/

theorem CType.width_le_common_left (ta tb : CType) : ta.width ≤ (ta.common tb).width := by
  have h1 := CType.width_le_promote ta
  unfold CType.common
  simp only
  split_ifs <;> simp <;> omega

theorem CType.width_le_common_right (ta tb : CType) : tb.width ≤ (ta.common tb).width := by
  have h1 := CType.width_le_promote tb
  unfold CType.common
  simp only
  split_ifs <;> simp <;> omega

theorem CInt.toInt_emod (a : CInt) {k : Nat} (hk : k ≤ a.ty.width) :
    a.toInt % 2 ^ k = (a.bits : Int) % 2 ^ k := by
  unfold CInt.toInt
  split
  · have hd : (2 : Int) ^ k ∣ 2 ^ a.ty.width := pow_dvd_pow 2 hk
    obtain ⟨c, hc⟩ := hd
    rw [hc, sub_eq_add_neg, ← mul_neg, Int.add_mul_emod_self_left]
  · rfl

theorem CType.ofInt_congr (t : CType) {x y : Int} (h : x % 2 ^ t.width = y % 2 ^ t.width) :
    t.ofInt x = t.ofInt y := by
  unfold CType.ofInt
  rw [h]

theorem CType.ofInt_bits_emod (t : CType) (x : Int) {k : Nat} (hk : k ≤ t.width) :
    ((t.ofInt x).bits : Int) % 2 ^ k = x % 2 ^ k := by
  have h1 : (0 : Int) ≤ x % 2 ^ t.width := Int.emod_nonneg _ (by positivity)
  have hd : (2 : Int) ^ k ∣ 2 ^ t.width := pow_dvd_pow 2 hk
  simp only [CType.ofInt]
  rw [Int.toNat_of_nonneg h1, Int.emod_emod_of_dvd _ hd]

theorem CInt.cast_ofInt (c : CType) (x : Int) (t : CType) (h : t.width ≤ c.width) :
    (c.ofInt x).cast t = t.ofInt x := by
  unfold CInt.cast
  apply CType.ofInt_congr
  rw [CInt.toInt_emod _ (by simpa [CType.ofInt] using h), CType.ofInt_bits_emod c x h]

theorem CInt.toInt_ofInt_of_holds {t : CType} (hw : 1 ≤ t.width) {v : Int}
    (h : t.holds v = true) : (t.ofInt v).toInt = v := by
  unfold CType.holds at h
  unfold CInt.toInt CType.ofInt
  have hp : (2 : Int) ^ t.width = 2 * 2 ^ (t.width - 1) := by
    rw [← pow_succ']
    congr 1
    omega
  have hpos : (0 : Int) < 2 ^ (t.width - 1) := by positivity
  cases hs : t.isSigned
  · simp only [hs, Bool.false_eq_true, ↓reduceIte, decide_eq_true_eq, false_and] at h ⊢
    rw [Int.emod_eq_of_lt h.1 h.2, Int.toNat_of_nonneg h.1]
  · simp only [hs, ↓reduceIte, decide_eq_true_eq, true_and] at h ⊢
    have h1 : (0 : Int) ≤ v % 2 ^ t.width := Int.emod_nonneg _ (by positivity)
    have e : ((2 : Nat) ^ (t.width - 1) ≤ (v % 2 ^ t.width).toNat) ↔
        ((2 : Int) ^ (t.width - 1) ≤ v % 2 ^ t.width) := by
      zify
      rw [Int.toNat_of_nonneg h1]
    rw [Int.toNat_of_nonneg h1]
    simp only [e]
    by_cases hv : 0 ≤ v
    · have : v % 2 ^ t.width = v := Int.emod_eq_of_lt hv (by omega)
      rw [this, if_neg (by omega)]
    · have : v % 2 ^ t.width = v + 2 ^ t.width := by
        have e2 := Int.add_mul_emod_self (a := v) (b := 1) (c := 2 ^ t.width)
        rw [one_mul] at e2
        rw [← e2]
        exact Int.emod_eq_of_lt (by omega) (by omega)
      rw [this, if_pos (by omega)]
      omega

theorem CInt.band_mask (a : CInt) {tb : CType} {k : Nat} (hk : k ≤ tb.width)
    (hb : tb.fits (2 ^ k - 1)) :
    a.band ⟨tb, 2 ^ k - 1⟩ = ⟨a.ty.common tb, (a.toInt % 2 ^ k).toNat⟩ := by
  unfold CInt.band
  simp only
  rw [CInt.cast_mk_fits hb (CType.fits_common_right a.ty hb), CInt.cast_eq_mk]
  simp only
  rw [Nat.and_pow_two_sub_one_eq_mod,
    toNat_emod_emod (le_trans hk (CType.width_le_common_right a.ty tb))]

/-! ## Lemmas: the xor / subtract sign extension -/

/-- Flipping bit `k` of a number below `2^k` adds `2^k`. -/
theorem xor_two_pow_of_lt {p k : Nat} (h : p < 2 ^ k) : p ^^^ 2 ^ k = 2 ^ k + p := by
  apply Nat.eq_of_testBit_eq
  intro i
  have e := Nat.testBit_mul_pow_two_add 1 h i
  rw [Nat.mul_one] at e
  rw [e, Nat.testBit_xor, Nat.testBit_two_pow]
  by_cases hi : i < k
  · have : ¬ k = i := by omega
    simp [hi, this]
  · have hp : p.testBit i = false :=
      Nat.testBit_lt_two_pow (lt_of_lt_of_le h (two_pow_mono (by omega)))
    by_cases hik : k = i
    · subst hik
      simp [hp]
    · have h0 : ¬ 0 = i - k := by omega
      have h1 := @Nat.testBit_two_pow 0 (i - k)
      rw [pow_zero] at h1
      simp [hi, hp, hik, h1, h0]

/-- Flipping bit `k` of a number in `[2^k, 2^(k+1))` subtracts `2^k`. -/
theorem xor_two_pow_of_ge {p k : Nat} (h1 : 2 ^ k ≤ p) (h2 : p < 2 ^ (k + 1)) :
    p ^^^ 2 ^ k = p - 2 ^ k := by
  have hr : p - 2 ^ k < 2 ^ k := by rw [pow_succ] at h2; omega
  have e := xor_two_pow_of_lt hr
  have e2 : 2 ^ k + (p - 2 ^ k) = p := by omega
  rw [e2] at e
  calc p ^^^ 2 ^ k = ((p - 2 ^ k) ^^^ 2 ^ k) ^^^ 2 ^ k := by rw [e]
    _ = p - 2 ^ k := by rw [Nat.xor_assoc, Nat.xor_self, Nat.xor_zero]

/-- The xor / subtract trick: sign extension of a `(k+1)`-bit pattern. -/
theorem xor_sub_sign {p k : Nat} (h : p < 2 ^ (k + 1)) :
    ((p ^^^ 2 ^ k : Nat) : Int) - 2 ^ k = if p < 2 ^ k then (p : Int) else (p : Int) - 2 ^ (k + 1) := by
  split
  · rename_i hlt
    rw [xor_two_pow_of_lt hlt]
    push_cast
    ring
  · rename_i hge
    rw [xor_two_pow_of_ge (by omega) h]
    have : 2 ^ k ≤ p := by omega
    push_cast [this]
    rw [pow_succ]
    ring

/-! ## Lemmas: the setter of Integer -/

theorem Integer.int_type_width (Bits : Nat) : (Integer.type Bits).width = storageWidth Bits := rfl

theorem Integer.utype_width (Bits : Nat) : (Integer.utype Bits).width = storageWidth Bits := rfl

theorem Integer.int_Mask_eq {Bits : Nat} (h : Bits ≤ 64) : Integer.Mask Bits = 2 ^ Bits - 1 :=
  Natural.Mask_eq h

theorem Integer.Sign_eq (Bits : Nat) : Integer.Sign Bits = 2 ^ (Bits - 1) := by
  unfold Integer.Sign
  rw [Nat.one_shiftLeft]

theorem Integer.fits_utype {Bits n : Nat} (h : n < 2 ^ storageWidth Bits) :
    (Integer.utype Bits).fits n := Natural.fits_type h

theorem CType.holds_sub_of_fits {t : CType} {q s : Nat} (hq : t.fits q) (hs : t.fits s)
    (h : t.isSigned = true) : t.holds ((q : Int) - s) = true := by
  unfold CType.fits at hq hs
  unfold CType.holds
  simp only [h, ↓reduceIte, decide_eq_true_eq] at hq hs ⊢
  have e : ((2 : Nat) ^ (t.width - 1) : Int) = (2 : Int) ^ (t.width - 1) := by push_cast; rfl
  omega

/-- A difference of two non-negative values, in the common type. -/
theorem CInt.sub_mk {ta tb : CType} {q s : Nat} (ha : ta.fits q) (hb : tb.fits s) :
    (CInt.mk ta q).sub (CInt.mk tb s) = some ((ta.common tb).ofInt ((q : Int) - s)) := by
  unfold CInt.sub
  rw [CInt.arith_mk _ ha hb]

/-- Range of the xor / subtract result. -/
theorem xor_sub_sign_range {p k : Nat} (h : p < 2 ^ (k + 1)) :
    -(2 : Int) ^ k ≤ ((p ^^^ 2 ^ k : Nat) : Int) - 2 ^ k ∧
      ((p ^^^ 2 ^ k : Nat) : Int) - 2 ^ k < 2 ^ k := by
  rw [xor_sub_sign h]
  have e : ((2 : Nat) ^ k : Int) = (2 : Int) ^ k := by push_cast; rfl
  have e2 : (2 : Int) ^ (k + 1) = 2 * 2 ^ k := by rw [pow_succ]; ring
  have hpos : (0 : Int) < 2 ^ k := by positivity
  split <;> omega

theorem Integer.set_eq {Bits : Nat} (h1 : 1 ≤ Bits) (h64 : Bits ≤ 64) (v : CInt) :
    Integer.set Bits v =
      some ⟨(((v.toInt % 2 ^ Bits).toNat ^^^ 2 ^ (Bits - 1) : Nat) : Int) - 2 ^ (Bits - 1)⟩ := by
  have hW := le_storageWidth h64
  have hWp := two_pow_mono hW
  have hB : Bits - 1 + 1 = Bits := by omega
  have hpos : 0 < 2 ^ (Bits - 1) := by positivity
  have hS2 : 2 ^ Bits = 2 * 2 ^ (Bits - 1) := by
    conv_lhs => rw [← hB]
    rw [pow_succ]; ring
  -- the operands
  have hMf : (Integer.utype Bits).fits (2 ^ Bits - 1) := Integer.fits_utype (by omega)
  have hSf : (Integer.utype Bits).fits (2 ^ (Bits - 1)) := Integer.fits_utype (by omega)
  have hp : (v.toInt % 2 ^ Bits).toNat < 2 ^ Bits := toNat_emod_lt _ _
  have hpf : (Integer.utype Bits).fits (v.toInt % 2 ^ Bits).toNat :=
    Integer.fits_utype (by omega)
  have hq : (v.toInt % 2 ^ Bits).toNat ^^^ 2 ^ (Bits - 1) < 2 ^ Bits :=
    Nat.xor_lt_two_pow hp (by omega)
  have hqf : (Integer.utype Bits).fits ((v.toInt % 2 ^ Bits).toNat ^^^ 2 ^ (Bits - 1)) :=
    Integer.fits_utype (by omega)
  -- value & Mask
  have e1 : ((v.cast (Integer.type Bits)).band (Integer.MaskC Bits)) =
      ⟨(Integer.type Bits).common (Integer.utype Bits), (v.toInt % 2 ^ Bits).toNat⟩ := by
    unfold Integer.MaskC
    rw [Integer.int_Mask_eq h64, CInt.band_mask _ (by rw [Integer.utype_width]; exact hW) hMf]
    congr 2
    rw [CInt.toInt_emod _ (by simpa [CInt.cast, CType.ofInt, Integer.int_type_width] using hW)]
    exact CType.ofInt_bits_emod _ _ (by rw [Integer.int_type_width]; exact hW)
  unfold Integer.set
  simp only [Option.bind_eq_bind, Option.pure_def]
  rw [e1]
  unfold Integer.SignC
  rw [Integer.Sign_eq, CInt.bxor_mk (CType.fits_common_right _ hpf) hSf,
    CInt.sub_mk (CType.fits_common_right _ hqf) hSf]
  simp only [Option.some_bind]
  rw [CInt.cast_ofInt _ _ _ (by
    rw [Integer.int_type_width, ← Integer.utype_width]; exact CType.width_le_common_right _ _)]
  have hr := xor_sub_sign_range (p := (v.toInt % 2 ^ Bits).toNat) (k := Bits - 1) (by rw [hB]; exact hp)
  have hWp1 : (2 : Int) ^ (Bits - 1) ≤ 2 ^ (storageWidth Bits - 1) := by
    exact_mod_cast two_pow_mono (a := Bits - 1) (b := storageWidth Bits - 1) (by omega)
  rw [CInt.toInt_ofInt_of_holds (by rw [Integer.int_type_width]; exact storageWidth_pos Bits)]
  · push_cast; rfl
  · simp only [CType.holds, Integer.type, ↓reduceIte, decide_eq_true_eq]
    push_cast
    omega

/-! ## Lemmas: literals and the locals of clamp and clip -/

theorem CInt.cast_of_toInt_eq {a : CInt} {n : Nat} (h : a.toInt = n) (t : CType)
    (hn : n < 2 ^ t.width) : a.cast t = ⟨t, n⟩ := by
  unfold CInt.cast
  rw [h, CType.ofInt_natCast t hn]

theorem lit_eq {n : Nat} (h : n < 2 ^ 32) : lit (n : Int) = ⟨CType.int, n⟩ :=
  CType.ofInt_natCast CType.int h

theorem litull_eq {n : Nat} (h : n < 2 ^ 64) : litull (n : Int) = ⟨CType.uintmax, n⟩ :=
  CType.ofInt_natCast CType.uintmax h

theorem CType.fits_int {n : Nat} (h : n < 2 ^ 31) : CType.int.fits n := by
  simpa [CType.fits, CType.int] using h

theorem CType.fits_uint {n : Nat} (h : n < 2 ^ 32) : CType.uint.fits n := by
  simpa [CType.fits, CType.uint] using h

theorem CType.fits_uintmax {n : Nat} (h : n < 2 ^ 64) : CType.uintmax.fits n := by
  simpa [CType.fits, CType.uintmax] using h

theorem Natural.common_type_uintmax (Bits : Nat) :
    (Natural.type Bits).common CType.uintmax = CType.uintmax := by
  unfold Natural.type storageWidth
  split_ifs <;> rfl

theorem Natural.dataC_eq {Bits : Nat} (h64 : Bits ≤ 64) {x : Natural Bits}
    (hx : x.data ≤ 2 ^ Bits - 1) : x.dataC = ⟨Natural.type Bits, x.data⟩ := by
  unfold Natural.dataC
  apply CType.ofInt_natCast
  rw [Natural.type_width]
  have := two_pow_mono (le_storageWidth h64)
  have : 0 < 2 ^ Bits := by positivity
  omega

theorem Natural.fits_data {Bits : Nat} (h64 : Bits ≤ 64) {x : Natural Bits}
    (hx : x.data ≤ 2 ^ Bits - 1) : (Natural.type Bits).fits x.data := by
  apply Natural.fits_type
  have := two_pow_mono (le_storageWidth h64)
  have : 0 < 2 ^ Bits := by positivity
  omega

/-- The locals `b` and `m` of `Natural::clamp` and `Natural::clip`: for a target width
`1 ≤ n ≤ 64` the computation is defined and `m = 2^n - 1`. -/
theorem clamp_locals {bits : CInt} {n : Nat} (hn : bits.toInt = n) (h1 : 1 ≤ n)
    (h64 : n ≤ 64) :
    ((bits.cast CType.uint).sub (lit 1)) = some ⟨CType.uint, n - 1⟩ ∧
    ((litull 1).shl ⟨CType.uint, n - 1⟩) = some ⟨CType.uintmax, 2 ^ (n - 1)⟩ ∧
    ((CInt.mk CType.uintmax (2 ^ (n - 1))).mul (lit 2)) =
      some ⟨CType.uintmax, 2 ^ n % 2 ^ 64⟩ ∧
    ((CInt.mk CType.uintmax (2 ^ n % 2 ^ 64)).sub (lit 1)) =
      some ⟨CType.uintmax, 2 ^ n - 1⟩ := by
  have hp : 2 ^ (n - 1) < 2 ^ 64 := Nat.pow_lt_pow_right (by decide) (by omega)
  have hn2 : 2 ^ n = 2 ^ (n - 1) * 2 := by
    rw [← pow_succ]; congr 1; omega
  have l1 : lit 1 = ⟨CType.int, 1⟩ := lit_eq (n := 1) (by decide)
  have l2 : lit 2 = ⟨CType.int, 2⟩ := lit_eq (n := 2) (by decide)
  have lu : litull 1 = ⟨CType.uintmax, 1⟩ := litull_eq (n := 1) (by decide)
  refine ⟨?_, ?_, ?_, ?_⟩
  · rw [CInt.cast_of_toInt_eq hn CType.uint (by simp [CType.uint]; omega), l1,
      CInt.sub_mk (CType.fits_uint (by omega)) (CType.fits_int (by decide))]
    congr 1
    have e : ((n : Int) - ((1 : Nat) : Int)) = ((n - 1 : Nat) : Int) := by omega
    rw [e]
    exact CType.ofInt_natCast _ (by simp [CType.uint, CType.common, CType.promote, CType.int]; omega)
  · rw [lu, CInt.shl_mk (CType.fits_uintmax (by decide)) (CType.fits_uint (by omega))]
    have hw : CType.uintmax.promote = CType.uintmax := rfl
    rw [hw, if_neg (by simp [CType.uintmax]; omega), Nat.one_mul]
    congr 1
    exact CType.ofInt_natCast _ hp
  · rw [l2, CInt.mul, CInt.arith_mk _ (CType.fits_uintmax hp) (CType.fits_int (by decide))]
    have hc : CType.uintmax.common CType.int = CType.uintmax := rfl
    rw [hc]
    congr 1
    unfold CType.ofInt
    congr 1
    have e : ((2 ^ (n - 1) : Nat) : Int) * ((2 : Nat) : Int) = ((2 ^ n : Nat) : Int) := by
      rw [hn2]; push_cast; ring
    rw [e]
    have e2 : ((2 ^ n : Nat) : Int) % 2 ^ CType.uintmax.width = ((2 ^ n % 2 ^ 64 : Nat) : Int) := by
      push_cast; rfl
    rw [e2, Int.toNat_ofNat]
  · rw [l1, CInt.sub_mk (CType.fits_uintmax (Nat.mod_lt _ (by positivity)))
      (CType.fits_int (by decide))]
    have hc : CType.uintmax.common CType.int = CType.uintmax := rfl
    rw [hc]
    congr 1
    have hpos : 0 < 2 ^ n := by positivity
    have hle : 2 ^ n ≤ 2 ^ 64 := two_pow_mono h64
    rw [← CType.ofInt_natCast CType.uintmax (n := 2 ^ n - 1) (by simp [CType.uintmax]; omega)]
    apply CType.ofInt_congr
    have e3 : ((2 ^ n - 1 : Nat) : Int) = ((2 ^ n : Nat) : Int) - 1 := by omega
    rw [e3]
    have e2 : ((2 ^ n % 2 ^ 64 : Nat) : Int) = ((2 ^ n : Nat) : Int) % 2 ^ CType.uintmax.width := by
      push_cast; rfl
    rw [e2, Nat.cast_one, Int.sub_emod, Int.emod_emod_of_dvd _ (dvd_refl _), ← Int.sub_emod]

/-! ## Lemmas: promotion, sums, differences and complement -/

theorem CType.promote_promote (t : CType) : t.promote.promote = t.promote := by
  by_cases h : t.width < 32
  · simp [CType.promote, h, CType.int]
  · simp [CType.promote, h]

theorem CType.common_of_promote_eq {a b : CType} (h : a.promote = b.promote) :
    a.common b = a.promote := by
  unfold CType.common
  simp only [← h, lt_self_iff_false, ↓reduceIte, Bool.and_self]

theorem CType.common_self (t : CType) : t.common t = t.promote :=
  CType.common_of_promote_eq rfl

theorem CType.common_promote_left (t : CType) : t.promote.common t = t.promote := by
  rw [CType.common_of_promote_eq (CType.promote_promote t), CType.promote_promote]

theorem CType.common_promote_right (t : CType) : t.common t.promote = t.promote :=
  CType.common_of_promote_eq (CType.promote_promote t).symm

theorem CType.promote_width_ge (t : CType) : 32 ≤ t.promote.width := by
  by_cases h : t.width < 32
  · simp [CType.promote, h, CType.int]
  · simp only [CType.promote, h, ↓reduceIte]
    omega

theorem CType.fits_mono {t : CType} {n m : Nat} (h : t.fits n) (hm : m ≤ n) : t.fits m := by
  unfold CType.fits at *
  cases hs : t.isSigned <;> simp only [hs, Bool.false_eq_true, ↓reduceIte] at h ⊢ <;> omega

/-- A sum of non-negative values that fits the common type. -/
theorem CInt.add_mk {ta tb : CType} {n m : Nat} (ha : ta.fits n) (hb : tb.fits m)
    (hc : (ta.common tb).fits (n + m)) :
    (CInt.mk ta n).add (CInt.mk tb m) = some ⟨ta.common tb, n + m⟩ := by
  unfold CInt.add
  rw [CInt.arith_mk _ ha hb]
  congr 1
  have e : ((n : Int) + (m : Int)) = ((n + m : Nat) : Int) := by push_cast; rfl
  rw [e]
  exact CType.ofInt_natCast _ (CType.fits_lt hc)

/-- A difference `n - m` with `m ≤ n` of non-negative values is defined. -/
theorem CInt.sub_mk_of_le {ta tb : CType} {n m : Nat} (ha : ta.fits n) (hb : tb.fits m)
    (h : m ≤ n) : (CInt.mk ta n).sub (CInt.mk tb m) = some ⟨ta.common tb, n - m⟩ := by
  rw [CInt.sub_mk ha hb]
  congr 1
  have e : ((n : Int) - (m : Int)) = ((n - m : Nat) : Int) := by omega
  rw [e]
  exact CType.ofInt_natCast _
    (CType.fits_lt (CType.fits_mono (CType.fits_common_left tb ha) (Nat.sub_le _ _)))

/-- Conversion of a well-formed value to its own type changes nothing. -/
theorem CInt.cast_self (a : CInt) (h : a.bits < 2 ^ a.ty.width) : a.cast a.ty = a := by
  unfold CInt.cast CType.ofInt
  have e : a.toInt % 2 ^ a.ty.width = (a.bits : Int) := by
    rw [CInt.toInt_emod a (le_refl _)]
    exact Int.emod_eq_of_lt (by omega) (by exact_mod_cast h)
  rw [e, Int.toNat_ofNat]

theorem CInt.bnot_mk {t : CType} {n : Nat} (h : t.fits n) :
    (CInt.mk t n).bnot = ⟨t.promote, (2 ^ t.promote.width - 1) ^^^ n⟩ := by
  unfold CInt.bnot
  simp only
  rw [CInt.cast_mk_fits h (CType.fits_promote h)]

/-- And-ing a non-negative value with a complemented mask. -/
theorem CInt.band_bnot_mk {t : CType} {d n : Nat} (hd : t.fits d) (hn : t.fits n) :
    (CInt.mk t d).band (CInt.mk t n).bnot =
      ⟨t.promote, d &&& ((2 ^ t.promote.width - 1) ^^^ n)⟩ := by
  rw [CInt.bnot_mk hn]
  unfold CInt.band
  simp only
  rw [CType.common_promote_right,
    CInt.cast_mk_fits hd (CType.fits_promote hd)]
  have hwf : (2 ^ t.promote.width - 1) ^^^ n < 2 ^ t.promote.width :=
    Nat.xor_lt_two_pow (by have : 0 < 2 ^ t.promote.width := by positivity
                           omega) (CType.fits_lt (CType.fits_promote hn))
  have := CInt.cast_self ⟨t.promote, (2 ^ t.promote.width - 1) ^^^ n⟩ hwf
  simp only at this
  rw [this]

/-! ## Lemmas: the view factory and RangeBits of Natural -/

theorem storageWidth_ge_eight (Bits : Nat) : 8 ≤ storageWidth Bits := by
  unfold storageWidth
  split_ifs <;> omega

/-- Small numbers are values of every type of at least eight bits. -/
theorem CType.fits_small {t : CType} {n : Nat} (hn : n ≤ 64) (hw : 8 ≤ t.width) :
    t.fits n := by
  have h1 : 2 ^ 7 ≤ 2 ^ (t.width - 1) := two_pow_mono (by omega)
  have h2 : 2 ^ 7 ≤ 2 ^ t.width := two_pow_mono (by omega)
  unfold CType.fits
  split <;> omega

theorem CType.common_width_ge (ta tb : CType) : 32 ≤ (ta.common tb).width := by
  have h1 := CType.promote_width_ge ta
  have h2 := CType.promote_width_ge tb
  unfold CType.common
  simp only
  split_ifs <;> simp <;> omega

theorem Natural.type_width_ge (Bits : Nat) : 8 ≤ (Natural.type Bits).width :=
  storageWidth_ge_eight Bits

/-- The factory `bits` orders its arguments: `Lo` is the smaller, `Hi` the larger. -/
theorem Natural.bits_eq {Bits : Nat} (x : Natural Bits) {lo hi : CInt} {a b : Nat}
    (ha : lo.toInt = a) (hb : hi.toInt = b) (ha64 : a < 64) (hb64 : b < 64) :
    x.bits lo hi = ⟨x, ⟨Natural.type Bits, min a b⟩, ⟨Natural.type Bits, max a b⟩⟩ := by
  have fa : CType.uint.fits a := CType.fits_uint (by omega)
  have fb : CType.uint.fits b := CType.fits_uint (by omega)
  have hc : CType.uint.common CType.uint = CType.uint := rfl
  have fmin : CType.uint.fits (min a b) := CType.fits_uint (by omega)
  have fmax : CType.uint.fits (max a b) := CType.fits_uint (by omega)
  have e1 : (if decide (a < b) = true then a else b) = min a b := by
    simp only [decide_eq_true_eq]; split <;> omega
  have e2 : (if decide (a < b) = true then b else a) = max a b := by
    simp only [decide_eq_true_eq]; split <;> omega
  unfold Natural.bits Natural.Reference.construct
  simp only
  rw [CInt.cast_of_toInt_eq ha CType.uint (CType.fits_lt fa),
    CInt.cast_of_toInt_eq hb CType.uint (CType.fits_lt fb)]
  unfold CInt.gt
  rw [CInt.lt_mk fa fb, CInt.cond_mk _ fa fb, CInt.cond_mk _ fb fa, hc, e1, e2,
    CInt.cast_mk_fits fmin fmin, CInt.cast_mk_fits fmax fmax,
    CInt.cast_mk_fits fmin (CType.fits_small (by omega) (Natural.type_width_ge Bits)),
    CInt.cast_mk_fits fmax (CType.fits_small (by omega) (Natural.type_width_ge Bits))]

theorem Natural.Reference.RangeBits_eq {Bits : Nat} (x : Natural Bits) {l h : Nat}
    (hlh : l ≤ h) (h64 : h < 64) :
    (Natural.Reference.mk x ⟨Natural.type Bits, l⟩ ⟨Natural.type Bits, h⟩).RangeBits =
      some ⟨Natural.type Bits, h - l + 1⟩ := by
  have fl : (Natural.type Bits).fits l := CType.fits_small (by omega) (Natural.type_width_ge Bits)
  have fh : (Natural.type Bits).fits h := CType.fits_small (by omega) (Natural.type_width_ge Bits)
  have l1 : lit 1 = ⟨CType.int, 1⟩ := lit_eq (n := 1) (by decide)
  have fc : ((Natural.type Bits).promote.common CType.int).fits (h - l + 1) :=
    CType.fits_small (by omega) (le_trans (by decide) (CType.common_width_ge _ _))
  unfold Natural.Reference.RangeBits
  simp only [Option.bind_eq_bind, Option.pure_def]
  rw [CInt.sub_mk_of_le fh fl hlh, CType.common_self, Option.some_bind, l1,
    CInt.add_mk (CType.fits_mono (CType.fits_promote fh) (Nat.sub_le _ _))
      (CType.fits_int (by decide)) fc,
    Option.some_bind,
    CInt.cast_mk_fits fc (CType.fits_small (by omega) (Natural.type_width_ge Bits))]

/-! ## Lemmas: RangeMask of a Natural view -/

theorem Natural.common_uintmax_type (Bits : Nat) :
    CType.uintmax.common (Natural.type Bits) = CType.uintmax := by
  unfold Natural.type storageWidth
  split_ifs <;> rfl

theorem rangeMask_lt {l h : Nat} (hlh : l ≤ h) : rangeMask l h < 2 ^ (h + 1) := by
  unfold rangeMask
  have e : 2 ^ (h + 1) = 2 ^ (h - l + 1) * 2 ^ l := by
    rw [← pow_add]; congr 1; omega
  have hpos : 0 < 2 ^ (h - l + 1) := by positivity
  have hpos2 : 0 < 2 ^ l := by positivity
  rw [e]
  exact Nat.mul_lt_mul_of_pos_right (by omega) hpos2

/-- The local `RangeMask` has exactly the bits `Lo..Hi` set, whenever the range is
narrower than 64 bits. -/
theorem Natural.Reference.RangeMask_eq {Bits : Nat} (hB64 : Bits ≤ 64) (x : Natural Bits)
    {l h : Nat} (hlh : l ≤ h) (hB : h < Bits) (hw : h - l + 1 < 64) :
    (Natural.Reference.mk x ⟨Natural.type Bits, l⟩ ⟨Natural.type Bits, h⟩).RangeMask =
      some ⟨Natural.type Bits, rangeMask l h⟩ := by
  have fl : (Natural.type Bits).fits l := CType.fits_small (by omega) (Natural.type_width_ge Bits)
  have frb : (Natural.type Bits).fits (h - l + 1) :=
    CType.fits_small (by omega) (Natural.type_width_ge Bits)
  have l1 : lit 1 = ⟨CType.int, 1⟩ := lit_eq (n := 1) (by decide)
  have lu : litull 1 = ⟨CType.uintmax, 1⟩ := litull_eq (n := 1) (by decide)
  have hpw : 2 ^ (h - l + 1) < 2 ^ 64 := Nat.pow_lt_pow_right (by decide) hw
  have hpos : 0 < 2 ^ (h - l + 1) := by positivity
  have hR := rangeMask_lt hlh
  have hRB : 2 ^ (h + 1) ≤ 2 ^ Bits := two_pow_mono (by omega)
  have hB2 : 2 ^ Bits ≤ 2 ^ 64 := two_pow_mono hB64
  have hBW : 2 ^ Bits ≤ 2 ^ storageWidth Bits := two_pow_mono (le_storageWidth hB64)
  have hMpos : 0 < 2 ^ Bits := by positivity
  have hup : CType.uintmax.promote = CType.uintmax := rfl
  have huc : CType.uintmax.common CType.int = CType.uintmax := rfl
  have hw64 : CType.uintmax.width = 64 := rfl
  have hs : CType.uintmax.isSigned = false := rfl
  unfold Natural.Reference.RangeMask
  simp only [Option.bind_eq_bind, Option.pure_def]
  rw [Natural.Reference.RangeBits_eq x hlh (by omega), Option.some_bind, lu,
    CInt.shl_mk (CType.fits_uintmax (by decide)) frb, hup, hw64,
    if_neg (by omega), Nat.one_mul, CType.ofInt_natCast _ (by rw [hw64]; exact hpw),
    Option.some_bind, l1,
    CInt.sub_mk_of_le (CType.fits_uintmax hpw) (CType.fits_int (by decide)) (by omega), huc,
    Option.some_bind,
    CInt.shl_mk (CType.fits_uintmax (by omega)) fl, hup, hw64,
    if_neg (by omega)]
  have e : (2 ^ (h - l + 1) - 1) * 2 ^ l = rangeMask l h := rfl
  rw [e, CType.ofInt_natCast _ (by rw [hw64]; omega), Option.some_bind]
  unfold Natural.MaskC
  rw [CInt.band_mk (CType.fits_uintmax (by omega))
      (Natural.fits_type (by rw [Natural.Mask_eq hB64]; omega)),
    Natural.common_uintmax_type, Natural.Mask_eq hB64, Nat.and_pow_two_sub_one_eq_mod,
    Nat.mod_eq_of_lt (by omega),
    CInt.cast_mk_fits (CType.fits_uintmax (by omega)) (Natural.fits_type (by omega))]

/-- On a range of 64 bits the local `RangeMask` evaluates `1ull << 64`, which is
undefined. -/
theorem Natural.Reference.RangeMask_full {Bits : Nat} (x : Natural Bits) {l h : Nat}
    (hlh : l ≤ h) (h64 : h < 64) (hw : h - l + 1 = 64) :
    (Natural.Reference.mk x ⟨Natural.type Bits, l⟩ ⟨Natural.type Bits, h⟩).RangeMask =
      none := by
  have frb : (Natural.type Bits).fits (h - l + 1) :=
    CType.fits_small (by omega) (Natural.type_width_ge Bits)
  have lu : litull 1 = ⟨CType.uintmax, 1⟩ := litull_eq (n := 1) (by decide)
  have hup : CType.uintmax.promote = CType.uintmax := rfl
  have hw64 : CType.uintmax.width = 64 := rfl
  unfold Natural.Reference.RangeMask
  simp only [Option.bind_eq_bind, Option.pure_def]
  rw [Natural.Reference.RangeBits_eq x hlh (by omega), Option.some_bind, lu,
    CInt.shl_mk (CType.fits_uintmax (by decide)) frb, hup, hw64, if_pos (by omega),
    Option.none_bind]

/-! ## Lemmas: reading a Natural view -/

/-- Bit `i` of `rangeMask lo hi` is set exactly for `lo ≤ i ≤ hi`. -/
theorem testBit_rangeMask {l h : Nat} (hlh : l ≤ h) (i : Nat) :
    (rangeMask l h).testBit i = decide (l ≤ i ∧ i ≤ h) := by
  unfold rangeMask
  rw [← Nat.shiftLeft_eq, Nat.testBit_shiftLeft, Nat.testBit_two_pow_sub_one]
  by_cases h1 : l ≤ i
  · by_cases h2 : i ≤ h
    · have : i - l < h - l + 1 := by omega
      simp [h1, h2, this]
    · have : ¬ i - l < h - l + 1 := by omega
      simp [h1, h2, this]
  · simp [h1]

/-- Extracting the field `lo..hi`: mask, then shift down. -/
theorem and_rangeMask_div {l h : Nat} (hlh : l ≤ h) (d : Nat) :
    (d &&& rangeMask l h) / 2 ^ l = d / 2 ^ l % 2 ^ (h - l + 1) := by
  apply Nat.eq_of_testBit_eq
  intro i
  rw [← Nat.shiftRight_eq_div_pow, ← Nat.shiftRight_eq_div_pow, Nat.testBit_shiftRight,
    Nat.testBit_and, testBit_rangeMask hlh, Nat.testBit_mod_two_pow, Nat.testBit_shiftRight]
  by_cases h2 : i < h - l + 1
  · have : l ≤ l + i ∧ l + i ≤ h := by omega
    simp [h2, this]
  · have : ¬ (l ≤ l + i ∧ l + i ≤ h) := by omega
    simp only [this, decide_False, Bool.and_false, h2, Bool.false_and]

theorem Natural.promote_type_width_ge (Bits : Nat) :
    storageWidth Bits ≤ (Natural.type Bits).promote.width :=
  CType.width_le_promote (Natural.type Bits)

/-- Reading a view narrower than 64 bits: the field `Lo..Hi` of the parent. -/
theorem Natural.Reference.get_eq {Bits : Nat} (hB64 : Bits ≤ 64) (x : Natural Bits)
    (hx : x.data ≤ 2 ^ Bits - 1) {l h : Nat} (hlh : l ≤ h) (hB : h < Bits)
    (hw : h - l + 1 < 64) :
    (Natural.Reference.mk x ⟨Natural.type Bits, l⟩ ⟨Natural.type Bits, h⟩).get =
      some ⟨Natural.type Bits, x.data / 2 ^ l % 2 ^ (h - l + 1)⟩ := by
  have fl : (Natural.type Bits).fits l := CType.fits_small (by omega) (Natural.type_width_ge Bits)
  have fd := Natural.fits_data hB64 hx
  have hR := rangeMask_lt hlh
  have hRB : 2 ^ (h + 1) ≤ 2 ^ Bits := two_pow_mono (by omega)
  have hBW : 2 ^ Bits ≤ 2 ^ storageWidth Bits := two_pow_mono (le_storageWidth hB64)
  have fR : (Natural.type Bits).fits (rangeMask l h) := Natural.fits_type (by omega)
  have fand : (Natural.type Bits).fits (x.data &&& rangeMask l h) :=
    CType.fits_mono fd Nat.and_le_left
  have fdiv : (Natural.type Bits).fits ((x.data &&& rangeMask l h) / 2 ^ l) :=
    CType.fits_mono fand (Nat.div_le_self _ _)
  have hWl := le_storageWidth hB64
  have hpw := Natural.promote_type_width_ge Bits
  unfold Natural.Reference.get
  simp only [Option.bind_eq_bind, Option.pure_def]
  rw [Natural.Reference.RangeMask_eq hB64 x hlh hB hw, Option.some_bind,
    Natural.dataC_eq hB64 hx, CInt.band_mk fd fR, CType.common_self,
    CInt.shr_mk (CType.fits_promote fand) fl, CType.promote_promote,
    if_neg (by omega), Option.some_bind,
    CInt.cast_mk_fits (CType.fits_promote fdiv) fdiv, and_rangeMask_div hlh]

/-! ## Lemmas: read-modify-write, bit by bit -/

/-- Read-modify-write of the field `lo..hi`, bit by bit: inside the range the bits of
the shifted value, outside the range the bits of the old pattern. -/
theorem testBit_replace {d v l h w : Nat} (hlh : l ≤ h) (hd : d < 2 ^ w) (hw : h < w)
    (i : Nat) :
    ((d &&& ((2 ^ w - 1) ^^^ rangeMask l h)) |||
        (((v * 2 ^ l) % 2 ^ w) &&& rangeMask l h)).testBit i =
      if l ≤ i ∧ i ≤ h then v.testBit (i - l) else d.testBit i := by
  rw [Nat.testBit_or, Nat.testBit_and, Nat.testBit_and, Nat.testBit_xor,
    Nat.testBit_two_pow_sub_one, testBit_rangeMask hlh, Nat.testBit_mod_two_pow,
    ← Nat.shiftLeft_eq, Nat.testBit_shiftLeft]
  by_cases hin : l ≤ i ∧ i ≤ h
  · have h1 : i < w := by omega
    have h2 : i ≥ l := hin.1
    simp [hin, h1, h2]
  · by_cases h1 : i < w
    · simp [hin, h1]
    · have hdi : d.testBit i = false :=
        Nat.testBit_lt_two_pow (lt_of_lt_of_le hd (two_pow_mono (by omega)))
      simp [hin, h1, hdi]

/-- A number is below `2^n` when all its bits from position `n` on are clear. -/
theorem lt_two_pow_of_testBit {x n : Nat} (h : ∀ i, n ≤ i → x.testBit i = false) :
    x < 2 ^ n := by
  by_contra hge
  obtain ⟨i, hi, hbit⟩ := Nat.ge_two_pow_implies_high_bit_true (Nat.le_of_not_lt hge)
  rw [h i hi] at hbit
  exact Bool.false_ne_true hbit

/-! ## Lemmas: writing a Natural view -/

/-- A storage type that promotes to a signed type is at most 16 bits wide. -/
theorem Natural.width_of_promote_signed {Bits : Nat}
    (h : (Natural.type Bits).promote.isSigned = true) : storageWidth Bits ≤ 16 := by
  unfold Natural.type CType.promote storageWidth at *
  split_ifs at h ⊢ <;> simp_all [CType.int]

theorem Natural.promote_width_of_signed {Bits : Nat}
    (h : (Natural.type Bits).promote.isSigned = true) :
    (Natural.type Bits).promote.width = 32 := by
  unfold Natural.type CType.promote storageWidth at *
  split_ifs at h ⊢ <;> simp_all [CType.int]

theorem CType.ofInt_natCast_mod (t : CType) (n : Nat) :
    t.ofInt (n : Int) = ⟨t, n % 2 ^ t.width⟩ := by
  unfold CType.ofInt
  congr 1
  have : ((n : Int) % 2 ^ t.width) = ((n % 2 ^ t.width : Nat) : Int) := by
    push_cast; rfl
  rw [this, Int.toNat_ofNat]

/-- Writing a view narrower than 64 bits: the parent after
`source = (source & ~RangeMask) | ((value << Lo) & RangeMask)`. -/
theorem Natural.Reference.view_set_eq {Bits : Nat} (hB64 : Bits ≤ 64) (x : Natural Bits)
    (hx : x.data ≤ 2 ^ Bits - 1) {l h : Nat} (hlh : l ≤ h) (hB : h < Bits)
    (hw : h - l + 1 < 64) (value : CInt) :
    ∃ y : Natural Bits,
      (Natural.Reference.mk x ⟨Natural.type Bits, l⟩ ⟨Natural.type Bits, h⟩).set value =
        some ⟨y, ⟨Natural.type Bits, l⟩, ⟨Natural.type Bits, h⟩⟩ ∧
      y.data ≤ 2 ^ Bits - 1 ∧
      ∀ i, y.data.testBit i =
        if l ≤ i ∧ i ≤ h then (value.toInt % 2 ^ (h - l + 1)).toNat.testBit (i - l)
        else x.data.testBit i := by
  have hWl := le_storageWidth hB64
  have hpw := Natural.promote_type_width_ge Bits
  have fl : (Natural.type Bits).fits l := CType.fits_small (by omega) (Natural.type_width_ge Bits)
  have fd := Natural.fits_data hB64 hx
  have hdW := CType.fits_lt fd
  rw [Natural.type_width] at hdW
  have hdP : x.data < 2 ^ (Natural.type Bits).promote.width :=
    lt_of_lt_of_le hdW (two_pow_mono hpw)
  have hR := rangeMask_lt hlh
  have hRB : 2 ^ (h + 1) ≤ 2 ^ Bits := two_pow_mono (by omega)
  have hBW : 2 ^ Bits ≤ 2 ^ storageWidth Bits := two_pow_mono hWl
  have hMpos : 0 < 2 ^ Bits := by positivity
  have fR : (Natural.type Bits).fits (rangeMask l h) := Natural.fits_type (by omega)
  have hv : (value.toInt % 2 ^ storageWidth Bits).toNat < 2 ^ storageWidth Bits :=
    toNat_emod_lt _ _
  have fv := Natural.fits_type hv
  -- the shifted value
  have hS : (⟨Natural.type Bits, (value.toInt % 2 ^ storageWidth Bits).toNat⟩ : CInt).shl
      ⟨Natural.type Bits, l⟩ = some ⟨(Natural.type Bits).promote,
        ((value.toInt % 2 ^ storageWidth Bits).toNat * 2 ^ l) %
          2 ^ (Natural.type Bits).promote.width⟩ ∧
      (Natural.type Bits).promote.fits
        (((value.toInt % 2 ^ storageWidth Bits).toNat * 2 ^ l) %
          2 ^ (Natural.type Bits).promote.width) := by
    rw [CInt.shl_mk fv fl, if_neg (by omega)]
    by_cases hs : (Natural.type Bits).promote.isSigned = true
    · have h16 := Natural.width_of_promote_signed hs
      have h32 := Natural.promote_width_of_signed hs
      have hv16 : 2 ^ storageWidth Bits ≤ 2 ^ 16 := two_pow_mono h16
      have hl16 : 2 ^ l ≤ 2 ^ 15 := two_pow_mono (by omega)
      have hprod : (value.toInt % 2 ^ storageWidth Bits).toNat * 2 ^ l < 2 ^ 31 := by
        calc (value.toInt % 2 ^ storageWidth Bits).toNat * 2 ^ l
            ≤ (value.toInt % 2 ^ storageWidth Bits).toNat * 2 ^ 15 :=
              Nat.mul_le_mul_left _ hl16
          _ < 2 ^ 16 * 2 ^ 15 := Nat.mul_lt_mul_of_pos_right (by omega) (by positivity)
          _ = 2 ^ 31 := by norm_num
      rw [CType.ofInt_natCast_mod]
      refine ⟨rfl, ?_⟩
      rw [h32, Nat.mod_eq_of_lt (by omega)]
      simp only [CType.fits, hs, ↓reduceIte, h32]
      exact hprod
    · rw [CType.ofInt_natCast_mod]
      refine ⟨rfl, ?_⟩
      simp only [CType.fits, hs, Bool.false_eq_true, ↓reduceIte]
      exact Nat.mod_lt _ (by positivity)
  obtain ⟨hS1, hS2⟩ := hS
  have fA : (Natural.type Bits).promote.fits
      (x.data &&& ((2 ^ (Natural.type Bits).promote.width - 1) ^^^ rangeMask l h)) :=
    CType.fits_mono (CType.fits_promote fd) Nat.and_le_left
  have fB : (Natural.type Bits).promote.fits
      ((((value.toInt % 2 ^ storageWidth Bits).toNat * 2 ^ l) %
          2 ^ (Natural.type Bits).promote.width) &&& rangeMask l h) :=
    CType.fits_mono (CType.fits_promote fR) Nat.and_le_right
  -- bit-level description of the value assigned to the parent
  have hbits := fun i => testBit_replace (d := x.data)
    (v := (value.toInt % 2 ^ storageWidth Bits).toNat) (w := (Natural.type Bits).promote.width)
    hlh hdP (by omega) i
  have hlow : ∀ i, l ≤ i ∧ i ≤ h →
      (value.toInt % 2 ^ storageWidth Bits).toNat.testBit (i - l) =
        (value.toInt % 2 ^ (h - l + 1)).toNat.testBit (i - l) := by
    intro i hi
    rw [← toNat_emod_emod (k := h - l + 1) (w := storageWidth Bits) (by omega),
      Nat.testBit_mod_two_pow]
    have : i - l < h - l + 1 := by omega
    simp [this]
  have hlt : (x.data &&& ((2 ^ (Natural.type Bits).promote.width - 1) ^^^ rangeMask l h)) |||
      ((((value.toInt % 2 ^ storageWidth Bits).toNat * 2 ^ l) %
          2 ^ (Natural.type Bits).promote.width) &&& rangeMask l h) < 2 ^ Bits := by
    apply Nat.or_lt_two_pow
    · exact lt_of_le_of_lt Nat.and_le_left (by omega)
    · exact lt_of_le_of_lt Nat.and_le_right (by omega)
  refine ⟨x.assign ⟨(Natural.type Bits).promote,
    (x.data &&& ((2 ^ (Natural.type Bits).promote.width - 1) ^^^ rangeMask l h)) |||
      ((((value.toInt % 2 ^ storageWidth Bits).toNat * 2 ^ l) %
          2 ^ (Natural.type Bits).promote.width) &&& rangeMask l h)⟩, ?_, ?_, ?_⟩
  · unfold Natural.Reference.set
    simp only [Option.bind_eq_bind, Option.pure_def]
    rw [Natural.Reference.RangeMask_eq hB64 x hlh hB hw, Option.some_bind,
      CInt.cast_eq_mk value, Natural.type_width, hS1, Option.some_bind,
      Natural.dataC_eq hB64 hx, CInt.band_bnot_mk fd fR, CInt.band_mk hS2 fR,
      CType.common_promote_left, CInt.bor_mk fA fB, CType.common_self,
      CType.promote_promote]
  · exact Natural.set_le hB64 _
  · intro i
    unfold Natural.assign
    rw [Natural.set_data hB64,
      CInt.toInt_mk (CType.fits_promote (Natural.fits_type (lt_of_lt_of_le hlt hBW)))]
    have e : ∀ n : Nat, ((n : Int) % 2 ^ Bits).toNat = n % 2 ^ Bits := by
      intro n
      have : ((n : Int) % 2 ^ Bits) = ((n % 2 ^ Bits : Nat) : Int) := by push_cast; rfl
      rw [this, Int.toNat_ofNat]
    rw [e, Nat.mod_eq_of_lt hlt, hbits i]
    split
    · rename_i hi
      exact hlow i hi
    · rfl

/-! ## Lemmas: bitwise operators on the low bits -/

theorem natCast_emod_two_pow (n k : Nat) : ((n : Int) % 2 ^ k).toNat = n % 2 ^ k := by
  have : ((n : Int) % 2 ^ k) = ((n % 2 ^ k : Nat) : Int) := by push_cast; rfl
  rw [this, Int.toNat_ofNat]

/-- A conversion keeps the low bits of the pattern. -/
theorem CInt.cast_bits_mod (a : CInt) (t : CType) {k : Nat} (hk : k ≤ a.ty.width)
    (hk2 : k ≤ t.width) : (a.cast t).bits % 2 ^ k = a.bits % 2 ^ k := by
  rw [CInt.cast_eq_mk]
  simp only
  rw [toNat_emod_emod hk2, CInt.toInt_emod a hk, natCast_emod_two_pow]

theorem CInt.testBit_cast (a : CInt) (t : CType) {i : Nat} (hi : i < a.ty.width)
    (hi2 : i < t.width) : (a.cast t).bits.testBit i = a.bits.testBit i := by
  have h := CInt.cast_bits_mod a t (k := i + 1) (by omega) (by omega)
  have h2 := congrArg (fun n => Nat.testBit n i) h
  simp only [Nat.testBit_mod_two_pow, Nat.lt_succ_self, decide_True, Bool.true_and] at h2
  exact h2

/-- The operator `&` acts bitwise on the low bits, whatever the operand types. -/
theorem CInt.testBit_band (a b : CInt) {i : Nat} (ha : i < a.ty.width) (hb : i < b.ty.width) :
    (a.band b).bits.testBit i = (a.bits.testBit i && b.bits.testBit i) := by
  have h1 := CType.width_le_common_left a.ty b.ty
  have h2 := CType.width_le_common_right a.ty b.ty
  unfold CInt.band
  simp only
  rw [Nat.testBit_and, CInt.testBit_cast a _ ha (by omega), CInt.testBit_cast b _ hb (by omega)]

/-- The operator `|` acts bitwise on the low bits, whatever the operand types. -/
theorem CInt.testBit_bor (a b : CInt) {i : Nat} (ha : i < a.ty.width) (hb : i < b.ty.width) :
    (a.bor b).bits.testBit i = (a.bits.testBit i || b.bits.testBit i) := by
  have h1 := CType.width_le_common_left a.ty b.ty
  have h2 := CType.width_le_common_right a.ty b.ty
  unfold CInt.bor
  simp only
  rw [Nat.testBit_or, CInt.testBit_cast a _ ha (by omega), CInt.testBit_cast b _ hb (by omega)]

/-- The operator `~` flips the low bits. -/
theorem CInt.testBit_bnot (a : CInt) {i : Nat} (ha : i < a.ty.width) :
    a.bnot.bits.testBit i = !a.bits.testBit i := by
  have h1 := CType.width_le_promote a.ty
  unfold CInt.bnot
  simp only
  rw [Nat.testBit_xor, Nat.testBit_two_pow_sub_one, CInt.testBit_cast a _ ha (by omega)]
  have : i < a.ty.promote.width := by omega
  simp [this]

theorem CInt.band_ty (a b : CInt) : (a.band b).ty = a.ty.common b.ty := rfl
theorem CInt.bor_ty (a b : CInt) : (a.bor b).ty = a.ty.common b.ty := rfl
theorem CInt.bnot_ty (a : CInt) : a.bnot.ty = a.ty.promote := rfl
theorem CInt.cast_ty (a : CInt) (t : CType) : (a.cast t).ty = t := rfl

/-! ## Lemmas: the view factory, RangeBits and RangeMask of Integer -/

theorem Integer.int_type_width_ge (Bits : Nat) : 8 ≤ (Integer.type Bits).width :=
  storageWidth_ge_eight Bits

/-- The factory `bits` of `Integer` orders its arguments. -/
theorem Integer.int_bits_eq {Bits : Nat} (x : Integer Bits) {lo hi : CInt} {a b : Nat}
    (ha : lo.toInt = a) (hb : hi.toInt = b) (ha64 : a < 64) (hb64 : b < 64) :
    x.bits lo hi = ⟨x, ⟨CType.uint, min a b⟩, ⟨CType.uint, max a b⟩⟩ := by
  have fa : CType.uint.fits a := CType.fits_uint (by omega)
  have fb : CType.uint.fits b := CType.fits_uint (by omega)
  have hc : CType.uint.common CType.uint = CType.uint := rfl
  have fmin : CType.uint.fits (min a b) := CType.fits_uint (by omega)
  have fmax : CType.uint.fits (max a b) := CType.fits_uint (by omega)
  have e1 : (if decide (a < b) = true then a else b) = min a b := by
    simp only [decide_eq_true_eq]; split <;> omega
  have e2 : (if decide (a < b) = true then b else a) = max a b := by
    simp only [decide_eq_true_eq]; split <;> omega
  unfold Integer.bits Integer.Reference.construct
  simp only
  rw [CInt.cast_of_toInt_eq ha CType.uint (CType.fits_lt fa),
    CInt.cast_of_toInt_eq hb CType.uint (CType.fits_lt fb)]
  unfold CInt.gt
  rw [CInt.lt_mk fa fb, CInt.cond_mk _ fa fb, CInt.cond_mk _ fb fa, hc, e1, e2,
    CInt.cast_mk_fits fmin fmin, CInt.cast_mk_fits fmax fmax]

theorem Integer.Reference.int_RangeBits_eq {Bits : Nat} (x : Integer Bits) {l h : Nat}
    (hlh : l ≤ h) (h64 : h < 64) :
    (Integer.Reference.mk x ⟨CType.uint, l⟩ ⟨CType.uint, h⟩).RangeBits =
      some ⟨Integer.type Bits, h - l + 1⟩ := by
  have fl : CType.uint.fits l := CType.fits_uint (by omega)
  have fh : CType.uint.fits h := CType.fits_uint (by omega)
  have l1 : lit 1 = ⟨CType.int, 1⟩ := lit_eq (n := 1) (by decide)
  have hc : CType.uint.common CType.uint = CType.uint := rfl
  have hc2 : CType.uint.common CType.int = CType.uint := rfl
  unfold Integer.Reference.RangeBits
  simp only [Option.bind_eq_bind, Option.pure_def]
  rw [CInt.sub_mk_of_le fh fl hlh, hc, Option.some_bind, l1,
    CInt.add_mk (CType.fits_uint (by omega)) (CType.fits_int (by decide))
      (by rw [hc2]; exact CType.fits_uint (by omega)),
    hc2, Option.some_bind,
    CInt.cast_mk_fits (CType.fits_uint (by omega))
      (CType.fits_small (by omega) (Integer.int_type_width_ge Bits))]

theorem Integer.common_uintmax_utype (Bits : Nat) :
    CType.uintmax.common (Integer.utype Bits) = CType.uintmax :=
  Natural.common_uintmax_type Bits

/-- The local `RangeMask` of an `Integer` view has the pattern with exactly the bits
`Lo..Hi` set, whenever the range is narrower than 64 bits. -/
theorem Integer.Reference.int_RangeMask_eq {Bits : Nat} (hB64 : Bits ≤ 64) (x : Integer Bits)
    {l h : Nat} (hlh : l ≤ h) (hB : h < Bits) (hw : h - l + 1 < 64) :
    (Integer.Reference.mk x ⟨CType.uint, l⟩ ⟨CType.uint, h⟩).RangeMask =
      some ⟨Integer.type Bits, rangeMask l h⟩ := by
  have fl : CType.uint.fits l := CType.fits_uint (by omega)
  have frb : (Integer.type Bits).fits (h - l + 1) :=
    CType.fits_small (by omega) (Integer.int_type_width_ge Bits)
  have l1 : lit 1 = ⟨CType.int, 1⟩ := lit_eq (n := 1) (by decide)
  have lu : litull 1 = ⟨CType.uintmax, 1⟩ := litull_eq (n := 1) (by decide)
  have hpw : 2 ^ (h - l + 1) < 2 ^ 64 := Nat.pow_lt_pow_right (by decide) hw
  have hpos : 0 < 2 ^ (h - l + 1) := by positivity
  have hR := rangeMask_lt hlh
  have hRB : 2 ^ (h + 1) ≤ 2 ^ Bits := two_pow_mono (by omega)
  have hB2 : 2 ^ Bits ≤ 2 ^ 64 := two_pow_mono hB64
  have hBW : 2 ^ Bits ≤ 2 ^ storageWidth Bits := two_pow_mono (le_storageWidth hB64)
  have hMpos : 0 < 2 ^ Bits := by positivity
  have hup : CType.uintmax.promote = CType.uintmax := rfl
  have huc : CType.uintmax.common CType.int = CType.uintmax := rfl
  have hw64 : CType.uintmax.width = 64 := rfl
  have hs : CType.uintmax.isSigned = false := rfl
  unfold Integer.Reference.RangeMask
  simp only [Option.bind_eq_bind, Option.pure_def]
  rw [Integer.Reference.int_RangeBits_eq x hlh (by omega), Option.some_bind, lu,
    CInt.shl_mk (CType.fits_uintmax (by decide)) frb, hup, hw64,
    if_neg (by omega), Nat.one_mul, CType.ofInt_natCast _ (by rw [hw64]; exact hpw),
    Option.some_bind, l1,
    CInt.sub_mk_of_le (CType.fits_uintmax hpw) (CType.fits_int (by decide)) (by omega), huc,
    Option.some_bind,
    CInt.shl_mk (CType.fits_uintmax (by omega)) fl, hup, hw64,
    if_neg (by omega)]
  have e : (2 ^ (h - l + 1) - 1) * 2 ^ l = rangeMask l h := rfl
  rw [e, CType.ofInt_natCast _ (by rw [hw64]; omega), Option.some_bind]
  unfold Integer.MaskC
  rw [CInt.band_mk (CType.fits_uintmax (by omega))
      (Integer.fits_utype (by rw [Integer.int_Mask_eq hB64]; omega)),
    Integer.common_uintmax_utype, Integer.int_Mask_eq hB64, Nat.and_pow_two_sub_one_eq_mod,
    Nat.mod_eq_of_lt (by omega),
    CInt.cast_mk (CType.fits_uintmax (by omega)) _ (by rw [Integer.int_type_width]; omega)]

/-- On a range of 64 bits the local `RangeMask` of an `Integer` view evaluates
`1ull << 64`, which is undefined. -/
theorem Integer.Reference.int_RangeMask_full {Bits : Nat} (x : Integer Bits) {l h : Nat}
    (hlh : l ≤ h) (h64 : h < 64) (hw : h - l + 1 = 64) :
    (Integer.Reference.mk x ⟨CType.uint, l⟩ ⟨CType.uint, h⟩).RangeMask = none := by
  have frb : (Integer.type Bits).fits (h - l + 1) :=
    CType.fits_small (by omega) (Integer.int_type_width_ge Bits)
  have lu : litull 1 = ⟨CType.uintmax, 1⟩ := litull_eq (n := 1) (by decide)
  have hup : CType.uintmax.promote = CType.uintmax := rfl
  have hw64 : CType.uintmax.width = 64 := rfl
  unfold Integer.Reference.RangeMask
  simp only [Option.bind_eq_bind, Option.pure_def]
  rw [Integer.Reference.int_RangeBits_eq x hlh (by omega), Option.some_bind, lu,
    CInt.shl_mk (CType.fits_uintmax (by decide)) frb, hup, hw64, if_pos (by omega),
    Option.none_bind]

/-! ## Lemmas: reading an Integer view -/

/-- Masking with any pattern that agrees with `rangeMask l h` below bit `w`, then
shifting down, extracts the field `l..h` of a number below `2^w`. -/
theorem and_div_eq_field {p q l h w : Nat} (hlh : l ≤ h) (hp : p < 2 ^ w) (hw : h < w)
    (hq : ∀ i, i < w → q.testBit i = (rangeMask l h).testBit i) :
    (p &&& q) / 2 ^ l = p / 2 ^ l % 2 ^ (h - l + 1) := by
  apply Nat.eq_of_testBit_eq
  intro j
  rw [← Nat.shiftRight_eq_div_pow, ← Nat.shiftRight_eq_div_pow, Nat.testBit_shiftRight,
    Nat.testBit_and, Nat.testBit_mod_two_pow, Nat.testBit_shiftRight]
  by_cases hj : l + j < w
  · rw [hq _ hj, testBit_rangeMask hlh]
    by_cases h2 : j < h - l + 1
    · have : l ≤ l + j ∧ l + j ≤ h := by omega
      simp [h2, this]
    · have : ¬ (l ≤ l + j ∧ l + j ≤ h) := by omega
      simp only [this, decide_False, Bool.and_false, h2, Bool.false_and]
  · have hpj : p.testBit (l + j) = false :=
      Nat.testBit_lt_two_pow (lt_of_lt_of_le hp (two_pow_mono (by omega)))
    simp [hpj]

/-- The field `l..h` only depends on the pattern modulo `2^n` when `h < n`. -/
theorem field_mod {p l h n : Nat} (hlh : l ≤ h) (hn : h < n) :
    p / 2 ^ l % 2 ^ (h - l + 1) = (p % 2 ^ n) / 2 ^ l % 2 ^ (h - l + 1) := by
  apply Nat.eq_of_testBit_eq
  intro j
  rw [Nat.testBit_mod_two_pow, Nat.testBit_mod_two_pow, ← Nat.shiftRight_eq_div_pow,
    ← Nat.shiftRight_eq_div_pow, Nat.testBit_shiftRight, Nat.testBit_shiftRight,
    Nat.testBit_mod_two_pow]
  by_cases h2 : j < h - l + 1
  · have : l + j < n := by omega
    simp [h2, this]
  · simp [h2]

/-- The parent of an `Integer` view converted to `utype`: its pattern in the storage
width. -/
theorem Integer.dataC_cast_utype {Bits : Nat} (x : Integer Bits) :
    x.dataC.cast (Integer.utype Bits) =
      ⟨Integer.utype Bits, (x.data % 2 ^ storageWidth Bits).toNat⟩ := by
  unfold Integer.dataC
  rw [CInt.cast_ofInt (Integer.type Bits) x.data (Integer.utype Bits) (le_refl _)]
  rfl

/-- Reading a view of an `Integer` narrower than 64 bits: the field `Lo..Hi` of the
unsigned pattern of the parent. -/
theorem Integer.Reference.int_get_eq {Bits : Nat} (hB64 : Bits ≤ 64) (x : Integer Bits)
    {l h : Nat} (hlh : l ≤ h) (hB : h < Bits) (hw : h - l + 1 < 64) :
    (Integer.Reference.mk x ⟨CType.uint, l⟩ ⟨CType.uint, h⟩).get =
      some ⟨Integer.utype Bits, (x.data % 2 ^ Bits).toNat / 2 ^ l % 2 ^ (h - l + 1)⟩ := by
  have hWl := le_storageWidth hB64
  have fl : CType.uint.fits l := CType.fits_uint (by omega)
  have hp : (x.data % 2 ^ storageWidth Bits).toNat < 2 ^ storageWidth Bits := toNat_emod_lt _ _
  have fp := Integer.fits_utype hp
  have hcw := CType.width_le_common_left (Integer.utype Bits) (Integer.type Bits)
  rw [Integer.utype_width] at hcw
  have hq : ∀ i, i < storageWidth Bits →
      ((CInt.mk (Integer.type Bits) (rangeMask l h)).cast
        ((Integer.utype Bits).common (Integer.type Bits))).bits.testBit i =
      (rangeMask l h).testBit i := by
    intro i hi
    exact CInt.testBit_cast _ _ (by simpa [Integer.type] using hi) (by omega)
  have fand : ((Integer.utype Bits).common (Integer.type Bits)).fits
      ((x.data % 2 ^ storageWidth Bits).toNat &&&
        ((CInt.mk (Integer.type Bits) (rangeMask l h)).cast
          ((Integer.utype Bits).common (Integer.type Bits))).bits) :=
    CType.fits_mono (CType.fits_common_left _ fp) Nat.and_le_left
  have fdiv : (Integer.utype Bits).fits
      (((x.data % 2 ^ storageWidth Bits).toNat &&&
        ((CInt.mk (Integer.type Bits) (rangeMask l h)).cast
          ((Integer.utype Bits).common (Integer.type Bits))).bits) / 2 ^ l) :=
    CType.fits_mono fp (le_trans (Nat.div_le_self _ _) Nat.and_le_left)
  have hpc := CType.width_le_promote ((Integer.utype Bits).common (Integer.type Bits))
  unfold Integer.Reference.get
  simp only [Option.bind_eq_bind, Option.pure_def]
  rw [Integer.Reference.int_RangeMask_eq hB64 x hlh hB hw, Option.some_bind,
    Integer.dataC_cast_utype]
  unfold CInt.band
  simp only
  rw [CInt.cast_mk_fits fp (CType.fits_common_left _ fp),
    CInt.shr_mk fand fl, if_neg (by omega), Option.some_bind,
    CInt.cast_mk_fits (CType.fits_promote (CType.fits_mono fand (Nat.div_le_self _ _))) fdiv,
    and_div_eq_field hlh hp (by omega) hq, field_mod (n := Bits) hlh hB,
    toNat_emod_emod hWl]

/-! ## Lemmas: the value written by an Integer view -/

/-- The operand `value << Lo` of a view write: defined for every value of the unsigned
storage type and every `Lo` below the width. -/
theorem Natural.shl_value {Bits : Nat} (hB64 : Bits ≤ 64) {v l : Nat}
    (hv : v < 2 ^ storageWidth Bits) {tl : CType} (fl : tl.fits l) (hl : l < Bits) :
    (CInt.mk (Natural.type Bits) v).shl ⟨tl, l⟩ =
      some ⟨(Natural.type Bits).promote, (v * 2 ^ l) % 2 ^ (Natural.type Bits).promote.width⟩ ∧
    (Natural.type Bits).promote.fits ((v * 2 ^ l) % 2 ^ (Natural.type Bits).promote.width) := by
  have hWl := le_storageWidth hB64
  have hpw := Natural.promote_type_width_ge Bits
  rw [CInt.shl_mk (Natural.fits_type hv) fl, if_neg (by omega)]
  by_cases hs : (Natural.type Bits).promote.isSigned = true
  · have h16 := Natural.width_of_promote_signed hs
    have h32 := Natural.promote_width_of_signed hs
    have hv16 : 2 ^ storageWidth Bits ≤ 2 ^ 16 := two_pow_mono h16
    have hl16 : 2 ^ l ≤ 2 ^ 15 := two_pow_mono (by omega)
    have hprod : v * 2 ^ l < 2 ^ 31 := by
      calc v * 2 ^ l ≤ v * 2 ^ 15 := Nat.mul_le_mul_left _ hl16
        _ < 2 ^ 16 * 2 ^ 15 := Nat.mul_lt_mul_of_pos_right (by omega) (by positivity)
        _ = 2 ^ 31 := by norm_num
    rw [CType.ofInt_natCast_mod]
    refine ⟨rfl, ?_⟩
    rw [h32, Nat.mod_eq_of_lt (by omega)]
    simp only [CType.fits, hs, ↓reduceIte, h32]
    exact hprod
  · rw [CType.ofInt_natCast_mod]
    refine ⟨rfl, ?_⟩
    simp only [CType.fits, hs, Bool.false_eq_true, ↓reduceIte]
    exact Nat.mod_lt _ (by positivity)

/-- The pattern of a sign-extended value is the pattern that was extended. -/
theorem sext_pattern {q k : Nat} (h : q < 2 ^ (k + 1)) :
    ((((q ^^^ 2 ^ k : Nat) : Int) - 2 ^ k) % 2 ^ (k + 1)).toNat = q := by
  rw [xor_sub_sign h]
  have hq : ((q : Int) % 2 ^ (k + 1)) = q := Int.emod_eq_of_lt (by omega) (by exact_mod_cast h)
  split
  · rw [hq, Int.toNat_ofNat]
  · rw [Int.sub_emod, Int.emod_self, sub_zero, Int.emod_emod_of_dvd _ (dvd_refl _), hq,
      Int.toNat_ofNat]

/-- The bits of the value a view write of an `Integer` assigns to its parent. -/
theorem Integer.Reference.set_value_testBit {Bits : Nat} (hB64 : Bits ≤ 64) {p v l h : Nat}
    (hlh : l ≤ h) (hB : h < Bits) {i : Nat} (hi : i < Bits) :
    (((CInt.mk (Integer.utype Bits) p).band
        (CInt.mk (Integer.type Bits) (rangeMask l h)).bnot).bor
      ((CInt.mk (Natural.type Bits).promote
          ((v * 2 ^ l) % 2 ^ (Natural.type Bits).promote.width)).band
        (CInt.mk (Integer.type Bits) (rangeMask l h)))).bits.testBit i =
      if l ≤ i ∧ i ≤ h then v.testBit (i - l) else p.testBit i := by
  have hWl := le_storageWidth hB64
  have hpw := Natural.promote_type_width_ge Bits
  have hpt := CType.width_le_promote (Integer.type Bits)
  rw [Integer.int_type_width] at hpt
  have hiW : i < storageWidth Bits := by omega
  have w1 : storageWidth Bits ≤
      ((Integer.utype Bits).common (Integer.type Bits).promote).width :=
    CType.width_le_common_left (Integer.utype Bits) (Integer.type Bits).promote
  have w2 : storageWidth Bits ≤
      ((Natural.type Bits).promote.common (Integer.type Bits)).width :=
    CType.width_le_common_right (Natural.type Bits).promote (Integer.type Bits)
  rw [CInt.testBit_bor _ _ (lt_of_lt_of_le hiW w1) (lt_of_lt_of_le hiW w2),
    CInt.testBit_band _ _ (show i < (Integer.utype Bits).width from hiW)
      (show i < (Integer.type Bits).promote.width from lt_of_lt_of_le hiW hpt),
    CInt.testBit_bnot _ (show i < (Integer.type Bits).width from hiW),
    CInt.testBit_band _ _ (show i < (Natural.type Bits).promote.width from lt_of_lt_of_le hiW hpw)
      (show i < (Integer.type Bits).width from hiW)]
  simp only
  rw [testBit_rangeMask hlh, Nat.testBit_mod_two_pow, ← Nat.shiftLeft_eq,
    Nat.testBit_shiftLeft]
  have hipw : i < (Natural.type Bits).promote.width := by omega
  by_cases hin : l ≤ i ∧ i ≤ h
  · have h2 : i ≥ l := hin.1
    simp [hin, hipw, h2]
  · simp [hin]

/-! ## Lemmas: writing an Integer view -/

/-- Writing a view of an `Integer` narrower than 64 bits: the write is defined, the
parent stays in range, and the unsigned pattern of the parent has the field `Lo..Hi`
replaced by the low bits of the value. -/
theorem Integer.Reference.int_set_eq {Bits : Nat} (h1 : 1 ≤ Bits) (hB64 : Bits ≤ 64)
    (x : Integer Bits) {l h : Nat} (hlh : l ≤ h) (hB : h < Bits) (hw : h - l + 1 < 64)
    (value : CInt) :
    ∃ y : Integer Bits,
      (Integer.Reference.mk x ⟨CType.uint, l⟩ ⟨CType.uint, h⟩).set value =
        some ⟨y, ⟨CType.uint, l⟩, ⟨CType.uint, h⟩⟩ ∧
      (-(2 : Int) ^ (Bits - 1) ≤ y.data ∧ y.data ≤ 2 ^ (Bits - 1) - 1) ∧
      ∀ i, (y.data % 2 ^ Bits).toNat.testBit i =
        (decide (i < Bits) &&
          if l ≤ i ∧ i ≤ h then (value.toInt % 2 ^ (h - l + 1)).toNat.testBit (i - l)
          else (x.data % 2 ^ Bits).toNat.testBit i) := by
  have hWl := le_storageWidth hB64
  have hBB : Bits - 1 + 1 = Bits := by omega
  have fl : CType.uint.fits l := CType.fits_uint (by omega)
  have hv : (value.toInt % 2 ^ storageWidth Bits).toNat < 2 ^ storageWidth Bits :=
    toNat_emod_lt _ _
  obtain ⟨hS1, -⟩ := Natural.shl_value hB64 hv fl (by omega : l < Bits)
  have hS1u : (CInt.mk (Integer.utype Bits) (value.toInt % 2 ^ storageWidth Bits).toNat).shl
      ⟨CType.uint, l⟩ = some ⟨(Natural.type Bits).promote,
        ((value.toInt % 2 ^ storageWidth Bits).toNat * 2 ^ l) %
          2 ^ (Natural.type Bits).promote.width⟩ := hS1
  obtain ⟨vp, hvp⟩ : ∃ vp : CInt, vp =
      ((CInt.mk (Integer.utype Bits) (x.data % 2 ^ storageWidth Bits).toNat).band
        (CInt.mk (Integer.type Bits) (rangeMask l h)).bnot).bor
      ((CInt.mk (Natural.type Bits).promote
          (((value.toInt % 2 ^ storageWidth Bits).toNat * 2 ^ l) %
            2 ^ (Natural.type Bits).promote.width)).band
        (CInt.mk (Integer.type Bits) (rangeMask l h))) := ⟨_, rfl⟩
  have hset := Integer.set_eq h1 hB64 vp
  have hq := toNat_emod_lt Bits vp.toInt
  have hwB : Bits ≤ vp.ty.width := by
    rw [hvp]
    exact le_trans hWl (le_trans
      (CType.width_le_common_left (Integer.utype Bits) (Integer.type Bits).promote)
      (CType.width_le_common_left _ _))
  have hbit : ∀ i, i < Bits → vp.bits.testBit i =
      if l ≤ i ∧ i ≤ h then (value.toInt % 2 ^ storageWidth Bits).toNat.testBit (i - l)
      else (x.data % 2 ^ storageWidth Bits).toNat.testBit i := by
    intro i hi
    rw [hvp]
    exact Integer.Reference.set_value_testBit hB64 hlh hB hi
  refine ⟨⟨(((vp.toInt % 2 ^ Bits).toNat ^^^ 2 ^ (Bits - 1) : Nat) : Int) - 2 ^ (Bits - 1)⟩,
    ?_, ?_, ?_⟩
  · unfold Integer.Reference.set
    simp only [Option.bind_eq_bind, Option.pure_def]
    rw [Integer.Reference.int_RangeMask_eq hB64 x hlh hB hw, Option.some_bind,
      CInt.cast_eq_mk value (Integer.utype Bits), Integer.utype_width, hS1u,
      Option.some_bind, Integer.dataC_cast_utype]
    unfold Integer.assign
    rw [← hvp, hset, Option.some_bind]
  · have hr := xor_sub_sign_range (k := Bits - 1) (by rw [hBB]; exact hq)
    simp only
    omega
  · intro i
    simp only
    have hsp := sext_pattern (k := Bits - 1) (by rw [hBB]; exact hq)
    rw [hBB] at hsp
    rw [hsp, CInt.toInt_emod _ hwB, natCast_emod_two_pow, Nat.testBit_mod_two_pow]
    by_cases hi : i < Bits
    · rw [hbit i hi]
      simp only [hi, decide_True, Bool.true_and]
      split
      · rename_i hin
        rw [← toNat_emod_emod (k := h - l + 1) (w := storageWidth Bits) (by omega),
          Nat.testBit_mod_two_pow]
        have : i - l < h - l + 1 := by omega
        simp [this]
      · rw [← toNat_emod_emod (k := Bits) (w := storageWidth Bits) hWl,
          Nat.testBit_mod_two_pow]
        simp [hi]
    · simp [hi]

/-! ## The setter of Integer: range and congruence -/

/-- Two integers in the same half-open window of length `M` that are congruent
modulo `M` are equal. -/
theorem eq_of_emod_eq_of_window {M l a b : Int} (ha : l ≤ a ∧ a < l + M)
    (hb : l ≤ b ∧ b < l + M) (h : a % M = b % M) : a = b := by
  have hd : M ∣ a - b := by
    apply Int.dvd_of_emod_eq_zero
    rw [Int.sub_emod, h, sub_self, Int.zero_emod]
  have habs : |a - b| < M := by
    rw [abs_lt]; constructor <;> omega
  have := Int.eq_zero_of_abs_lt_dvd hd habs
  omega

theorem Integer.set_spec {Bits : Nat} (h1 : 1 ≤ Bits) (h64 : Bits ≤ 64) (v : CInt) :
    ∃ y : Integer Bits, Integer.set Bits v = some y ∧
      y.data = (((v.toInt % 2 ^ Bits).toNat ^^^ 2 ^ (Bits - 1) : Nat) : Int) - 2 ^ (Bits - 1) ∧
      -(2 : Int) ^ (Bits - 1) ≤ y.data ∧ y.data ≤ 2 ^ (Bits - 1) - 1 ∧
      y.data % 2 ^ Bits = v.toInt % 2 ^ Bits := by
  have hB : Bits - 1 + 1 = Bits := by omega
  have hp : (v.toInt % 2 ^ Bits).toNat < 2 ^ (Bits - 1 + 1) := by
    rw [hB]; exact toNat_emod_lt _ _
  have hr := xor_sub_sign_range hp
  refine ⟨_, Integer.set_eq h1 h64 v, rfl, hr.1, ?_, ?_⟩
  · simp only
    omega
  simp only
  rw [xor_sub_sign hp, hB]
  have h0 : (0 : Int) ≤ v.toInt % 2 ^ Bits := Int.emod_nonneg _ (by positivity)
  rw [Int.toNat_of_nonneg h0]
  split
  · exact Int.emod_emod_of_dvd _ (dvd_refl _)
  · rw [Int.sub_emod, Int.emod_self, sub_zero, Int.emod_emod_of_dvd _ (dvd_refl _),
      Int.emod_emod_of_dvd _ (dvd_refl _)]

/-! ## C1: construction and assignment of Natural -/

/-- C1: for every width `1 ≤ Bits ≤ 64` and every integral value `v`, constructing or
assigning a `Natural<Bits>` from `v` stores `v mod 2^Bits`, which is the storage
pattern of `v` and-ed with `Mask`, where `Mask = 2^Bits - 1` (the all-ones pattern at
`Bits = 64`); construction and assignment are total. -/
theorem C1_natural_construct_truncates (Bits : Nat) (h1 : 1 ≤ Bits) (h64 : Bits ≤ 64)
    (v : CInt) (x : Natural Bits) :
    Natural.Mask Bits = 2 ^ Bits - 1 ∧
    (Natural.construct Bits v).data = (v.toInt % 2 ^ Bits).toNat ∧
    (x.assign v).data = (v.toInt % 2 ^ Bits).toNat ∧
    (Natural.construct Bits v).data =
      (v.cast (Natural.type Bits)).bits &&& Natural.Mask Bits := by
  have hs := Natural.set_data h64 v
  refine ⟨Natural.Mask_eq h64, hs, hs, ?_⟩
  unfold Natural.construct
  rw [hs, Natural.Mask_eq h64, Nat.and_pow_two_sub_one_eq_mod, CInt.cast_eq_mk]
  simp only
  rw [Natural.type_width, toNat_emod_emod (le_storageWidth h64)]

theorem C1_natural_construct_truncates_witness :
    (1 ≤ 8 ∧ 8 ≤ 64) ∧ Natural.Mask 64 = 18446744073709551615 ∧
      (Natural.construct 8 (lit 300)).data = 44 ∧
      (Natural.construct 64 (lit (-1))).data = 18446744073709551615 ∧
      ((Natural.zero 8).assign (lit 300)).data = ((lit 300).toInt % 2 ^ 8).toNat :=
  ⟨⟨by decide, by decide⟩, by decide, by decide, by decide,
    (C1_natural_construct_truncates 8 (by decide) (by decide) (lit 300) (Natural.zero 8)).2.2.1⟩

/-! ## C2, C3: construction and assignment of Integer -/

/-- C2: for every width `1 ≤ Bits ≤ 64` and every integral value `v`, constructing or
assigning an `Integer<Bits>` from `v` is defined and stores `((v & Mask) ^ Sign) - Sign`
with `Mask = 2^Bits - 1` and `Sign = 2^(Bits-1)`; the stored value lies in
`[-2^(Bits-1), 2^(Bits-1) - 1]`, is congruent to `v` modulo `2^Bits`, and is the only
such integer. For `Bits = 1` it is `0` for even `v` and `-1` for odd `v`. -/
theorem C2_integer_construct_sign_extends (Bits : Nat) (h1 : 1 ≤ Bits) (h64 : Bits ≤ 64)
    (v : CInt) (x : Integer Bits) :
    Integer.Mask Bits = 2 ^ Bits - 1 ∧ Integer.Sign Bits = 2 ^ (Bits - 1) ∧
    ∃ y : Integer Bits, Integer.construct Bits v = some y ∧ x.assign v = some y ∧
      y.data = ((((v.cast (Integer.utype Bits)).bits &&& Integer.Mask Bits) ^^^
        Integer.Sign Bits : Nat) : Int) - (Integer.Sign Bits : Nat) ∧
      (-(2 : Int) ^ (Bits - 1) ≤ y.data ∧ y.data ≤ 2 ^ (Bits - 1) - 1) ∧
      y.data % 2 ^ Bits = v.toInt % 2 ^ Bits ∧
      (∀ z : Int, -(2 : Int) ^ (Bits - 1) ≤ z → z ≤ 2 ^ (Bits - 1) - 1 →
        z % 2 ^ Bits = v.toInt % 2 ^ Bits → z = y.data) ∧
      (Bits = 1 → y.data = if v.toInt % 2 = 0 then 0 else -1) := by
  obtain ⟨y, hy, hd, hlo, hhi, hmod⟩ := Integer.set_spec h1 h64 v
  have hS2 : (2 : Int) ^ Bits = 2 ^ (Bits - 1) + 2 ^ (Bits - 1) := by
    have hB : Bits = Bits - 1 + 1 := by omega
    conv_lhs => rw [hB]
    rw [pow_succ]; ring
  have huniq : ∀ z : Int, -(2 : Int) ^ (Bits - 1) ≤ z → z ≤ 2 ^ (Bits - 1) - 1 →
      z % 2 ^ Bits = v.toInt % 2 ^ Bits → z = y.data := by
    intro z hz1 hz2 hz
    exact eq_of_emod_eq_of_window (M := 2 ^ Bits) (l := -(2 : Int) ^ (Bits - 1))
      ⟨hz1, by omega⟩ ⟨hlo, by omega⟩ (hz.trans hmod.symm)
  refine ⟨Integer.int_Mask_eq h64, Integer.Sign_eq Bits, y, hy, hy, ?_, ⟨hlo, hhi⟩, hmod, huniq, ?_⟩
  · rw [hd, Integer.int_Mask_eq h64, Integer.Sign_eq, Nat.and_pow_two_sub_one_eq_mod,
      CInt.cast_eq_mk]
    simp only
    rw [Integer.utype_width, toNat_emod_emod (le_storageWidth h64)]
    push_cast
    rfl
  · intro hB
    subst hB
    simp only [Nat.sub_self, pow_zero, pow_one] at hlo hhi hmod
    split <;> omega

theorem C2_integer_construct_sign_extends_witness :
    (1 ≤ 1 ∧ 1 ≤ 64) ∧ Integer.construct 1 (lit 1) = some ⟨-1⟩ ∧
      Integer.construct 1 (lit 0) = some ⟨0⟩ ∧ Integer.Sign 64 = 2 ^ 63 ∧
      Integer.Sign 1 = 2 ^ (1 - 1) :=
  ⟨⟨by decide, by decide⟩, by decide, by decide, by decide,
    (C2_integer_construct_sign_extends 1 (by decide) (by decide) (lit 1) (Integer.zero 1)).2.1⟩

/-- C3: for every width `1 ≤ Bits ≤ 64` and every value `v` with
`-2^(Bits-1) ≤ v ≤ 2^(Bits-1) - 1`, constructing an `Integer<Bits>` from `v` is defined,
stores `v`, and the conversion back to the storage type reads `v`. -/
theorem C3_integer_round_trip (Bits : Nat) (h1 : 1 ≤ Bits) (h64 : Bits ≤ 64) (v : CInt)
    (hlo : -(2 : Int) ^ (Bits - 1) ≤ v.toInt) (hhi : v.toInt ≤ 2 ^ (Bits - 1) - 1) :
    ∃ y : Integer Bits, Integer.construct Bits v = some y ∧ y.data = v.toInt ∧
      y.dataC.toInt = v.toInt := by
  obtain ⟨y, hy, _, hylo, hyhi, hmod⟩ := Integer.set_spec h1 h64 v
  have hS2 : (2 : Int) ^ Bits = 2 ^ (Bits - 1) + 2 ^ (Bits - 1) := by
    have hB : Bits = Bits - 1 + 1 := by omega
    conv_lhs => rw [hB]
    rw [pow_succ]; ring
  have hv : y.data = v.toInt :=
    eq_of_emod_eq_of_window (M := 2 ^ Bits) (l := -(2 : Int) ^ (Bits - 1))
      ⟨hylo, by omega⟩ ⟨hlo, by omega⟩ hmod
  refine ⟨y, hy, hv, ?_⟩
  unfold Integer.dataC
  rw [hv]
  apply CInt.toInt_ofInt_of_holds (by rw [Integer.int_type_width]; exact storageWidth_pos Bits)
  have hWp1 : (2 : Int) ^ (Bits - 1) ≤ 2 ^ (storageWidth Bits - 1) := by
    have := le_storageWidth h64
    exact_mod_cast two_pow_mono (a := Bits - 1) (b := storageWidth Bits - 1) (by omega)
  simp only [CType.holds, Integer.type, ↓reduceIte, decide_eq_true_eq]
  omega

theorem C3_integer_round_trip_witness :
    (1 ≤ 13 ∧ 13 ≤ 64) ∧ (-(2 : Int) ^ (13 - 1) ≤ (lit (-4096)).toInt ∧
      (lit (-4096)).toInt ≤ 2 ^ (13 - 1) - 1) ∧
      Integer.construct 13 (lit (-4096)) = some ⟨-4096⟩ ∧
      ∃ y : Integer 13, Integer.construct 13 (lit (-4096)) = some y ∧
        y.data = (lit (-4096)).toInt ∧ y.dataC.toInt = (lit (-4096)).toInt :=
  ⟨⟨by decide, by decide⟩, ⟨by decide, by decide⟩, by decide,
    C3_integer_round_trip 13 (by decide) (by decide) (lit (-4096)) (by decide) (by decide)⟩

/-! ## The invariant of Natural is preserved by every mutator -/

theorem Natural.Reference.set_inv {Bits : Nat} (h64 : Bits ≤ 64) {r r2 : Natural.Reference Bits}
    {v : CInt} (h : r.set v = some r2) : r2.source.data ≤ 2 ^ Bits - 1 := by
  unfold Natural.Reference.set at h
  simp only [Option.bind_eq_bind, Option.pure_def, Option.bind_eq_some, Option.some.injEq] at h
  obtain ⟨m, -, s, -, rfl⟩ := h
  exact Natural.set_le h64 _

theorem Natural.Reference.apply_inv {Bits : Nat} (h64 : Bits ≤ 64)
    {r r2 : Natural.Reference Bits} {o : ViewOp} (h : r.apply o = some r2) :
    r2.source.data ≤ 2 ^ Bits - 1 := by
  cases o <;>
    simp only [Natural.Reference.apply, Natural.Reference.assign, Natural.Reference.andAssign,
      Natural.Reference.orAssign, Natural.Reference.xorAssign, Natural.Reference.shlAssign,
      Natural.Reference.shrAssign, Natural.Reference.addAssign, Natural.Reference.subAssign,
      Natural.Reference.mulAssign, Natural.Reference.divAssign, Natural.Reference.modAssign,
      Natural.Reference.postInc, Natural.Reference.postDec, Natural.Reference.preInc,
      Natural.Reference.preDec, Option.bind_eq_bind, Option.pure_def, Option.bind_eq_some,
      Option.map_eq_some', Option.some.injEq, Prod.exists, Prod.mk.injEq] at h
  all_goals first
    | exact Natural.Reference.set_inv h64 h
    | (obtain ⟨_, _, h⟩ := h; exact Natural.Reference.set_inv h64 h)
    | (obtain ⟨_, _, _, _, h⟩ := h; exact Natural.Reference.set_inv h64 h)
    | (obtain ⟨_, _, ⟨_, _, _, _, _, h, _, rfl⟩, rfl⟩ := h; exact Natural.Reference.set_inv h64 h)

theorem Natural.step_inv {Bits : Nat} (h64 : Bits ≤ 64) {x y : Natural Bits} {o : Op}
    (h : x.step o = some y) : y.data ≤ 2 ^ Bits - 1 := by
  cases o <;>
    simp only [Natural.step, Natural.assign, Natural.postInc, Natural.postDec, Natural.preInc,
      Natural.preDec, Natural.andAssign, Natural.orAssign, Natural.xorAssign,
      Natural.shlAssign, Natural.shrAssign, Natural.addAssign, Natural.subAssign,
      Natural.mulAssign, Natural.divAssign, Natural.modAssign,
      Option.bind_eq_bind, Option.pure_def, Option.bind_eq_some,
      Option.map_eq_some', Option.some.injEq, Prod.exists, Prod.mk.injEq] at h
  all_goals first
    | (rw [← h]; exact Natural.set_le h64 _)
    | (obtain ⟨_, _, h⟩ := h; rw [← h]; exact Natural.set_le h64 _)
    | (obtain ⟨_, _, ⟨_, _, _, h⟩, rfl⟩ := h; rw [← h]; exact Natural.set_le h64 _)
    | (obtain ⟨_, _, _, h, rfl⟩ := h; exact Natural.Reference.apply_inv h64 h)

theorem Natural.run_inv {Bits : Nat} (h64 : Bits ≤ 64) (ops : List Op) :
    ∀ {x y : Natural Bits}, x.data ≤ 2 ^ Bits - 1 → x.run ops = some y →
      y.data ≤ 2 ^ Bits - 1 := by
  induction ops with
  | nil =>
    intro x y hx h
    simp only [Natural.run, Option.some.injEq] at h
    rw [← h]; exact hx
  | cons o os ih =>
    intro x y _ h
    simp only [Natural.run, Option.bind_eq_some] at h
    obtain ⟨z, hz, h⟩ := h
    exact ih (Natural.step_inv h64 hz) h

/-! ## C4, C5: state invariants -/

/-- C4: `Natural<Bits>` state invariant. For every width `1 ≤ Bits ≤ 64`, starting from
a constructed `Natural<Bits>` (default-constructed or constructed from any value) and
applying any sequence of public mutators whose native operations are defined
(assignment, compound assignments, increments and decrements, and writes through a
`bits` / `bit` / `byte` view), the stored value satisfies `0 ≤ data ≤ 2^Bits - 1`. -/
theorem C4_natural_invariant (Bits : Nat) (h1 : 1 ≤ Bits) (h64 : Bits ≤ 64)
    (x0 : Natural Bits)
    (hx0 : x0 = Natural.zero Bits ∨ ∃ v : CInt, x0 = Natural.construct Bits v)
    (ops : List Op) (y : Natural Bits) (h : x0.run ops = some y) :
    0 ≤ y.data ∧ y.data ≤ 2 ^ Bits - 1 := by
  refine ⟨Nat.zero_le _, Natural.run_inv h64 ops ?_ h⟩
  rcases hx0 with rfl | ⟨v, rfl⟩
  · exact Nat.zero_le _
  · exact Natural.set_le h64 v

set_option maxRecDepth 100000

theorem C4_natural_invariant_witness :
    (1 ≤ 8 ∧ 8 ≤ 64) ∧
      (Natural.construct 8 (lit 300)).run [.preInc, .addAssign (lit 250),
        .view (.bits (lit 5) (lit 2)) (.assign (lit 255)), .shlAssign (lit 3), .postDec,
        .view (.byte (lit 0)) .preDec, .mulAssign (lit 77),
        .view (.bit (lit 7)) (.xorAssign (lit 1)), .divAssign (lit 3), .modAssign (lit 100),
        .orAssign (lit 256), .subAssign (lit 200)] = some ⟨98⟩ ∧
      (0 ≤ (⟨98⟩ : Natural 8).data ∧ (⟨98⟩ : Natural 8).data ≤ 2 ^ 8 - 1) :=
  ⟨⟨by decide, by decide⟩, by decide,
    C4_natural_invariant 8 (by decide) (by decide) (Natural.construct 8 (lit 300))
      (Or.inr ⟨lit 300, rfl⟩) [.preInc, .addAssign (lit 250),
        .view (.bits (lit 5) (lit 2)) (.assign (lit 255)), .shlAssign (lit 3), .postDec,
        .view (.byte (lit 0)) .preDec, .mulAssign (lit 77),
        .view (.bit (lit 7)) (.xorAssign (lit 1)), .divAssign (lit 3), .modAssign (lit 100),
        .orAssign (lit 256), .subAssign (lit 200)] ⟨98⟩ (by decide)⟩

theorem Integer.set_range {Bits : Nat} (h1 : 1 ≤ Bits) (h64 : Bits ≤ 64) {v : CInt}
    {y : Integer Bits} (h : Integer.set Bits v = some y) :
    -(2 : Int) ^ (Bits - 1) ≤ y.data ∧ y.data ≤ 2 ^ (Bits - 1) - 1 := by
  obtain ⟨z, hz, _, hlo, hhi, _⟩ := Integer.set_spec h1 h64 v
  rw [hz, Option.some.injEq] at h
  subst h
  exact ⟨hlo, hhi⟩

theorem Integer.Reference.int_set_inv {Bits : Nat} (h1 : 1 ≤ Bits) (h64 : Bits ≤ 64)
    {r r2 : Integer.Reference Bits} {v : CInt} (h : r.set v = some r2) :
    -(2 : Int) ^ (Bits - 1) ≤ r2.source.data ∧ r2.source.data ≤ 2 ^ (Bits - 1) - 1 := by
  unfold Integer.Reference.set Integer.assign at h
  simp only [Option.bind_eq_bind, Option.pure_def, Option.bind_eq_some, Option.some.injEq] at h
  obtain ⟨m, -, s, -, y, hy, rfl⟩ := h
  exact Integer.set_range h1 h64 hy

theorem Integer.Reference.int_apply_inv {Bits : Nat} (h1 : 1 ≤ Bits) (h64 : Bits ≤ 64)
    {r r2 : Integer.Reference Bits} {o : ViewOp} (h : r.apply o = some r2) :
    -(2 : Int) ^ (Bits - 1) ≤ r2.source.data ∧ r2.source.data ≤ 2 ^ (Bits - 1) - 1 := by
  cases o <;>
    simp only [Integer.Reference.apply, Integer.Reference.assign, Integer.Reference.andAssign,
      Integer.Reference.orAssign, Integer.Reference.xorAssign, Integer.Reference.shlAssign,
      Integer.Reference.shrAssign, Integer.Reference.addAssign, Integer.Reference.subAssign,
      Integer.Reference.mulAssign, Integer.Reference.divAssign, Integer.Reference.modAssign,
      Integer.Reference.postInc, Integer.Reference.postDec, Integer.Reference.preInc,
      Integer.Reference.preDec, Option.bind_eq_bind, Option.pure_def, Option.bind_eq_some,
      Option.map_eq_some', Option.some.injEq, Prod.exists, Prod.mk.injEq] at h
  all_goals first
    | exact Integer.Reference.int_set_inv h1 h64 h
    | (obtain ⟨_, _, h⟩ := h; exact Integer.Reference.int_set_inv h1 h64 h)
    | (obtain ⟨_, _, _, _, h⟩ := h; exact Integer.Reference.int_set_inv h1 h64 h)
    | (obtain ⟨_, _, ⟨_, _, _, _, _, h, _, rfl⟩, rfl⟩ := h
       exact Integer.Reference.int_set_inv h1 h64 h)

theorem Integer.int_step_inv {Bits : Nat} (h1 : 1 ≤ Bits) (h64 : Bits ≤ 64) {x y : Integer Bits}
    {o : Op} (h : x.step o = some y) :
    -(2 : Int) ^ (Bits - 1) ≤ y.data ∧ y.data ≤ 2 ^ (Bits - 1) - 1 := by
  cases o <;>
    simp only [Integer.step, Integer.assign, Integer.postInc, Integer.postDec, Integer.preInc,
      Integer.preDec, Integer.andAssign, Integer.orAssign, Integer.xorAssign,
      Integer.shlAssign, Integer.shrAssign, Integer.addAssign, Integer.subAssign,
      Integer.mulAssign, Integer.divAssign, Integer.modAssign,
      Option.bind_eq_bind, Option.pure_def, Option.bind_eq_some,
      Option.map_eq_some', Option.some.injEq, Prod.exists, Prod.mk.injEq] at h
  all_goals first
    | exact Integer.set_range h1 h64 h
    | (obtain ⟨_, _, h⟩ := h; exact Integer.set_range h1 h64 h)
    | (obtain ⟨_, _, ⟨_, _, _, h, _, rfl⟩, rfl⟩ := h; exact Integer.set_range h1 h64 h)
    | (obtain ⟨_, _, _, h, rfl⟩ := h; exact Integer.Reference.int_apply_inv h1 h64 h)

theorem Integer.int_run_inv {Bits : Nat} (h1 : 1 ≤ Bits) (h64 : Bits ≤ 64) (ops : List Op) :
    ∀ {x y : Integer Bits},
      (-(2 : Int) ^ (Bits - 1) ≤ x.data ∧ x.data ≤ 2 ^ (Bits - 1) - 1) →
      x.run ops = some y →
      -(2 : Int) ^ (Bits - 1) ≤ y.data ∧ y.data ≤ 2 ^ (Bits - 1) - 1 := by
  induction ops with
  | nil =>
    intro x y hx h
    simp only [Integer.run, Option.some.injEq] at h
    rw [← h]; exact hx
  | cons o os ih =>
    intro x y _ h
    simp only [Integer.run, Option.bind_eq_some] at h
    obtain ⟨z, hz, h⟩ := h
    exact ih (Integer.int_step_inv h1 h64 hz) h

/-- The setter of `Integer` always stores a value, and the value is in range. -/
theorem Integer.set_total {Bits : Nat} (h1 : 1 ≤ Bits) (h64 : Bits ≤ 64) (v : CInt) :
    ∃ y : Integer Bits, Integer.set Bits v = some y ∧
      -(2 : Int) ^ (Bits - 1) ≤ y.data ∧ y.data ≤ 2 ^ (Bits - 1) - 1 := by
  obtain ⟨z, hz, _, hlo, hhi, _⟩ := Integer.set_spec h1 h64 v
  exact ⟨z, hz, hlo, hhi⟩

/-- A zero divisor leaves `/` and `%` without a result. -/
theorem CInt.div_mod_zero (a : CInt) {b : CInt} (h : b.toInt = 0) :
    a.div b = none ∧ a.mod b = none := by
  have hz : (b.cast (a.ty.common b.ty)).toInt = 0 := by
    unfold CInt.cast
    rw [h]
    unfold CType.ofInt CInt.toInt
    simp
  have hd : a.div b = none := by
    unfold CInt.div
    simp only [hz, ↓reduceIte]
  refine ⟨hd, ?_⟩
  unfold CInt.mod
  rw [hd]

/-- The mutators built from assignment, `+`, `-`, `*`, `&`, `|`, `^` always have a
result. -/
theorem Integer.step_arith {Bits : Nat} (h1 : 1 ≤ Bits) (h64 : Bits ≤ 64) (x : Integer Bits)
    (o : Op) (ho : o.isArith = true) : ∃ y : Integer Bits, x.step o = some y := by
  have hs : ∀ v : CInt, ∃ y : Integer Bits, Integer.set Bits v = some y := fun v =>
    (Integer.set_total h1 h64 v).imp fun _ h => h.1
  cases o with
  | assign v => exact hs v
  | postInc =>
    obtain ⟨y, hy⟩ := hs ((Integer.type Bits).common (lit 1).ty |>.ofInt
      ((x.dataC.cast ((Integer.type Bits).common (lit 1).ty)).toInt +
        ((lit 1).cast ((Integer.type Bits).common (lit 1).ty)).toInt))
    exact ⟨y, by
      simp only [Integer.step, Integer.postInc, CInt.add, CInt.arith, Option.bind_eq_bind,
        Option.some_bind, Option.pure_def]
      erw [hy]
      rfl⟩
  | postDec =>
    obtain ⟨y, hy⟩ := hs ((Integer.type Bits).common (lit 1).ty |>.ofInt
      ((x.dataC.cast ((Integer.type Bits).common (lit 1).ty)).toInt -
        ((lit 1).cast ((Integer.type Bits).common (lit 1).ty)).toInt))
    exact ⟨y, by
      simp only [Integer.step, Integer.postDec, CInt.sub, CInt.arith, Option.bind_eq_bind,
        Option.some_bind, Option.pure_def]
      erw [hy]
      rfl⟩
  | preInc =>
    simp only [Integer.step, Integer.preInc, CInt.add, CInt.arith, Option.bind_eq_bind,
      Option.some_bind]
    exact hs _
  | preDec =>
    simp only [Integer.step, Integer.preDec, CInt.sub, CInt.arith, Option.bind_eq_bind,
      Option.some_bind]
    exact hs _
  | andAssign v => exact hs _
  | orAssign v => exact hs _
  | xorAssign v => exact hs _
  | addAssign v =>
    simp only [Integer.step, Integer.addAssign, CInt.add, CInt.arith, Option.bind_eq_bind,
      Option.some_bind]
    exact hs _
  | subAssign v =>
    simp only [Integer.step, Integer.subAssign, CInt.sub, CInt.arith, Option.bind_eq_bind,
      Option.some_bind]
    exact hs _
  | mulAssign v =>
    simp only [Integer.step, Integer.mulAssign, CInt.mul, CInt.arith, Option.bind_eq_bind,
      Option.some_bind]
    exact hs _
  | shlAssign v => exact absurd ho (by simp [Op.isArith])
  | shrAssign v => exact absurd ho (by simp [Op.isArith])
  | divAssign v => exact absurd ho (by simp [Op.isArith])
  | modAssign v => exact absurd ho (by simp [Op.isArith])
  | view w o => exact absurd ho (by simp [Op.isArith])

/-! ## C9, C10: clamp and clip of Natural -/

/-- C9: for every width `1 ≤ Bits ≤ 64`, every `Natural<Bits>` holding `s` and every
target width `1 ≤ bits ≤ 64`, `clamp(bits)` is defined and returns `min(s, 2^bits - 1)`
as a `uintmax`; `clamp` only reads the receiver (it has no write to `data`). -/
theorem C9_natural_clamp (Bits : Nat) (h1 : 1 ≤ Bits) (h64 : Bits ≤ 64) (x : Natural Bits)
    (hx : x.data ≤ 2 ^ Bits - 1) (bits : CInt) (n : Nat) (hn : bits.toInt = n)
    (hn1 : 1 ≤ n) (hn64 : n ≤ 64) :
    x.clamp bits = some ⟨CType.uintmax, min x.data (2 ^ n - 1)⟩ := by
  obtain ⟨e1, e2, e3, e4⟩ := clamp_locals hn hn1 hn64
  have hp : 2 ^ (n - 1) < 2 ^ 64 := Nat.pow_lt_pow_right (by decide) (by omega)
  have hpos : 0 < 2 ^ n := by positivity
  have hle : 2 ^ n ≤ 2 ^ 64 := two_pow_mono hn64
  have hm : CType.uintmax.fits (2 ^ n - 1) := CType.fits_uintmax (by omega)
  have hd := Natural.fits_data h64 hx
  have hdlt : x.data < 2 ^ 64 := by
    have := two_pow_mono h64
    have : 0 < 2 ^ Bits := by positivity
    omega
  have c1 : (CInt.mk CType.uintmax (2 ^ (n - 1))).cast CType.uintmax = ⟨CType.uintmax, 2 ^ (n - 1)⟩ :=
    CInt.cast_mk_fits (CType.fits_uintmax hp) (CType.fits_uintmax hp)
  have c2 : (CInt.mk CType.uintmax (2 ^ n - 1)).cast CType.uintmax = ⟨CType.uintmax, 2 ^ n - 1⟩ :=
    CInt.cast_mk_fits hm hm
  unfold Natural.clamp
  simp only [Option.bind_eq_bind, Option.pure_def, e1, Option.some_bind, e2, c1, e3, e4, c2]
  rw [Natural.dataC_eq h64 hx, CInt.lt_mk hd hm, CInt.cond_mk _ hd hm,
    Natural.common_type_uintmax]
  have hr : (if decide (x.data < 2 ^ n - 1) = true then x.data else 2 ^ n - 1) =
      min x.data (2 ^ n - 1) := by
    simp only [decide_eq_true_eq]
    split <;> omega
  rw [hr, CInt.cast_mk_fits (CType.fits_uintmax (by omega)) (CType.fits_uintmax (by omega))]

theorem C9_natural_clamp_witness :
    (1 ≤ 16 ∧ 16 ≤ 64) ∧ ((Natural.construct 16 (lit 300)).data ≤ 2 ^ 16 - 1) ∧
      ((CType.uint.ofInt 8).toInt = (8 : Nat) ∧ 1 ≤ 8 ∧ 8 ≤ 64) ∧
      (Natural.construct 16 (lit 300)).clamp (CType.uint.ofInt 8) =
        some ⟨CType.uintmax, 255⟩ ∧
      (Natural.construct 16 (lit 300)).clamp (CType.uint.ofInt 8) =
        some ⟨CType.uintmax, min (Natural.construct 16 (lit 300)).data (2 ^ 8 - 1)⟩ :=
  ⟨⟨by decide, by decide⟩, by decide, ⟨by decide, by decide, by decide⟩, by decide,
    C9_natural_clamp 16 (by decide) (by decide) (Natural.construct 16 (lit 300)) (by decide)
      (CType.uint.ofInt 8) 8 (by decide) (by decide) (by decide)⟩

/-- C10: for every width `1 ≤ Bits ≤ 64`, every `Natural<Bits>` holding `s` and every
target width `1 ≤ bits ≤ 64`, `clip(bits)` is defined and returns `s & (2^bits - 1)`,
which is `s mod 2^bits`, as a `uintmax`; `clip` only reads the receiver (it has no
write to `data`). -/
theorem C10_natural_clip (Bits : Nat) (h1 : 1 ≤ Bits) (h64 : Bits ≤ 64) (x : Natural Bits)
    (hx : x.data ≤ 2 ^ Bits - 1) (bits : CInt) (n : Nat) (hn : bits.toInt = n)
    (hn1 : 1 ≤ n) (hn64 : n ≤ 64) :
    x.clip bits = some ⟨CType.uintmax, x.data &&& (2 ^ n - 1)⟩ ∧
    x.data &&& (2 ^ n - 1) = x.data % 2 ^ n := by
  obtain ⟨e1, e2, e3, e4⟩ := clamp_locals hn hn1 hn64
  have hp : 2 ^ (n - 1) < 2 ^ 64 := Nat.pow_lt_pow_right (by decide) (by omega)
  have hpos : 0 < 2 ^ n := by positivity
  have hle : 2 ^ n ≤ 2 ^ 64 := two_pow_mono hn64
  have hm : CType.uintmax.fits (2 ^ n - 1) := CType.fits_uintmax (by omega)
  have hd := Natural.fits_data h64 hx
  have hand : x.data &&& (2 ^ n - 1) < 2 ^ 64 :=
    lt_of_le_of_lt Nat.and_le_right (by omega)
  have c1 : (CInt.mk CType.uintmax (2 ^ (n - 1))).cast CType.uintmax = ⟨CType.uintmax, 2 ^ (n - 1)⟩ :=
    CInt.cast_mk_fits (CType.fits_uintmax hp) (CType.fits_uintmax hp)
  have c2 : (CInt.mk CType.uintmax (2 ^ n - 1)).cast CType.uintmax = ⟨CType.uintmax, 2 ^ n - 1⟩ :=
    CInt.cast_mk_fits hm hm
  refine ⟨?_, Nat.and_pow_two_sub_one_eq_mod _ _⟩
  unfold Natural.clip
  simp only [Option.bind_eq_bind, Option.pure_def, e1, Option.some_bind, e2, c1, e3, e4, c2]
  rw [Natural.dataC_eq h64 hx, CInt.band_mk hd hm, Natural.common_type_uintmax,
    CInt.cast_mk_fits (CType.fits_uintmax hand) (CType.fits_uintmax hand)]

theorem C10_natural_clip_witness :
    (1 ≤ 16 ∧ 16 ≤ 64) ∧ ((Natural.construct 16 (lit 300)).data ≤ 2 ^ 16 - 1) ∧
      ((CType.uint.ofInt 8).toInt = (8 : Nat) ∧ 1 ≤ 8 ∧ 8 ≤ 64) ∧
      (Natural.construct 16 (lit 300)).clip (CType.uint.ofInt 8) =
        some ⟨CType.uintmax, 44⟩ ∧
      (Natural.construct 16 (lit 300)).clip (CType.uint.ofInt 8) =
        some ⟨CType.uintmax, (Natural.construct 16 (lit 300)).data &&& (2 ^ 8 - 1)⟩ :=
  ⟨⟨by decide, by decide⟩, by decide, ⟨by decide, by decide, by decide⟩, by decide,
    (C10_natural_clip 16 (by decide) (by decide) (Natural.construct 16 (lit 300)) (by decide)
      (CType.uint.ofInt 8) 8 (by decide) (by decide) (by decide)).1⟩

/-! ## C6: reading a view of Natural -/

/-- Reading a view of a `Natural<Bits>` whose range is narrower than 64 bits: the
arguments of `bits` may come in either order, and `get()` is defined and returns
`floor(x / 2^lo) mod 2^(hi-lo+1)` with `lo` the smaller and `hi` the larger argument;
this is `(x & RangeMask) >> lo` with `RangeMask` having exactly the bits `lo..hi` set. -/
theorem Natural.bits_get_spec (Bits : Nat) (h1 : 1 ≤ Bits) (h64 : Bits ≤ 64)
    (x : Natural Bits) (hx : x.data ≤ 2 ^ Bits - 1) (lo hi : CInt) (a b : Nat)
    (ha : lo.toInt = a) (hb : hi.toInt = b) (haB : a < Bits) (hbB : b < Bits)
    (hw : max a b - min a b + 1 < 64) :
    (x.bits lo hi).get =
      some ⟨Natural.type Bits, x.data / 2 ^ (min a b) % 2 ^ (max a b - min a b + 1)⟩ ∧
    (x.bits lo hi).get = (x.bits hi lo).get ∧
    x.data / 2 ^ (min a b) % 2 ^ (max a b - min a b + 1) =
      (x.data &&& rangeMask (min a b) (max a b)) >>> (min a b) := by
  have hmm : min a b ≤ max a b := by omega
  have e1 := Natural.Reference.get_eq h64 x hx hmm (by omega) hw
  have hsw1 : min b a = min a b := Nat.min_comm b a
  have hsw2 : max b a = max a b := Nat.max_comm b a
  refine ⟨?_, ?_, ?_⟩
  · rw [Natural.bits_eq x ha hb (by omega) (by omega), e1]
  · rw [Natural.bits_eq x ha hb (by omega) (by omega),
      Natural.bits_eq x hb ha (by omega) (by omega), hsw1, hsw2]
  · rw [Nat.shiftRight_eq_div_pow, and_rangeMask_div hmm]

theorem Natural.bits_get_spec_witness :
    (1 ≤ 8 ∧ 8 ≤ 64) ∧
      ((Natural.construct 8 (lit 180)).bits (lit 2) (lit 5)).get =
        some ⟨Natural.type 8, 13⟩ ∧
      ((Natural.construct 8 (lit 180)).bits (lit 5) (lit 2)).get =
        some ⟨Natural.type 8, 13⟩ ∧
      ((Natural.construct 8 (lit 180)).bits (lit 5) (lit 2)).get =
        ((Natural.construct 8 (lit 180)).bits (lit 2) (lit 5)).get :=
  ⟨⟨by decide, by decide⟩, by decide, by decide,
    (Natural.bits_get_spec 8 (by decide) (by decide) (Natural.construct 8 (lit 180))
      (by decide) (lit 5) (lit 2) 5 2 (by decide) (by decide) (by decide) (by decide)
      (by decide)).2.1⟩

/-- C6 at the full-width view of a 64-bit value: for every `Natural<64>` the read
`bits(0, 63).get()` evaluates `1ull << 64` in `RangeMask`, which is undefined, so no
value (and in particular not `x` itself) is returned. -/
theorem C6_natural_full_width_get_undefined (x : Natural 64) :
    (x.bits (CType.uint.ofInt 0) (CType.uint.ofInt 63)).get = none ∧
    (x.bits (CType.uint.ofInt 63) (CType.uint.ofInt 0)).get = none := by
  have h0 : (CType.uint.ofInt 0).toInt = (0 : Nat) := by decide
  have h63 : (CType.uint.ofInt 63).toInt = (63 : Nat) := by decide
  have hm := Natural.Reference.RangeMask_full x (l := 0) (h := 63) (by omega) (by omega) rfl
  constructor
  · rw [Natural.bits_eq x h0 h63 (by omega) (by omega)]
    unfold Natural.Reference.get
    simp only [Option.bind_eq_bind]
    have e1 : min 0 63 = 0 := rfl
    have e2 : max 0 63 = 63 := rfl
    rw [e1, e2, hm, Option.none_bind]
  · rw [Natural.bits_eq x h63 h0 (by omega) (by omega)]
    unfold Natural.Reference.get
    simp only [Option.bind_eq_bind]
    have e1 : min 63 0 = 0 := rfl
    have e2 : max 63 0 = 63 := rfl
    rw [e1, e2, hm, Option.none_bind]

/-! ## C7: writing a view of Natural -/

theorem CInt.toInt_cast_emod (v : CInt) (t : CType) {k : Nat} (hk : k ≤ t.width) :
    (v.cast t).toInt % 2 ^ k = v.toInt % 2 ^ k := by
  rw [CInt.toInt_emod _ (by simpa [CInt.cast, CType.ofInt] using hk)]
  exact CType.ofInt_bits_emod t v.toInt hk

/-- The field `l..h` of a number whose bits there are those of `f < 2^(h-l+1)`. -/
theorem field_eq_of_testBit {y f l h : Nat} (hlh : l ≤ h) (hf : f < 2 ^ (h - l + 1))
    (hb : ∀ i, l ≤ i → i ≤ h → y.testBit i = f.testBit (i - l)) :
    y / 2 ^ l % 2 ^ (h - l + 1) = f := by
  apply Nat.eq_of_testBit_eq
  intro j
  rw [Nat.testBit_mod_two_pow, ← Nat.shiftRight_eq_div_pow, Nat.testBit_shiftRight]
  by_cases hj : j < h - l + 1
  · rw [hb (l + j) (by omega) (by omega)]
    have : l + j - l = j := by omega
    simp [hj, this]
  · have : f.testBit j = false :=
      Nat.testBit_lt_two_pow (lt_of_lt_of_le hf (two_pow_mono (by omega)))
    simp [hj, this]

/-- Writing a view of a `Natural<Bits>` whose range `lo..hi` is narrower than 64 bits:
`set(v)` and view assignment are defined, every bit of the parent outside `lo..hi` is
unchanged, the bits `lo..hi` hold the low `hi-lo+1` bits of `v`, and `get()` then
returns `v mod 2^(hi-lo+1)`. -/
theorem Natural.bits_set_spec (Bits : Nat) (h1 : 1 ≤ Bits) (h64 : Bits ≤ 64)
    (x : Natural Bits) (hx : x.data ≤ 2 ^ Bits - 1) (lo hi : CInt) (l h : Nat)
    (hl : lo.toInt = l) (hh : hi.toInt = h) (hlh : l ≤ h) (hB : h < Bits)
    (hw : h - l + 1 < 64) (v : CInt) :
    ∃ r2 : Natural.Reference Bits,
      (x.bits lo hi).set v = some r2 ∧ (x.bits lo hi).assign v = some r2 ∧
      r2.source.data ≤ 2 ^ Bits - 1 ∧
      (∀ i, ¬ (l ≤ i ∧ i ≤ h) → r2.source.data.testBit i = x.data.testBit i) ∧
      (∀ i, l ≤ i → i ≤ h →
        r2.source.data.testBit i = (v.toInt % 2 ^ (h - l + 1)).toNat.testBit (i - l)) ∧
      r2.get = some ⟨Natural.type Bits, (v.toInt % 2 ^ (h - l + 1)).toNat⟩ ∧
      (r2.source.bits lo hi).get =
        some ⟨Natural.type Bits, (v.toInt % 2 ^ (h - l + 1)).toNat⟩ := by
  have hmin : min l h = l := by omega
  have hmax : max l h = h := by omega
  have hb := Natural.bits_eq x hl hh (by omega) (by omega)
  rw [hmin, hmax] at hb
  obtain ⟨y, hy, hyle, hbits⟩ := Natural.Reference.view_set_eq h64 x hx hlh hB hw v
  obtain ⟨y2, hy2, _, hbits2⟩ :=
    Natural.Reference.view_set_eq h64 x hx hlh hB hw (v.cast (Natural.type Bits))
  have hrbW : h - l + 1 ≤ (Natural.type Bits).width := by
    have := le_storageWidth h64
    rw [Natural.type_width]; omega
  have hyy : y2 = y := by
    apply Natural.ext_data
    apply Nat.eq_of_testBit_eq
    intro i
    rw [hbits i, hbits2 i, CInt.toInt_cast_emod v _ hrbW]
  have hout : ∀ i, ¬ (l ≤ i ∧ i ≤ h) → y.data.testBit i = x.data.testBit i := by
    intro i hi
    rw [hbits i, if_neg hi]
  have hin : ∀ i, l ≤ i → i ≤ h →
      y.data.testBit i = (v.toInt % 2 ^ (h - l + 1)).toNat.testBit (i - l) := by
    intro i hi1 hi2
    rw [hbits i, if_pos ⟨hi1, hi2⟩]
  have hget := Natural.Reference.get_eq h64 y hyle hlh hB hw
  rw [field_eq_of_testBit hlh (toNat_emod_lt _ _) hin] at hget
  have hb2 := Natural.bits_eq y hl hh (by omega) (by omega)
  rw [hmin, hmax] at hb2
  refine ⟨⟨y, ⟨Natural.type Bits, l⟩, ⟨Natural.type Bits, h⟩⟩, ?_, ?_, hyle, hout, hin, hget, ?_⟩
  · rw [hb, hy]
  · unfold Natural.Reference.assign
    rw [hb, hy2, hyy]
  · rw [hb2, hget]

theorem Natural.bits_set_spec_witness :
    (1 ≤ 8 ∧ 8 ≤ 64) ∧
      (((Natural.construct 8 (lit 180)).bits (lit 2) (lit 5)).assign (lit 0)).map
        (fun r => r.source.data) = some 128 ∧
      ∃ r2 : Natural.Reference 8,
        ((Natural.construct 8 (lit 180)).bits (lit 2) (lit 5)).set (lit 0) = some r2 ∧
        ((Natural.construct 8 (lit 180)).bits (lit 2) (lit 5)).assign (lit 0) = some r2 ∧
        r2.source.data ≤ 2 ^ 8 - 1 :=
  ⟨⟨by decide, by decide⟩, by decide,
    (Natural.bits_set_spec 8 (by decide) (by decide) (Natural.construct 8 (lit 180))
      (by decide) (lit 2) (lit 5) 2 5 (by decide) (by decide) (by decide) (by decide)
      (by decide) (lit 0)).imp fun _ hr => ⟨hr.1, hr.2.1, hr.2.2.1⟩⟩

/-- C7 at the full-width view of a 64-bit value: for every `Natural<64>` and every
value `v`, the write `bits(0, 63).set(v)` (and view assignment) evaluates
`1ull << 64` in `RangeMask`, which is undefined, so the parent does not come to hold
the bits of `v`. -/
theorem C7_natural_full_width_set_undefined (x : Natural 64) (v : CInt) :
    (x.bits (CType.uint.ofInt 0) (CType.uint.ofInt 63)).set v = none ∧
    (x.bits (CType.uint.ofInt 0) (CType.uint.ofInt 63)).assign v = none := by
  have h0 : (CType.uint.ofInt 0).toInt = (0 : Nat) := by decide
  have h63 : (CType.uint.ofInt 63).toInt = (63 : Nat) := by decide
  have hm := Natural.Reference.RangeMask_full x (l := 0) (h := 63) (by omega) (by omega) rfl
  have e1 : min 0 63 = 0 := rfl
  have e2 : max 0 63 = 63 := rfl
  have hs : ∀ w : CInt,
      (x.bits (CType.uint.ofInt 0) (CType.uint.ofInt 63)).set w = none := by
    intro w
    rw [Natural.bits_eq x h0 h63 (by omega) (by omega)]
    unfold Natural.Reference.set
    simp only [Option.bind_eq_bind]
    rw [e1, e2, hm, Option.none_bind]
  exact ⟨hs v, hs _⟩

/-! ## C8: views of Integer -/

/-- A view of an `Integer<Bits>` whose range `lo..hi` is narrower than 64 bits works on
the unsigned `Bits`-bit pattern `p = x mod 2^Bits` of the parent: `get()` is defined
and returns the non-negative `floor(p / 2^lo) mod 2^(hi-lo+1)`, also for negative `x`;
`set(v)` is defined, leaves the parent in `[-2^(Bits-1), 2^(Bits-1) - 1]`, and the
pattern of the new parent is `p` with the bits `lo..hi` replaced by the low
`hi-lo+1` bits of `v` (so the new value is the sign extension of that pattern). -/
theorem Integer.bits_spec (Bits : Nat) (h1 : 1 ≤ Bits) (h64 : Bits ≤ 64)
    (x : Integer Bits) (lo hi : CInt) (l h : Nat) (hl : lo.toInt = l) (hh : hi.toInt = h)
    (hlh : l ≤ h) (hB : h < Bits) (hw : h - l + 1 < 64) (v : CInt) :
    (x.bits lo hi).get =
      some ⟨Integer.utype Bits, (x.data % 2 ^ Bits).toNat / 2 ^ l % 2 ^ (h - l + 1)⟩ ∧
    ∃ r2 : Integer.Reference Bits, (x.bits lo hi).set v = some r2 ∧
      (-(2 : Int) ^ (Bits - 1) ≤ r2.source.data ∧ r2.source.data ≤ 2 ^ (Bits - 1) - 1) ∧
      ∀ i, (r2.source.data % 2 ^ Bits).toNat.testBit i =
        (decide (i < Bits) &&
          if l ≤ i ∧ i ≤ h then (v.toInt % 2 ^ (h - l + 1)).toNat.testBit (i - l)
          else (x.data % 2 ^ Bits).toNat.testBit i) := by
  have hmin : min l h = l := by omega
  have hmax : max l h = h := by omega
  have hb := Integer.int_bits_eq x hl hh (by omega) (by omega)
  rw [hmin, hmax] at hb
  obtain ⟨y, hy, hrange, hbits⟩ := Integer.Reference.int_set_eq h1 h64 x hlh hB hw v
  refine ⟨?_, ⟨y, ⟨CType.uint, l⟩, ⟨CType.uint, h⟩⟩, ?_, hrange, hbits⟩
  · rw [hb, Integer.Reference.int_get_eq h64 x hlh hB hw]
  · rw [hb, hy]

theorem Integer.bits_spec_witness :
    (1 ≤ 8 ∧ 8 ≤ 64) ∧
      ((⟨-1⟩ : Integer 8).bits (lit 4) (lit 7)).get = some ⟨Integer.utype 8, 15⟩ ∧
      (((Integer.zero 8).bit (lit 7)).set (lit 1)).map (fun r => r.source.data) =
        some (-128) ∧
      (((Integer.zero 64).bit (lit 63)).set (lit 1)).map (fun r => r.source.data) =
        some (-(2 : Int) ^ 63) ∧
      ((⟨-1⟩ : Integer 8).bits (lit 4) (lit 7)).get =
        some ⟨Integer.utype 8, ((-1 : Int) % 2 ^ 8).toNat / 2 ^ 4 % 2 ^ (7 - 4 + 1)⟩ :=
  ⟨⟨by decide, by decide⟩, by decide, by decide, by decide,
    (Integer.bits_spec 8 (by decide) (by decide) ⟨-1⟩ (lit 4) (lit 7) 4 7 (by decide)
      (by decide) (by decide) (by decide) (by decide) (lit 0)).1⟩

/-- C8 at the full-width view of a 64-bit value: for every `Integer<64>` and every
value `v`, both `bits(0, 63).get()` and `bits(0, 63).set(v)` evaluate `1ull << 64` in
`RangeMask`, which is undefined, so neither the pattern is read nor the parent
written as claimed. -/
theorem C8_integer_full_width_view_undefined (x : Integer 64) (v : CInt) :
    (x.bits (CType.uint.ofInt 0) (CType.uint.ofInt 63)).get = none ∧
    (x.bits (CType.uint.ofInt 0) (CType.uint.ofInt 63)).set v = none := by
  have h0 : (CType.uint.ofInt 0).toInt = (0 : Nat) := by decide
  have h63 : (CType.uint.ofInt 63).toInt = (63 : Nat) := by decide
  have hm := Integer.Reference.int_RangeMask_full x (l := 0) (h := 63) (by omega) (by omega) rfl
  have e1 : min 0 63 = 0 := rfl
  have e2 : max 0 63 = 63 := rfl
  constructor
  · rw [Integer.int_bits_eq x h0 h63 (by omega) (by omega)]
    unfold Integer.Reference.get
    simp only [Option.bind_eq_bind]
    rw [e1, e2, hm, Option.none_bind]
  · rw [Integer.int_bits_eq x h0 h63 (by omega) (by omega)]
    unfold Integer.Reference.set
    simp only [Option.bind_eq_bind]
    rw [e1, e2, hm, Option.none_bind]

/-! ## Lemmas: a native operation followed by the setter of Natural -/

theorem CInt.toInt_ofInt_emod (t : CType) (x : Int) {k : Nat} (hk : k ≤ t.width) :
    (t.ofInt x).toInt % 2 ^ k = x % 2 ^ k := by
  rw [CInt.toInt_emod _ (show k ≤ (t.ofInt x).ty.width from hk)]
  exact CType.ofInt_bits_emod t x hk

/-- The setter applied to a native result `r` computed in a type at least `Bits` wide:
the stored value is `r mod 2^Bits`. -/
theorem Natural.set_ofInt {Bits : Nat} (h64 : Bits ≤ 64) (t : CType) (ht : Bits ≤ t.width)
    (r : Int) : Natural.set Bits (t.ofInt r) = ⟨(r % 2 ^ Bits).toNat⟩ := by
  apply Natural.ext_data
  rw [Natural.set_data h64, CInt.toInt_ofInt_emod t r ht]

/-- The four storage types of `Natural`. -/
theorem Natural.type_cases {Bits : Nat} (h64 : Bits ≤ 64) :
    (Natural.type Bits = ⟨false, 8⟩ ∧ Bits ≤ 8) ∨ (Natural.type Bits = ⟨false, 16⟩ ∧ Bits ≤ 16) ∨
    (Natural.type Bits = ⟨false, 32⟩ ∧ Bits ≤ 32) ∨ (Natural.type Bits = ⟨false, 64⟩ ∧ Bits ≤ 64) := by
  unfold Natural.type storageWidth
  split_ifs <;> simp_all

/-- Every type an operator of `Natural` computes in is at least `Bits` wide. -/
theorem Natural.le_common_width {Bits : Nat} (h64 : Bits ≤ 64) (tb : CType) :
    Bits ≤ ((Natural.type Bits).common tb).width :=
  le_trans (le_storageWidth h64) (CType.width_le_common_left (Natural.type Bits) tb)

/-! ## Lemmas: sums and differences computed by Natural -/

/-- The sum `data + v` of `Natural`, for an operand of type `int` or of the storage
type: computed in the common type, where a sum of two values of at most 16 bits each
is representable in `int` and sums in the unsigned types wrap. -/
theorem Natural.add_defined {Bits : Nat} (h64 : Bits ≤ 64) {d m : Nat} {tb : CType}
    (hd : (Natural.type Bits).fits d) (hm : tb.fits m)
    (htb : tb = CType.int ∨ tb = Natural.type Bits) (hm16 : tb = CType.int → m < 2 ^ 16) :
    (CInt.mk (Natural.type Bits) d).add ⟨tb, m⟩ =
      some (((Natural.type Bits).common tb).ofInt ((d : Int) + m)) := by
  unfold CInt.add
  rw [CInt.arith_mk _ hd hm]

/-- The difference `data - v` of `Natural`, in the common type. -/
theorem Natural.sub_defined {Bits : Nat} {d m : Nat} {tb : CType}
    (hd : (Natural.type Bits).fits d) (hm : tb.fits m) :
    (CInt.mk (Natural.type Bits) d).sub ⟨tb, m⟩ =
      some (((Natural.type Bits).common tb).ofInt ((d : Int) - m)) :=
  CInt.sub_mk hd hm

/-! ## Lemmas: signed values, and a native operation followed by the setter of Integer -/

theorem CType.ofInt_ty (t : CType) (x : Int) : (t.ofInt x).ty = t := rfl

theorem CInt.toInt_cast_ofInt {ta t : CType} {x : Int} (hwa : 1 ≤ ta.width) (hwt : 1 ≤ t.width)
    (ha : ta.holds x = true) (ht : t.holds x = true) : ((ta.ofInt x).cast t).toInt = x := by
  unfold CInt.cast
  rw [CInt.toInt_ofInt_of_holds hwa ha, CInt.toInt_ofInt_of_holds hwt ht]

/-- An arithmetic operator on two values that are representable in the common type. -/
theorem CInt.arith_ofInt (f : Int → Int → Int) {ta tb : CType} {x y : Int}
    (hwa : 1 ≤ ta.width) (hwb : 1 ≤ tb.width)
    (ha : ta.holds x = true) (hb : tb.holds y = true)
    (hta : (ta.common tb).holds x = true) (htb : (ta.common tb).holds y = true) :
    CInt.arith f (ta.ofInt x) (tb.ofInt y) = some ((ta.common tb).ofInt (f x y)) := by
  have hw : 1 ≤ (ta.common tb).width := le_trans (by decide) (CType.common_width_ge ta tb)
  unfold CInt.arith
  simp only [CType.ofInt_ty]
  rw [CInt.toInt_cast_ofInt hwa hw ha hta, CInt.toInt_cast_ofInt hwb hw hb htb]

/-- The comparison of two values that are representable in the common type. -/
theorem CInt.lt_ofInt {ta tb : CType} {x y : Int}
    (hwa : 1 ≤ ta.width) (hwb : 1 ≤ tb.width)
    (ha : ta.holds x = true) (hb : tb.holds y = true)
    (hta : (ta.common tb).holds x = true) (htb : (ta.common tb).holds y = true) :
    (ta.ofInt x).lt (tb.ofInt y) = decide (x < y) := by
  have hw : 1 ≤ (ta.common tb).width := le_trans (by decide) (CType.common_width_ge ta tb)
  unfold CInt.lt
  simp only [CType.ofInt_ty, CInt.toInt_cast_ofInt hwa hw ha hta,
    CInt.toInt_cast_ofInt hwb hw hb htb]

/-- The two's-complement wrap lies in the signed range and is congruent to its
argument. -/
theorem wrapSigned_spec {Bits : Nat} (h1 : 1 ≤ Bits) (v : Int) :
    -(2 : Int) ^ (Bits - 1) ≤ wrapSigned Bits v ∧ wrapSigned Bits v < 2 ^ (Bits - 1) ∧
    wrapSigned Bits v % 2 ^ Bits = v % 2 ^ Bits := by
  have hS2 : (2 : Int) ^ Bits = 2 ^ (Bits - 1) + 2 ^ (Bits - 1) := by
    have hB : Bits = Bits - 1 + 1 := by omega
    conv_lhs => rw [hB]
    rw [pow_succ]; ring
  have hpos : (0 : Int) < 2 ^ Bits := by positivity
  have h0 := Int.emod_nonneg (v + 2 ^ (Bits - 1)) (ne_of_gt hpos)
  have h2 := Int.emod_lt_of_pos (v + 2 ^ (Bits - 1)) hpos
  unfold wrapSigned
  refine ⟨by omega, by omega, ?_⟩
  rw [Int.sub_emod, Int.emod_emod_of_dvd _ (dvd_refl _), ← Int.sub_emod, add_sub_cancel_right]

/-- A value already in the signed range is its own wrap. -/
theorem wrapSigned_of_range {Bits : Nat} (h1 : 1 ≤ Bits) {v : Int}
    (hlo : -(2 : Int) ^ (Bits - 1) ≤ v) (hhi : v < 2 ^ (Bits - 1)) : wrapSigned Bits v = v := by
  have hS2 : (2 : Int) ^ Bits = 2 ^ (Bits - 1) + 2 ^ (Bits - 1) := by
    have hB : Bits = Bits - 1 + 1 := by omega
    conv_lhs => rw [hB]
    rw [pow_succ]; ring
  obtain ⟨a, b, c⟩ := wrapSigned_spec h1 v
  exact eq_of_emod_eq_of_window (M := 2 ^ Bits) (l := -(2 : Int) ^ (Bits - 1))
    ⟨a, by omega⟩ ⟨hlo, by omega⟩ c

/-- The setter of `Integer` stores the two's-complement wrap of its argument. -/
theorem Integer.set_wrap {Bits : Nat} (h1 : 1 ≤ Bits) (h64 : Bits ≤ 64) (v : CInt) :
    Integer.set Bits v = some ⟨wrapSigned Bits v.toInt⟩ := by
  have hS2 : (2 : Int) ^ Bits = 2 ^ (Bits - 1) + 2 ^ (Bits - 1) := by
    have hB : Bits = Bits - 1 + 1 := by omega
    conv_lhs => rw [hB]
    rw [pow_succ]; ring
  obtain ⟨y, hy, -, hlo, hhi, hmod⟩ := Integer.set_spec h1 h64 v
  obtain ⟨a, b, c⟩ := wrapSigned_spec h1 v.toInt
  rw [hy]
  congr 1
  cases y with
  | mk d =>
    congr 1
    exact eq_of_emod_eq_of_window (M := 2 ^ Bits) (l := -(2 : Int) ^ (Bits - 1))
      ⟨hlo, by simp only at hhi; omega⟩ ⟨a, by omega⟩ (hmod.trans c.symm)

theorem wrapSigned_congr {Bits : Nat} {a b : Int} (h : a % 2 ^ Bits = b % 2 ^ Bits) :
    wrapSigned Bits a = wrapSigned Bits b := by
  unfold wrapSigned
  rw [Int.add_emod, h, ← Int.add_emod]

/-- The setter of `Integer` applied to a native result `r` computed in a type at least
`Bits` wide: the stored value is the wrap of `r`. -/
theorem Integer.int_set_ofInt {Bits : Nat} (h1 : 1 ≤ Bits) (h64 : Bits ≤ 64) (t : CType)
    (ht : Bits ≤ t.width) (r : Int) :
    Integer.set Bits (t.ofInt r) = some ⟨wrapSigned Bits r⟩ := by
  rw [Integer.set_wrap h1 h64, wrapSigned_congr (CInt.toInt_ofInt_emod t r ht)]

/-! ## C13: increment and decrement of Natural -/

theorem Natural.inc_value {Bits : Nat} (h64 : Bits ≤ 64) (x : Natural Bits)
    (hx : x.data ≤ 2 ^ Bits - 1) :
    x.dataC.add (lit 1) = some (((Natural.type Bits).common CType.int).ofInt ((x.data : Int) + 1)) := by
  have l1 : lit 1 = ⟨CType.int, 1⟩ := lit_eq (n := 1) (by decide)
  rw [Natural.dataC_eq h64 hx, l1]
  exact Natural.add_defined h64 (Natural.fits_data h64 hx) (CType.fits_int (by decide))
    (Or.inl rfl) (fun _ => by decide)

theorem Natural.dec_value {Bits : Nat} (h64 : Bits ≤ 64) (x : Natural Bits)
    (hx : x.data ≤ 2 ^ Bits - 1) :
    x.dataC.sub (lit 1) = some (((Natural.type Bits).common CType.int).ofInt ((x.data : Int) - 1)) := by
  have l1 : lit 1 = ⟨CType.int, 1⟩ := lit_eq (n := 1) (by decide)
  rw [Natural.dataC_eq h64 hx, l1]
  exact Natural.sub_defined (Natural.fits_data h64 hx) (CType.fits_int (by decide))

/-- C13: for every width `1 ≤ Bits ≤ 64` and every `Natural<Bits>` holding `x`, pre- and
post-increment are defined and store `(x + 1) mod 2^Bits`, pre- and post-decrement are
defined and store `(x - 1) mod 2^Bits` (the post forms return the old value);
incrementing `Mask = 2^Bits - 1` stores `0` and decrementing `0` stores `Mask`. -/
theorem C13_natural_increment_decrement (Bits : Nat) (h1 : 1 ≤ Bits) (h64 : Bits ≤ 64)
    (x : Natural Bits) (hx : x.data ≤ 2 ^ Bits - 1) :
    x.preInc = some ⟨(((x.data : Int) + 1) % 2 ^ Bits).toNat⟩ ∧
    x.postInc = some (x.dataC, ⟨(((x.data : Int) + 1) % 2 ^ Bits).toNat⟩) ∧
    x.preDec = some ⟨(((x.data : Int) - 1) % 2 ^ Bits).toNat⟩ ∧
    x.postDec = some (x.dataC, ⟨(((x.data : Int) - 1) % 2 ^ Bits).toNat⟩) ∧
    (x.data = 2 ^ Bits - 1 → x.preInc = some ⟨0⟩) ∧
    (x.data = 0 → x.preDec = some ⟨2 ^ Bits - 1⟩) := by
  have hw := Natural.le_common_width h64 CType.int
  have hinc : x.preInc = some ⟨(((x.data : Int) + 1) % 2 ^ Bits).toNat⟩ := by
    unfold Natural.preInc
    simp only [Option.bind_eq_bind, Option.pure_def]
    rw [Natural.inc_value h64 x hx, Option.some_bind, Natural.set_ofInt h64 _ hw]
  have hdec : x.preDec = some ⟨(((x.data : Int) - 1) % 2 ^ Bits).toNat⟩ := by
    unfold Natural.preDec
    simp only [Option.bind_eq_bind, Option.pure_def]
    rw [Natural.dec_value h64 x hx, Option.some_bind, Natural.set_ofInt h64 _ hw]
  have hpos : 0 < 2 ^ Bits := by positivity
  refine ⟨hinc, ?_, hdec, ?_, ?_, ?_⟩
  · unfold Natural.postInc
    simp only [Option.bind_eq_bind, Option.pure_def]
    rw [Natural.inc_value h64 x hx, Option.some_bind, Natural.set_ofInt h64 _ hw]
  · unfold Natural.postDec
    simp only [Option.bind_eq_bind, Option.pure_def]
    rw [Natural.dec_value h64 x hx, Option.some_bind, Natural.set_ofInt h64 _ hw]
  · intro hmax
    rw [hinc, hmax]
    have e : (((2 ^ Bits - 1 : Nat) : Int) + 1) = 2 ^ Bits := by
      have : ((2 ^ Bits - 1 : Nat) : Int) = ((2 ^ Bits : Nat) : Int) - 1 := by omega
      rw [this]; push_cast; ring
    rw [e, Int.emod_self]
    rfl
  · intro h0
    rw [hdec, h0]
    have e : ((((0 : Nat) : Int) - 1) % 2 ^ Bits) = ((2 ^ Bits - 1 : Nat) : Int) := by
      have h2 : ((2 ^ Bits - 1 : Nat) : Int) = (2 : Int) ^ Bits - 1 := by
        have : ((2 ^ Bits - 1 : Nat) : Int) = ((2 ^ Bits : Nat) : Int) - 1 := by omega
        rw [this]; push_cast; ring
      rw [h2]
      have e2 := Int.add_mul_emod_self (a := ((0 : Nat) : Int) - 1) (b := 1) (c := 2 ^ Bits)
      rw [one_mul] at e2
      rw [← e2]
      have hp : (0 : Int) < 2 ^ Bits := by positivity
      rw [Int.emod_eq_of_lt (by simp; omega) (by simp)]
      simp only [Nat.cast_zero, zero_sub]
      ring
    rw [e, Int.toNat_ofNat]

theorem C13_natural_increment_decrement_witness :
    (1 ≤ 8 ∧ 8 ≤ 64) ∧ ((Natural.construct 8 (lit 255)).data ≤ 2 ^ 8 - 1) ∧
      (Natural.construct 8 (lit 255)).preInc = some ⟨0⟩ ∧
      (Natural.construct 8 (lit 0)).preDec = some ⟨255⟩ ∧
      (Natural.construct 8 (lit 255)).preInc =
        some ⟨((((Natural.construct 8 (lit 255)).data : Int) + 1) % 2 ^ 8).toNat⟩ :=
  ⟨⟨by decide, by decide⟩, by decide, by decide, by decide,
    (C13_natural_increment_decrement 8 (by decide) (by decide) (Natural.construct 8 (lit 255))
      (by decide)).1⟩

/-! ## C14: the compound assignments `+=`, `-=`, `*=` of Natural -/

/-- The product `data * value` of `Natural`: computed in `int` for the 8- and 16-bit
storage types and in the storage type otherwise, modulo `2^width` of that type. -/
theorem Natural.mul_value {Bits : Nat} {d m : Nat}
    (hd : (Natural.type Bits).fits d) (hm : (Natural.type Bits).fits m) :
    (CInt.mk (Natural.type Bits) d).mul ⟨Natural.type Bits, m⟩ =
      some (((Natural.type Bits).common (Natural.type Bits)).ofInt ((d : Int) * m)) := by
  unfold CInt.mul
  rw [CInt.arith_mk _ hd hm]

/-- C14: for every width `1 ≤ Bits ≤ 64`, every `Natural<Bits>` holding `x` and every
operand `v` of the storage type, `x += v` stores `(x + v) mod 2^Bits`, `x -= v` stores
`(x - v) mod 2^Bits` and `x *= v` stores `(x * v) mod 2^Bits`, with `x` and `v` the
mathematical values before the operation; this includes the widths whose storage type
is narrower than `int`, where the operation is computed in `int` and the setter
reduces the `int` result. -/
theorem C14_natural_add_sub_mul (Bits : Nat) (h1 : 1 ≤ Bits) (h64 : Bits ≤ 64)
    (x : Natural Bits) (hx : x.data ≤ 2 ^ Bits - 1) (value : CInt) (v : Nat)
    (hv : value.toInt = v) (hvW : v < 2 ^ storageWidth Bits) :
    x.addAssign value = some ⟨(((x.data : Int) + v) % 2 ^ Bits).toNat⟩ ∧
    x.subAssign value = some ⟨(((x.data : Int) - v) % 2 ^ Bits).toNat⟩ ∧
    x.mulAssign value = some ⟨(((x.data : Int) * v) % 2 ^ Bits).toNat⟩ ∧
    (((x.data : Int) + v) % 2 ^ Bits).toNat = (x.data + v) % 2 ^ Bits ∧
    (((x.data : Int) * v) % 2 ^ Bits).toNat = (x.data * v) % 2 ^ Bits := by
  have hw := Natural.le_common_width h64 (Natural.type Bits)
  have hd := Natural.fits_data h64 hx
  have hm := Natural.fits_type hvW
  have hcast := CInt.cast_of_toInt_eq hv (Natural.type Bits) hvW
  refine ⟨?_, ?_, ?_, ?_, ?_⟩
  · unfold Natural.addAssign
    simp only [Option.bind_eq_bind, Option.pure_def]
    rw [hcast, Natural.dataC_eq h64 hx,
      Natural.add_defined h64 hd hm (Or.inr rfl) (fun ht => by
        have e : (Natural.type Bits).isSigned = false := rfl
        rw [ht] at e
        exact absurd e (by decide)),
      Option.some_bind, Natural.set_ofInt h64 _ hw]
  · unfold Natural.subAssign
    simp only [Option.bind_eq_bind, Option.pure_def]
    rw [hcast, Natural.dataC_eq h64 hx, Natural.sub_defined hd hm, Option.some_bind,
      Natural.set_ofInt h64 _ hw]
  · unfold Natural.mulAssign
    simp only [Option.bind_eq_bind, Option.pure_def]
    rw [hcast, Natural.dataC_eq h64 hx, Natural.mul_value hd hm, Option.some_bind,
      Natural.set_ofInt h64 _ hw]
  · have e : ((x.data : Int) + v) % 2 ^ Bits = (((x.data + v) % 2 ^ Bits : Nat) : Int) := by
      push_cast; rfl
    rw [e, Int.toNat_ofNat]
  · have e : ((x.data : Int) * v) % 2 ^ Bits = (((x.data * v) % 2 ^ Bits : Nat) : Int) := by
      push_cast; rfl
    rw [e, Int.toNat_ofNat]

theorem C14_natural_add_sub_mul_witness :
    (1 ≤ 16 ∧ 16 ≤ 64) ∧ ((Natural.construct 16 (lit 65535)).data ≤ 2 ^ 16 - 1) ∧
      ((lit 65535).toInt = (65535 : Nat) ∧ 65535 < 2 ^ storageWidth 16) ∧
      (Natural.construct 16 (lit 65535)).data = 65535 ∧
      (Natural.construct 16 (lit 65535)).mulAssign (lit 65535) = some ⟨1⟩ ∧
      (65535 * 65535) % 2 ^ 16 = 1 ∧
      (Natural.construct 16 (lit 65535)).addAssign (lit 65535) = some ⟨65534⟩ ∧
      (Natural.construct 16 (lit 5)).subAssign (lit 7) = some ⟨65534⟩ ∧
      (Natural.construct 13 (lit 8191)).mulAssign (lit 8191) = some ⟨1⟩ ∧
      (Natural.construct 32 (litull 4294967295)).mulAssign (litull 4294967295) = some ⟨1⟩ ∧
      (Natural.construct 64 (litull 18446744073709551615)).mulAssign
        (litull 18446744073709551615) = some ⟨1⟩ ∧
      (Natural.construct 16 (lit 65535)).mulAssign (lit 65535) =
        some ⟨((((Natural.construct 16 (lit 65535)).data : Int) * (65535 : Nat)) %
          2 ^ 16).toNat⟩ :=
  ⟨⟨by decide, by decide⟩, by decide, ⟨by decide, by decide⟩, by decide, by decide,
    by decide, by decide, by decide, by decide, by decide, by decide,
    (C14_natural_add_sub_mul 16 (by decide) (by decide) (Natural.construct 16 (lit 65535))
      (by decide) (lit 65535) 65535 (by decide) (by decide)).2.2.1⟩

/-! ## C15: increment and decrement of Integer -/

theorem storageWidth_cases (Bits : Nat) (h : Bits ≤ 64) :
    (storageWidth Bits = 8 ∧ Bits ≤ 8) ∨ (storageWidth Bits = 16 ∧ Bits ≤ 16) ∨
    (storageWidth Bits = 32 ∧ Bits ≤ 32) ∨ (storageWidth Bits = 64 ∧ Bits ≤ 64) := by
  unfold storageWidth
  split_ifs <;> simp_all

/-- The four storage types of `Integer`. -/
theorem Integer.int_type_cases {Bits : Nat} (h64 : Bits ≤ 64) :
    (Integer.type Bits = ⟨true, 8⟩ ∧ Bits ≤ 8) ∨ (Integer.type Bits = ⟨true, 16⟩ ∧ Bits ≤ 16) ∨
    (Integer.type Bits = ⟨true, 32⟩ ∧ Bits ≤ 32) ∨ (Integer.type Bits = ⟨true, 64⟩ ∧ Bits ≤ 64) := by
  unfold Integer.type storageWidth
  split_ifs <;> simp_all

theorem two_pow_pred_le {Bits n : Nat} (h1 : 1 ≤ Bits) (h : Bits ≤ n) :
    (2 : Int) ^ (Bits - 1) ≤ 2 ^ (n - 1) := by
  exact_mod_cast two_pow_mono (a := Bits - 1) (b := n - 1) (by omega)

/-- A stored value in the `Bits`-bit range is a value of the storage type. -/
theorem Integer.holds_data {Bits : Nat} (h1 : 1 ≤ Bits) (h64 : Bits ≤ 64) {d : Int}
    (hlo : -(2 : Int) ^ (Bits - 1) ≤ d) (hhi : d ≤ 2 ^ (Bits - 1) - 1) :
    (Integer.type Bits).holds d = true := by
  have := two_pow_pred_le h1 (le_storageWidth h64)
  simp only [CType.holds, Integer.type, ↓reduceIte, decide_eq_true_eq]
  omega

/-- The sum `data + 1` and the difference `data - 1` of `Integer`, computed in the
promoted storage type modulo `2^width` of that type. -/
theorem Integer.step_value {Bits : Nat} (h1 : 1 ≤ Bits) (h64 : Bits ≤ 64) (x : Integer Bits)
    (hlo : -(2 : Int) ^ (Bits - 1) ≤ x.data) (hhi : x.data ≤ 2 ^ (Bits - 1) - 1)
    (f : Int → Int → Int) :
    CInt.arith f x.dataC (lit 1) =
      some (((Integer.type Bits).common CType.int).ofInt (f x.data 1)) := by
  have hd := Integer.holds_data h1 h64 hlo hhi
  have h8 := two_pow_pred_le h1 (le_storageWidth h64)
  have hcd : ((Integer.type Bits).common CType.int).holds x.data = true := by
    have hsw : storageWidth Bits = (Integer.type Bits).width := rfl
    rw [hsw] at h8
    rcases Integer.int_type_cases h64 with ⟨ht, -⟩ | ⟨ht, -⟩ | ⟨ht, -⟩ | ⟨ht, -⟩ <;>
      simp only [ht, CType.common, CType.promote, CType.int, CType.holds,
        Nat.lt_irrefl, Nat.reduceLT, ↓reduceIte, Bool.and_self,
        decide_eq_true_eq, lt_self_iff_false, Nat.reduceSub] at h8 ⊢ <;>
      omega
  have hc1 : ((Integer.type Bits).common CType.int).holds 1 = true := by
    rcases Integer.int_type_cases h64 with ⟨ht, -⟩ | ⟨ht, -⟩ | ⟨ht, -⟩ | ⟨ht, -⟩ <;>
      rw [ht] <;> decide
  unfold Integer.dataC lit
  rw [CInt.arith_ofInt f (by rw [Integer.int_type_width]; exact storageWidth_pos Bits)
    (by decide) hd (by decide) hcd hc1]

theorem wrapSigned_max_succ {Bits : Nat} (h1 : 1 ≤ Bits) :
    wrapSigned Bits (2 ^ (Bits - 1) - 1 + 1) = -(2 : Int) ^ (Bits - 1) := by
  have hS2 : (2 : Int) ^ Bits = 2 ^ (Bits - 1) + 2 ^ (Bits - 1) := by
    have hB : Bits = Bits - 1 + 1 := by omega
    conv_lhs => rw [hB]
    rw [pow_succ]; ring
  unfold wrapSigned
  have e : (2 : Int) ^ (Bits - 1) - 1 + 1 + 2 ^ (Bits - 1) = 2 ^ Bits := by rw [hS2]; ring
  rw [e, Int.emod_self]
  ring

theorem wrapSigned_min_pred {Bits : Nat} (h1 : 1 ≤ Bits) :
    wrapSigned Bits (-(2 : Int) ^ (Bits - 1) - 1) = 2 ^ (Bits - 1) - 1 := by
  have hS2 : (2 : Int) ^ Bits = 2 ^ (Bits - 1) + 2 ^ (Bits - 1) := by
    have hB : Bits = Bits - 1 + 1 := by omega
    conv_lhs => rw [hB]
    rw [pow_succ]; ring
  have hpos : (0 : Int) < 2 ^ (Bits - 1) := by positivity
  unfold wrapSigned
  have e : -(2 : Int) ^ (Bits - 1) - 1 + 2 ^ (Bits - 1) = -1 := by ring
  have e2 := Int.add_mul_emod_self (a := (-1 : Int)) (b := 1) (c := 2 ^ Bits)
  rw [one_mul] at e2
  rw [e, ← e2, Int.emod_eq_of_lt (by omega) (by omega)]
  omega

/-- C15: for every width `1 ≤ Bits ≤ 64` and every `Integer<Bits>` holding `x`, pre- and
post-increment store the `Bits`-bit two's-complement wrap of `x + 1` and pre- and
post-decrement the wrap of `x - 1` (the post forms return the old value), the wrap
being the value of the signed range congruent to its argument modulo `2^Bits`:
incrementing `2^(Bits-1) - 1` stores `-2^(Bits-1)`, decrementing `-2^(Bits-1)` stores
`2^(Bits-1) - 1`, and otherwise the stored value changes by exactly 1. This holds at
every width, also at 32 and 64 where `data ± 1` is computed in the storage type itself
and wraps there. -/
theorem C15_integer_increment_decrement (Bits : Nat) (h1 : 1 ≤ Bits) (h64 : Bits ≤ 64)
    (x : Integer Bits) (hlo : -(2 : Int) ^ (Bits - 1) ≤ x.data)
    (hhi : x.data ≤ 2 ^ (Bits - 1) - 1) :
    (x.preInc = some ⟨wrapSigned Bits (x.data + 1)⟩ ∧
      x.postInc = some (x.dataC, ⟨wrapSigned Bits (x.data + 1)⟩) ∧
      x.preDec = some ⟨wrapSigned Bits (x.data - 1)⟩ ∧
      x.postDec = some (x.dataC, ⟨wrapSigned Bits (x.data - 1)⟩)) ∧
    (∀ v : Int, -(2 : Int) ^ (Bits - 1) ≤ wrapSigned Bits v ∧
      wrapSigned Bits v ≤ 2 ^ (Bits - 1) - 1 ∧ wrapSigned Bits v % 2 ^ Bits = v % 2 ^ Bits) ∧
    (x.data = 2 ^ (Bits - 1) - 1 → x.preInc = some ⟨-(2 : Int) ^ (Bits - 1)⟩) ∧
    (x.data = -(2 : Int) ^ (Bits - 1) → x.preDec = some ⟨2 ^ (Bits - 1) - 1⟩) ∧
    (x.data < 2 ^ (Bits - 1) - 1 → x.preInc = some ⟨x.data + 1⟩) ∧
    (-(2 : Int) ^ (Bits - 1) < x.data → x.preDec = some ⟨x.data - 1⟩) := by
  have hadd := Integer.step_value h1 h64 x hlo hhi (fun a b => a + b)
  have hsub := Integer.step_value h1 h64 x hlo hhi (fun a b => a - b)
  simp only at hadd hsub
  have hcw : Bits ≤ ((Integer.type Bits).common CType.int).width :=
    le_trans (le_storageWidth h64) (CType.width_le_common_left (Integer.type Bits) CType.int)
  have hpos : (0 : Int) < 2 ^ (Bits - 1) := by positivity
  have hinc : x.preInc = some ⟨wrapSigned Bits (x.data + 1)⟩ ∧
      x.postInc = some (x.dataC, ⟨wrapSigned Bits (x.data + 1)⟩) := by
    unfold Integer.preInc Integer.postInc CInt.add
    simp only [Option.bind_eq_bind, Option.pure_def]
    rw [hadd]
    simp only [Option.some_bind, Integer.int_set_ofInt h1 h64 _ hcw, and_self]
  have hdec : x.preDec = some ⟨wrapSigned Bits (x.data - 1)⟩ ∧
      x.postDec = some (x.dataC, ⟨wrapSigned Bits (x.data - 1)⟩) := by
    unfold Integer.preDec Integer.postDec CInt.sub
    simp only [Option.bind_eq_bind, Option.pure_def]
    rw [hsub]
    simp only [Option.some_bind, Integer.int_set_ofInt h1 h64 _ hcw, and_self]
  refine ⟨⟨hinc.1, hinc.2, hdec.1, hdec.2⟩, ?_, ?_, ?_, ?_, ?_⟩
  · intro v
    obtain ⟨a, b, c⟩ := wrapSigned_spec h1 v
    exact ⟨a, by omega, c⟩
  · intro h
    rw [hinc.1, h, wrapSigned_max_succ h1]
  · intro h
    rw [hdec.1, h, wrapSigned_min_pred h1]
  · intro h
    rw [hinc.1, wrapSigned_of_range h1 (by omega) (by omega)]
  · intro h
    rw [hdec.1, wrapSigned_of_range h1 (by omega) (by omega)]

theorem C15_integer_increment_decrement_witness :
    (1 ≤ 32 ∧ 32 ≤ 64) ∧
      (-(2 : Int) ^ (32 - 1) ≤ (⟨2147483647⟩ : Integer 32).data ∧
        (⟨2147483647⟩ : Integer 32).data ≤ 2 ^ (32 - 1) - 1) ∧
      (⟨2147483647⟩ : Integer 32).preInc = some ⟨-2147483648⟩ ∧
      (⟨-2147483648⟩ : Integer 32).preDec = some ⟨2147483647⟩ ∧
      (⟨9223372036854775807⟩ : Integer 64).preInc = some ⟨-9223372036854775808⟩ ∧
      (⟨-9223372036854775808⟩ : Integer 64).preDec = some ⟨9223372036854775807⟩ ∧
      (⟨32767⟩ : Integer 16).preInc = some ⟨-32768⟩ ∧
      (⟨1073741823⟩ : Integer 31).preInc = some ⟨-1073741824⟩ ∧
      (⟨-5⟩ : Integer 32).preInc = some ⟨-4⟩ ∧
      (⟨0⟩ : Integer 1).preDec = some ⟨-1⟩ ∧
      ((⟨2147483647⟩ : Integer 32).data = 2 ^ (32 - 1) - 1 →
        (⟨2147483647⟩ : Integer 32).preInc = some ⟨-(2 : Int) ^ (32 - 1)⟩) :=
  ⟨⟨by decide, by decide⟩, ⟨by decide, by decide⟩, by decide, by decide, by decide,
    by decide, by decide, by decide, by decide, by decide,
    (C15_integer_increment_decrement 32 (by decide) (by decide) ⟨2147483647⟩ (by decide)
      (by decide)).2.2.1⟩

/-! ## C12: clip of Integer -/

theorem Integer.int_common_type_uintmax (Bits : Nat) :
    (Integer.type Bits).common CType.uintmax = CType.uintmax := by
  unfold Integer.type storageWidth
  split_ifs <;> rfl

theorem Integer.common_type_intmax (Bits : Nat) :
    (Integer.type Bits).common CType.intmax = CType.intmax := by
  unfold Integer.type storageWidth
  split_ifs <;> rfl

theorem Integer.common_intmax_type (Bits : Nat) :
    CType.intmax.common (Integer.type Bits) = CType.intmax := by
  unfold Integer.type storageWidth
  split_ifs <;> rfl

/-- The field `data` of an `Integer` in range reads as itself. -/
theorem Integer.toInt_dataC {Bits : Nat} (h1 : 1 ≤ Bits) (h64 : Bits ≤ 64) (x : Integer Bits)
    (hlo : -(2 : Int) ^ (Bits - 1) ≤ x.data) (hhi : x.data ≤ 2 ^ (Bits - 1) - 1) :
    x.dataC.toInt = x.data :=
  CInt.toInt_ofInt_of_holds (by rw [Integer.int_type_width]; exact storageWidth_pos Bits)
    (Integer.holds_data h1 h64 hlo hhi)

/-- The xor / subtract trick computes the two's-complement wrap. -/
theorem xor_sub_eq_wrapSigned {n : Nat} (h1 : 1 ≤ n) (v : Int) :
    (((v % 2 ^ n).toNat ^^^ 2 ^ (n - 1) : Nat) : Int) - 2 ^ (n - 1) = wrapSigned n v := by
  have hB : n - 1 + 1 = n := by omega
  have hS2 : (2 : Int) ^ n = 2 ^ (n - 1) + 2 ^ (n - 1) := by
    conv_lhs => rw [← hB]
    rw [pow_succ]; ring
  have hp : (v % 2 ^ n).toNat < 2 ^ (n - 1 + 1) := by
    rw [hB]; exact toNat_emod_lt _ _
  have hr := xor_sub_sign_range hp
  obtain ⟨a, b, c⟩ := wrapSigned_spec h1 v
  apply eq_of_emod_eq_of_window (M := 2 ^ n) (l := -(2 : Int) ^ (n - 1))
    ⟨hr.1, by omega⟩ ⟨a, by omega⟩
  rw [c, xor_sub_sign hp, hB]
  have h0 : (0 : Int) ≤ v % 2 ^ n := Int.emod_nonneg _ (by positivity)
  rw [Int.toNat_of_nonneg h0]
  split
  · exact Int.emod_emod_of_dvd _ (dvd_refl _)
  · rw [Int.sub_emod, Int.emod_self, sub_zero, Int.emod_emod_of_dvd _ (dvd_refl _),
      Int.emod_emod_of_dvd _ (dvd_refl _)]

/-- C12: for every width `1 ≤ Bits ≤ 64`, every `Integer<Bits>` holding `s` and every
target width `1 ≤ bits ≤ 64`, `clip(bits)` is defined and returns, as an `intmax`,
`((s & (2^bits - 1)) ^ 2^(bits-1)) - 2^(bits-1)`, which lies in
`[-2^(bits-1), 2^(bits-1) - 1]`, is congruent to `s` modulo `2^bits`, and is the only
such integer; `clip` only reads the receiver (it has no write to `data`). -/
theorem C12_integer_clip (Bits : Nat) (h1 : 1 ≤ Bits) (h64 : Bits ≤ 64) (x : Integer Bits)
    (hlo : -(2 : Int) ^ (Bits - 1) ≤ x.data) (hhi : x.data ≤ 2 ^ (Bits - 1) - 1)
    (bits : CInt) (n : Nat) (hn : bits.toInt = n) (hn1 : 1 ≤ n) (hn64 : n ≤ 64) :
    ∃ r : CInt, x.clip bits = some r ∧ r.ty = CType.intmax ∧
      r.toInt = (((x.data % 2 ^ n).toNat ^^^ 2 ^ (n - 1) : Nat) : Int) - 2 ^ (n - 1) ∧
      (x.data % 2 ^ n).toNat = (x.dataC.cast CType.uintmax).bits &&& (2 ^ n - 1) ∧
      (-(2 : Int) ^ (n - 1) ≤ r.toInt ∧ r.toInt ≤ 2 ^ (n - 1) - 1) ∧
      r.toInt % 2 ^ n = x.data % 2 ^ n ∧
      (∀ z : Int, -(2 : Int) ^ (n - 1) ≤ z → z ≤ 2 ^ (n - 1) - 1 →
        z % 2 ^ n = x.data % 2 ^ n → z = r.toInt) := by
  obtain ⟨e1, e2, e3, e4⟩ := clamp_locals hn hn1 hn64
  have hp : 2 ^ (n - 1) < 2 ^ 64 := Nat.pow_lt_pow_right (by decide) (by omega)
  have hpos : 0 < 2 ^ n := by positivity
  have hle : 2 ^ n ≤ 2 ^ 64 := two_pow_mono hn64
  have hm : CType.uintmax.fits (2 ^ n - 1) := CType.fits_uintmax (by omega)
  have hb : CType.uintmax.fits (2 ^ (n - 1)) := CType.fits_uintmax hp
  have c1 : (CInt.mk CType.uintmax (2 ^ (n - 1))).cast CType.uintmax = ⟨CType.uintmax, 2 ^ (n - 1)⟩ :=
    CInt.cast_mk_fits hb hb
  have c2 : (CInt.mk CType.uintmax (2 ^ n - 1)).cast CType.uintmax = ⟨CType.uintmax, 2 ^ n - 1⟩ :=
    CInt.cast_mk_fits hm hm
  have hq : (x.data % 2 ^ n).toNat < 2 ^ n := toNat_emod_lt _ _
  have hqx : (x.data % 2 ^ n).toNat ^^^ 2 ^ (n - 1) < 2 ^ n :=
    Nat.xor_lt_two_pow hq (Nat.pow_lt_pow_right (by decide) (by omega))
  have hdata := Integer.toInt_dataC h1 h64 x hlo hhi
  have hw := wrapSigned_spec hn1 x.data
  have hxw := xor_sub_eq_wrapSigned hn1 x.data
  have h63 : (2 : Int) ^ (n - 1) ≤ 2 ^ (64 - 1) := two_pow_pred_le hn1 hn64
  have hS2 : (2 : Int) ^ n = 2 ^ (n - 1) + 2 ^ (n - 1) := by
    have hB : n = n - 1 + 1 := by omega
    conv_lhs => rw [hB]
    rw [pow_succ]; ring
  have hres : x.clip bits = some (CType.intmax.ofInt
      ((((x.data % 2 ^ n).toNat ^^^ 2 ^ (n - 1) : Nat) : Int) - 2 ^ (n - 1))) := by
    unfold Integer.clip
    simp only [Option.bind_eq_bind, Option.pure_def, e1, Option.some_bind, e2, c1, e3, e4, c2]
    rw [CInt.band_mask x.dataC (show n ≤ CType.uintmax.width from hn64) hm, hdata]
    have hty : x.dataC.ty = Integer.type Bits := rfl
    have hc : CType.uintmax.common CType.uintmax = CType.uintmax := rfl
    have hqf : CType.uintmax.fits (x.data % 2 ^ n).toNat := CType.fits_uintmax (by omega)
    have hqxf : CType.uintmax.fits ((x.data % 2 ^ n).toNat ^^^ 2 ^ (n - 1)) :=
      CType.fits_uintmax (by omega)
    rw [hty, Integer.int_common_type_uintmax, CInt.bxor_mk hqf hb, hc, CInt.sub_mk hqxf hb,
      Option.some_bind, hc, CInt.cast_ofInt CType.uintmax _ CType.intmax (le_refl _)]
    push_cast
    rfl
  have htoInt : (CType.intmax.ofInt
      ((((x.data % 2 ^ n).toNat ^^^ 2 ^ (n - 1) : Nat) : Int) - 2 ^ (n - 1))).toInt =
      (((x.data % 2 ^ n).toNat ^^^ 2 ^ (n - 1) : Nat) : Int) - 2 ^ (n - 1) := by
    apply CInt.toInt_ofInt_of_holds (by decide)
    simp only [CType.holds, CType.intmax, ↓reduceIte, decide_eq_true_eq]
    rw [hxw]
    omega
  refine ⟨_, hres, rfl, htoInt, ?_, ?_, ?_, ?_⟩
  · rw [Nat.and_pow_two_sub_one_eq_mod, CInt.cast_eq_mk]
    simp only
    rw [toNat_emod_emod (show n ≤ CType.uintmax.width from hn64), hdata]
  · rw [htoInt, hxw]
    omega
  · rw [htoInt, hxw]
    exact hw.2.2
  · intro z hz1 hz2 hz
    rw [htoInt, hxw]
    exact eq_of_emod_eq_of_window (M := 2 ^ n) (l := -(2 : Int) ^ (n - 1))
      ⟨hz1, by omega⟩ ⟨hw.1, by omega⟩ (hz.trans hw.2.2.symm)

theorem C12_integer_clip_witness :
    (1 ≤ 16 ∧ 16 ≤ 64) ∧
      (-(2 : Int) ^ (16 - 1) ≤ (⟨200⟩ : Integer 16).data ∧
        (⟨200⟩ : Integer 16).data ≤ 2 ^ (16 - 1) - 1) ∧
      ((CType.uint.ofInt 8).toInt = (8 : Nat) ∧ 1 ≤ 8 ∧ 8 ≤ 64) ∧
      Integer.construct 16 (lit 200) = some ⟨200⟩ ∧
      ((⟨200⟩ : Integer 16).clip (CType.uint.ofInt 8)).map CInt.toInt = some (-56) ∧
      ((⟨-200⟩ : Integer 64).clip (CType.uint.ofInt 64)).map CInt.toInt = some (-200) ∧
      ∃ r : CInt, (⟨200⟩ : Integer 16).clip (CType.uint.ofInt 8) = some r ∧
        r.ty = CType.intmax :=
  ⟨⟨by decide, by decide⟩, ⟨by decide, by decide⟩, ⟨by decide, by decide, by decide⟩,
    by decide, by decide, by decide,
    (C12_integer_clip 16 (by decide) (by decide) ⟨200⟩ (by decide) (by decide)
      (CType.uint.ofInt 8) 8 (by decide) (by decide) (by decide)).imp
      fun _ hr => ⟨hr.1, hr.2.1⟩⟩

/-! ## C11: clamp of Integer -/

theorem CInt.cast_ofInt_of_holds {c : CType} {x : Int} (hw : 1 ≤ c.width)
    (h : c.holds x = true) (t : CType) : (c.ofInt x).cast t = t.ofInt x := by
  unfold CInt.cast
  rw [CInt.toInt_ofInt_of_holds hw h]

/-- The negation of a non-negative value. -/
theorem CInt.neg_mk {t : CType} {n : Nat} (h : t.fits n) :
    (CInt.mk t n).neg = some (t.promote.ofInt (-(n : Int))) := by
  have hp := CType.fits_promote h
  unfold CInt.neg
  simp only
  rw [CInt.cast_mk_fits h hp, CInt.toInt_mk hp]

theorem CType.holds_intmax {v : Int} (hlo : -(2 : Int) ^ 63 ≤ v) (hhi : v < 2 ^ 63) :
    CType.intmax.holds v = true := by
  simp only [CType.holds, CType.intmax, ↓reduceIte, decide_eq_true_eq]
  omega

/-- The locals of `clamp` of `Integer`, for a target width `1 ≤ bits ≤ 64`:
`b = 1ull << (bits - 1)` converted to `intmax`, then `m = b - 1` and `-b`. As values,
`m = 2^(bits-1) - 1` and `-b = -2^(bits-1)` at every width; at `bits = 64` the
conversion gives `b = -2^63`, and `b - 1` and `-b` wrap to `2^63 - 1` and `-2^63`. -/
theorem Integer.clamp_bounds {n : Nat} (hn1 : 1 ≤ n) (hn64 : n ≤ 64) :
    (((CInt.mk CType.uintmax (2 ^ (n - 1))).cast CType.intmax).sub (lit 1)).map
        (fun m => m.cast CType.intmax) =
      some (CType.intmax.ofInt ((2 : Int) ^ (n - 1) - 1)) ∧
    ((CInt.mk CType.uintmax (2 ^ (n - 1))).cast CType.intmax).neg =
      some (CType.intmax.ofInt (-(2 : Int) ^ (n - 1))) := by
  by_cases h63 : n ≤ 63
  · have hp : 2 ^ (n - 1) < 2 ^ 63 := Nat.pow_lt_pow_right (by decide) (by omega)
    have hpos : 0 < 2 ^ (n - 1) := by positivity
    have l1 : lit 1 = ⟨CType.int, 1⟩ := lit_eq (n := 1) (by decide)
    have fb : CType.intmax.fits (2 ^ (n - 1)) := by
      simpa [CType.fits, CType.intmax] using hp
    have fm : CType.intmax.fits (2 ^ (n - 1) - 1) := CType.fits_mono fb (Nat.sub_le _ _)
    have hci : CType.intmax.common CType.int = CType.intmax := rfl
    have hpi : CType.intmax.promote = CType.intmax := rfl
    have hM : ((2 ^ (n - 1) - 1 : Nat) : Int) = (2 : Int) ^ (n - 1) - 1 := by
      have : ((2 ^ (n - 1) - 1 : Nat) : Int) = ((2 ^ (n - 1) : Nat) : Int) - 1 := by omega
      rw [this]; push_cast; rfl
    rw [CInt.cast_mk (CType.fits_uintmax (lt_trans hp (by decide))) CType.intmax
        (lt_trans hp (by decide)),
      l1, CInt.sub_mk_of_le fb (CType.fits_int (by decide)) (by omega), hci, CInt.neg_mk fb, hpi]
    constructor
    · simp only [Option.map_some']
      rw [CInt.cast_mk_fits fm fm, ← hM, CType.ofInt_natCast _ (CType.fits_lt fm)]
    · push_cast
      rfl
  · have h : n = 64 := by omega
    subst h
    exact ⟨by decide, by decide⟩

/-- The value of `clamp` of `Integer`, for a target width `1 ≤ bits ≤ 64`. -/
theorem Integer.int_clamp_value {Bits : Nat} (h1 : 1 ≤ Bits) (h64 : Bits ≤ 64)
    (x : Integer Bits) (hlo : -(2 : Int) ^ (Bits - 1) ≤ x.data)
    (hhi : x.data ≤ 2 ^ (Bits - 1) - 1) {bits : CInt} {n : Nat} (hn : bits.toInt = n)
    (hn1 : 1 ≤ n) (hn64 : n ≤ 64) :
    x.clamp bits =
      some (CType.intmax.ofInt (max (-(2 : Int) ^ (n - 1)) (min x.data (2 ^ (n - 1) - 1)))) := by
  obtain ⟨e1, e2, -, -⟩ := clamp_locals hn hn1 hn64
  obtain ⟨hm, hneg⟩ := Integer.clamp_bounds hn1 hn64
  have hp : (2 : Int) ^ (n - 1) ≤ 2 ^ (64 - 1) := two_pow_pred_le hn1 hn64
  have hposI : (0 : Int) < 2 ^ (n - 1) := by positivity
  have hB63 : (2 : Int) ^ (Bits - 1) ≤ 2 ^ (64 - 1) := two_pow_pred_le h1 h64
  have hdh := Integer.holds_data h1 h64 hlo hhi
  have hdI : CType.intmax.holds x.data = true := CType.holds_intmax (by omega) (by omega)
  have hwT : 1 ≤ (Integer.type Bits).width := by
    rw [Integer.int_type_width]; exact storageWidth_pos Bits
  have hmh : CType.intmax.holds ((2 : Int) ^ (n - 1) - 1) = true :=
    CType.holds_intmax (by omega) (by omega)
  have hnh : CType.intmax.holds (-(2 : Int) ^ (n - 1)) = true :=
    CType.holds_intmax (by omega) (by omega)
  have hgt : x.dataC.gt (CType.intmax.ofInt ((2 : Int) ^ (n - 1) - 1)) =
      decide ((2 : Int) ^ (n - 1) - 1 < x.data) := by
    unfold CInt.gt Integer.dataC
    exact CInt.lt_ofInt (by decide) hwT hmh hdh
      (by rw [Integer.common_intmax_type]; exact hmh)
      (by rw [Integer.common_intmax_type]; exact hdI)
  have hlt : x.dataC.lt (CType.intmax.ofInt (-(2 : Int) ^ (n - 1))) =
      decide (x.data < -(2 : Int) ^ (n - 1)) := by
    unfold Integer.dataC
    exact CInt.lt_ofInt hwT (by decide) hdh hnh
      (by rw [Integer.common_type_intmax]; exact hdI)
      (by rw [Integer.common_type_intmax]; exact hnh)
  unfold Integer.clamp
  simp only [Option.bind_eq_bind, Option.pure_def, e1, Option.some_bind, e2]
  cases hs : ((CInt.mk CType.uintmax (2 ^ (n - 1))).cast CType.intmax).sub (lit 1) with
  | none => rw [hs] at hm; exact absurd hm (by simp)
  | some m0 =>
    rw [hs, Option.map_some'] at hm
    have hm0 : m0.cast CType.intmax = CType.intmax.ofInt ((2 : Int) ^ (n - 1) - 1) :=
      Option.some.inj hm
    simp only [Option.some_bind, hm0, hgt, hneg, hlt,
      CInt.cast_ofInt_of_holds (by decide : 1 ≤ CType.intmax.width) hmh,
      CInt.cast_ofInt_of_holds (by decide : 1 ≤ CType.intmax.width) hnh]
    unfold Integer.dataC
    rw [CInt.cast_ofInt_of_holds hwT hdh]
    simp only [decide_eq_true_eq]
    by_cases h1c : (2 : Int) ^ (n - 1) - 1 < x.data
    · rw [if_pos h1c]
      congr 2
      omega
    · rw [if_neg h1c]
      by_cases h2c : x.data < -(2 : Int) ^ (n - 1)
      · rw [if_pos h2c]
        congr 2
        omega
      · rw [if_neg h2c]
        congr 2
        omega

/-- C11: for every width `1 ≤ Bits ≤ 64`, every `Integer<Bits>` holding `s` and every
target width `1 ≤ bits ≤ 64` (in particular every `bits ≤ Bits`), `clamp(bits)` returns,
as an `intmax`, `s` clamped into `[-2^(bits-1), 2^(bits-1) - 1]`, that is
`max(-2^(bits-1), min(s, 2^(bits-1) - 1))`; at `bits = Bits = 64` the result is `s`.
`clamp` only reads the receiver (it has no write to `data`). -/
theorem C11_integer_clamp (Bits : Nat) (h1 : 1 ≤ Bits) (h64 : Bits ≤ 64) (x : Integer Bits)
    (hlo : -(2 : Int) ^ (Bits - 1) ≤ x.data) (hhi : x.data ≤ 2 ^ (Bits - 1) - 1)
    (bits : CInt) (n : Nat) (hn : bits.toInt = n) (hn1 : 1 ≤ n) (hn64 : n ≤ 64) :
    x.clamp bits =
      some (CType.intmax.ofInt (max (-(2 : Int) ^ (n - 1)) (min x.data (2 ^ (n - 1) - 1)))) ∧
    (CType.intmax.ofInt (max (-(2 : Int) ^ (n - 1)) (min x.data (2 ^ (n - 1) - 1)))).toInt =
      max (-(2 : Int) ^ (n - 1)) (min x.data (2 ^ (n - 1) - 1)) ∧
    (n = 64 → x.clamp bits = some (CType.intmax.ofInt x.data) ∧
      (CType.intmax.ofInt x.data).toInt = x.data) := by
  have hres := Integer.int_clamp_value h1 h64 x hlo hhi hn hn1 hn64
  have hp : (2 : Int) ^ (n - 1) ≤ 2 ^ (64 - 1) := two_pow_pred_le hn1 hn64
  have hposI : (0 : Int) < 2 ^ (n - 1) := by positivity
  have hB63 : (2 : Int) ^ (Bits - 1) ≤ 2 ^ (64 - 1) := two_pow_pred_le h1 h64
  have hdI : CType.intmax.holds x.data = true := CType.holds_intmax (by omega) (by omega)
  refine ⟨hres, ?_, ?_⟩
  · apply CInt.toInt_ofInt_of_holds (by decide)
    apply CType.holds_intmax <;> omega
  · intro h
    subst h
    have e : max (-(2 : Int) ^ (64 - 1)) (min x.data (2 ^ (64 - 1) - 1)) = x.data := by
      omega
    rw [hres, e]
    exact ⟨rfl, CInt.toInt_ofInt_of_holds (by decide) hdI⟩

theorem C11_integer_clamp_witness :
    (1 ≤ 64 ∧ 64 ≤ 64) ∧
      (-(2 : Int) ^ (64 - 1) ≤ (⟨-200⟩ : Integer 64).data ∧
        (⟨-200⟩ : Integer 64).data ≤ 2 ^ (64 - 1) - 1) ∧
      ((CType.uint.ofInt 64).toInt = (64 : Nat) ∧ 1 ≤ 64 ∧ 64 ≤ 64) ∧
      ((⟨-200⟩ : Integer 64).clamp (CType.uint.ofInt 64)).map CInt.toInt = some (-200) ∧
      ((⟨9223372036854775807⟩ : Integer 64).clamp (CType.uint.ofInt 64)).map CInt.toInt =
        some 9223372036854775807 ∧
      ((⟨-9223372036854775808⟩ : Integer 64).clamp (CType.uint.ofInt 64)).map CInt.toInt =
        some (-9223372036854775808) ∧
      ((⟨200⟩ : Integer 16).clamp (CType.uint.ofInt 8)).map CInt.toInt = some 127 ∧
      ((⟨-200⟩ : Integer 16).clamp (CType.uint.ofInt 8)).map CInt.toInt = some (-128) ∧
      ((⟨-200⟩ : Integer 16).clamp (CType.uint.ofInt 16)).map CInt.toInt = some (-200) ∧
      ((⟨-200⟩ : Integer 64).clamp (CType.uint.ofInt 63)).map CInt.toInt = some (-200) ∧
      (⟨-200⟩ : Integer 64).clamp (CType.uint.ofInt 64) =
        some (CType.intmax.ofInt
          (max (-(2 : Int) ^ (64 - 1)) (min (-200 : Int) (2 ^ (64 - 1) - 1)))) :=
  ⟨⟨by decide, by decide⟩, ⟨by decide, by decide⟩, ⟨by decide, by decide, by decide⟩,
    by decide, by decide, by decide, by decide, by decide, by decide, by decide,
    (C11_integer_clamp 64 (by decide) (by decide) ⟨-200⟩ (by decide) (by decide)
      (CType.uint.ofInt 64) 64 (by decide) (by decide) (by decide)).1⟩

/-! ## C16: the byte accessor of Natural -/

/-- The factory `byte(i)` builds the members `Lo = 8 * i`, `Hi = 8 * i + 7`. -/
theorem Natural.byte_eq {Bits : Nat} (x : Natural Bits) {index : CInt} {i : Nat}
    (hi : index.toInt = i) (hi8 : i < 8) :
    x.byte index =
      some ⟨x, ⟨Natural.type Bits, 8 * i⟩, ⟨Natural.type Bits, 8 * i + 7⟩⟩ := by
  have fi : CType.uint.fits i := CType.fits_uint (by omega)
  have l8 : lit 8 = ⟨CType.int, 8⟩ := lit_eq (n := 8) (by decide)
  have l0 : lit 0 = ⟨CType.int, 0⟩ := lit_eq (n := 0) (by decide)
  have l7 : lit 7 = ⟨CType.int, 7⟩ := lit_eq (n := 7) (by decide)
  have hc : CType.uint.common CType.int = CType.uint := rfl
  have hmul : (CInt.mk CType.uint i).mul (lit 8) = some ⟨CType.uint, 8 * i⟩ := by
    rw [l8, CInt.mul, CInt.arith_mk _ fi (CType.fits_int (by decide)), hc]
    congr 1
    have e : (i : Int) * ((8 : Nat) : Int) = ((8 * i : Nat) : Int) := by push_cast; ring
    rw [e]
    exact CType.ofInt_natCast _ (by simp [CType.uint]; omega)
  have f8 : CType.uint.fits (8 * i) := CType.fits_uint (by omega)
  have f87 : CType.uint.fits (8 * i + 7) := CType.fits_uint (by omega)
  unfold Natural.byte
  simp only [Option.bind_eq_bind, Option.pure_def]
  rw [CInt.cast_of_toInt_eq hi CType.uint (CType.fits_lt fi), hmul, Option.some_bind, l0, l7,
    CInt.add_mk f8 (CType.fits_int (by decide)) (by rw [hc]; exact f8), Option.some_bind,
    CInt.add_mk f8 (CType.fits_int (by decide)) (by rw [hc]; exact f87), Option.some_bind, hc]
  unfold Natural.Reference.construct
  simp only [Nat.add_zero]
  rw [CInt.cast_mk_fits f8 f8, CInt.cast_mk_fits f87 f87,
    CInt.cast_mk_fits f8 (CType.fits_small (by omega) (Natural.type_width_ge Bits)),
    CInt.cast_mk_fits f87 (CType.fits_small (by omega) (Natural.type_width_ge Bits))]

/-- C16: for every `Natural<Bits>` holding `x` (`1 ≤ Bits ≤ 64`) and every byte index `i`
with `Bits ≥ 8 * (i + 1)`, `byte(i)` is the view `bits(8 * i, 8 * i + 7)`, and reading it
is defined and returns `floor(x / 256^i) mod 256`. -/
theorem C16_natural_byte (Bits : Nat) (h1 : 1 ≤ Bits) (h64 : Bits ≤ 64) (x : Natural Bits)
    (hx : x.data ≤ 2 ^ Bits - 1) (index : CInt) (i : Nat) (hi : index.toInt = i)
    (hN : 8 * (i + 1) ≤ Bits) :
    x.byte index =
      some (x.bits (CType.uint.ofInt ((8 * i : Nat) : Int))
        (CType.uint.ofInt ((8 * i + 7 : Nat) : Int))) ∧
    ∃ r : Natural.Reference Bits, x.byte index = some r ∧
      r.get = some ⟨Natural.type Bits, x.data / 256 ^ i % 256⟩ := by
  have hb := Natural.byte_eq x hi (by omega)
  have f8 : (8 * i) < 2 ^ 32 := by omega
  have f87 : (8 * i + 7) < 2 ^ 32 := by omega
  have hlo : (CType.uint.ofInt ((8 * i : Nat) : Int)).toInt = ((8 * i : Nat) : Int) := by
    rw [CType.ofInt_natCast _ (by simpa [CType.uint] using f8)]
    exact CInt.toInt_mk (CType.fits_uint f8)
  have hhi : (CType.uint.ofInt ((8 * i + 7 : Nat) : Int)).toInt = ((8 * i + 7 : Nat) : Int) := by
    rw [CType.ofInt_natCast _ (by simpa [CType.uint] using f87)]
    exact CInt.toInt_mk (CType.fits_uint f87)
  have hbits := Natural.bits_eq x hlo hhi (by omega) (by omega)
  have hmin : min (8 * i) (8 * i + 7) = 8 * i := by omega
  have hmax : max (8 * i) (8 * i + 7) = 8 * i + 7 := by omega
  rw [hmin, hmax] at hbits
  refine ⟨by rw [hb, hbits], _, hb, ?_⟩
  rw [Natural.Reference.get_eq h64 x hx (by omega) (by omega) (by omega)]
  have e1 : 8 * i + 7 - 8 * i + 1 = 8 := by omega
  have e2 : (2 : Nat) ^ (8 * i) = 256 ^ i := by
    rw [pow_mul]
    norm_num
  have e3 : (2 : Nat) ^ 8 = 256 := by norm_num
  rw [e1, e2, e3]

theorem C16_natural_byte_witness :
    (1 ≤ 16 ∧ 16 ≤ 64) ∧ ((Natural.construct 16 (lit 4660)).data ≤ 2 ^ 16 - 1) ∧
      (((Natural.construct 16 (lit 4660)).byte (lit 0)).bind fun r => r.get) =
        some ⟨Natural.type 16, 52⟩ ∧
      (((Natural.construct 16 (lit 4660)).byte (lit 1)).bind fun r => r.get) =
        some ⟨Natural.type 16, 18⟩ ∧
      (Natural.construct 16 (lit 4660)).byte (lit 1) =
        some ((Natural.construct 16 (lit 4660)).bits (CType.uint.ofInt ((8 * 1 : Nat) : Int))
          (CType.uint.ofInt ((8 * 1 + 7 : Nat) : Int))) :=
  ⟨⟨by decide, by decide⟩, by decide, by decide, by decide,
    (C16_natural_byte 16 (by decide) (by decide) (Natural.construct 16 (lit 4660))
      (by decide) (lit 1) 1 (by decide) (by decide)).1⟩

/-! ## C18: division and modulo of Natural -/

/-- A non-negative result that does not exceed a value of the left operand is
representable in the common type. -/
theorem CType.holds_of_fits_le {t : CType} {d r : Nat} (hd : t.fits d) (hr : r ≤ d) :
    t.holds (r : Int) = true := by
  unfold CType.fits at hd
  unfold CType.holds
  have e : ((2 : Nat) ^ (t.width - 1) : Int) = (2 : Int) ^ (t.width - 1) := by push_cast; rfl
  have e2 : ((2 : Nat) ^ t.width : Int) = (2 : Int) ^ t.width := by push_cast; rfl
  cases hs : t.isSigned <;>
    simp only [hs, Bool.false_eq_true, ↓reduceIte, decide_eq_true_eq] at hd ⊢ <;> omega

/-- The quotient and the remainder of two non-negative values: there is no result
exactly for a zero divisor. -/
theorem CInt.div_mod_mk {ta tb : CType} {d v : Nat} (ha : ta.fits d) (hb : tb.fits v) :
    (CInt.mk ta d).div ⟨tb, v⟩ =
      (if v = 0 then none else some ((ta.common tb).ofInt ((d / v : Nat) : Int))) ∧
    (CInt.mk ta d).mod ⟨tb, v⟩ =
      (if v = 0 then none else some ((ta.common tb).ofInt ((d % v : Nat) : Int))) := by
  have hca := CType.fits_common_left tb ha
  have hcb := CType.fits_common_right ta hb
  have hz : ((CInt.mk tb v).cast (ta.common tb)).toInt = (v : Int) := by
    rw [CInt.cast_mk_fits hb hcb, CInt.toInt_mk hcb]
  have hy : ((CInt.mk ta d).cast (ta.common tb)).toInt = (d : Int) := by
    rw [CInt.cast_mk_fits ha hca, CInt.toInt_mk hca]
  have hdiv : (CInt.mk ta d).div ⟨tb, v⟩ =
      (if v = 0 then none else some ((ta.common tb).ofInt ((d / v : Nat) : Int))) := by
    unfold CInt.div
    simp only
    rw [hz, hy]
    by_cases hv : v = 0
    · rw [if_pos (by exact_mod_cast hv), if_pos hv]
    · rw [if_neg (by exact_mod_cast hv), if_neg hv, ← Int.ofNat_tdiv, if_neg,
        CInt.arith_mk _ ha hb, ← Int.ofNat_tdiv]
      rintro ⟨-, hh⟩
      exact hh (CType.holds_of_fits_le hca (Nat.div_le_self _ _))
  refine ⟨hdiv, ?_⟩
  unfold CInt.mod
  rw [hdiv]
  by_cases hv : v = 0
  · simp only [hv, ↓reduceIte]
  · simp only [hv, ↓reduceIte]
    rw [CInt.arith_mk _ ha hb, ← Int.ofNat_tmod]

/-- C18: division and modulo by zero are not masked into a result. For every
`Natural<Bits>` holding `x` and every operand `v` of the storage type, `x /= v` and
`x %= v` are undefined (no value is stored) if and only if `v = 0`; for `v ≠ 0`,
`x /= v` stores `floor(x / v)` and `x %= v` stores `x mod v`. -/
theorem C18_natural_div_mod (Bits : Nat) (h1 : 1 ≤ Bits) (h64 : Bits ≤ 64)
    (x : Natural Bits) (hx : x.data ≤ 2 ^ Bits - 1) (value : CInt) (v : Nat)
    (hv : value.toInt = v) (hvW : v < 2 ^ storageWidth Bits) :
    (x.divAssign value = none ↔ v = 0) ∧ (x.modAssign value = none ↔ v = 0) ∧
    (v ≠ 0 → x.divAssign value = some ⟨x.data / v⟩ ∧ x.modAssign value = some ⟨x.data % v⟩) := by
  have hw := Natural.le_common_width h64 (Natural.type Bits)
  have hd := Natural.fits_data h64 hx
  have hm := Natural.fits_type hvW
  have hcast := CInt.cast_of_toInt_eq hv (Natural.type Bits) hvW
  obtain ⟨hdv, hmd⟩ := CInt.div_mod_mk hd hm
  have hpos : 0 < 2 ^ Bits := by positivity
  have hdiv : x.divAssign value = if v = 0 then none else some ⟨x.data / v⟩ := by
    unfold Natural.divAssign
    simp only [Option.bind_eq_bind, Option.pure_def]
    rw [hcast, Natural.dataC_eq h64 hx, hdv]
    by_cases h0 : v = 0
    · simp only [h0, ↓reduceIte, Option.none_bind]
    · simp only [h0, ↓reduceIte, Option.some_bind]
      rw [Natural.set_ofInt h64 _ hw, natCast_emod_two_pow,
        Nat.mod_eq_of_lt (lt_of_le_of_lt (Nat.div_le_self _ _) (by omega))]
  have hmod : x.modAssign value = if v = 0 then none else some ⟨x.data % v⟩ := by
    unfold Natural.modAssign
    simp only [Option.bind_eq_bind, Option.pure_def]
    rw [hcast, Natural.dataC_eq h64 hx, hmd]
    by_cases h0 : v = 0
    · simp only [h0, ↓reduceIte, Option.none_bind]
    · simp only [h0, ↓reduceIte, Option.some_bind]
      rw [Natural.set_ofInt h64 _ hw, natCast_emod_two_pow,
        Nat.mod_eq_of_lt (lt_of_le_of_lt (Nat.mod_le _ _) (by omega))]
  refine ⟨?_, ?_, ?_⟩
  · rw [hdiv]
    by_cases h0 : v = 0 <;> simp [h0]
  · rw [hmod]
    by_cases h0 : v = 0 <;> simp [h0]
  · intro h0
    rw [hdiv, hmod]
    simp [h0]

theorem C18_natural_div_mod_witness :
    (1 ≤ 8 ∧ 8 ≤ 64) ∧ ((Natural.construct 8 (lit 200)).data ≤ 2 ^ 8 - 1) ∧
      (Natural.construct 8 (lit 200)).divAssign (lit 0) = none ∧
      (Natural.construct 8 (lit 200)).modAssign (lit 0) = none ∧
      (Natural.construct 8 (lit 200)).divAssign (lit 7) = some ⟨28⟩ ∧
      (Natural.construct 8 (lit 200)).modAssign (lit 7) = some ⟨4⟩ ∧
      ((Natural.construct 8 (lit 200)).divAssign (lit 0) = none ↔ 0 = 0) :=
  ⟨⟨by decide, by decide⟩, by decide, by decide, by decide, by decide, by decide,
    (C18_natural_div_mod 8 (by decide) (by decide) (Natural.construct 8 (lit 200))
      (by decide) (lit 0) 0 (by decide) (by decide)).1⟩

/-! ## C20: masking is idempotent -/

/-- C20: for every width `1 ≤ Bits ≤ 64` and every native value `v`, constructing a
`Natural<Bits>` from the value read out of `Natural<Bits>(v)` yields the same stored
value as `Natural<Bits>(v)`. -/
theorem C20_natural_mask_idempotent (Bits : Nat) (h1 : 1 ≤ Bits) (h64 : Bits ≤ 64)
    (v : CInt) :
    Natural.construct Bits (Natural.construct Bits v).dataC = Natural.construct Bits v ∧
    (Natural.construct Bits (Natural.construct Bits v).dataC).data =
      (Natural.construct Bits v).data := by
  have hle := Natural.set_le h64 v
  have hpos : 0 < 2 ^ Bits := by positivity
  have h : Natural.construct Bits (Natural.construct Bits v).dataC =
      Natural.construct Bits v := by
    apply Natural.ext_data
    unfold Natural.construct
    rw [Natural.set_data h64 (Natural.set Bits v).dataC, Natural.dataC_eq h64 hle,
      CInt.toInt_mk (Natural.fits_data h64 hle), natCast_emod_two_pow,
      Nat.mod_eq_of_lt (by omega)]
  exact ⟨h, by rw [h]⟩

theorem C20_natural_mask_idempotent_witness :
    (1 ≤ 8 ∧ 8 ≤ 64) ∧ (Natural.construct 8 (lit 300)).data = 44 ∧
      (Natural.construct 8 (Natural.construct 8 (lit 300)).dataC).data = 44 ∧
      Natural.construct 8 (Natural.construct 8 (lit 300)).dataC =
        Natural.construct 8 (lit 300) :=
  ⟨⟨by decide, by decide⟩, by decide, by decide,
    (C20_natural_mask_idempotent 8 (by decide) (by decide) (lit 300)).1⟩

/-! ## C17: two writes through views of the same Natural -/

/-- A view over all 64 bits of a `Natural<64>` can neither be read nor written: its
`RangeMask` is undefined. -/
theorem Natural.full_view_undefined (x : Natural 64) (w : CInt) :
    (x.bits (CType.uint.ofInt 0) (CType.uint.ofInt 63)).RangeMask = none ∧
    (x.bits (CType.uint.ofInt 0) (CType.uint.ofInt 63)).get = none ∧
    (x.bits (CType.uint.ofInt 0) (CType.uint.ofInt 63)).set w = none := by
  have h0 : (CType.uint.ofInt 0).toInt = (0 : Nat) := by decide
  have h63 : (CType.uint.ofInt 63).toInt = (63 : Nat) := by decide
  have hm := Natural.Reference.RangeMask_full x (l := 0) (h := 63) (by omega) (by omega) rfl
  have e1 : min 0 63 = 0 := rfl
  have e2 : max 0 63 = 63 := rfl
  rw [Natural.bits_eq x h0 h63 (by omega) (by omega), e1, e2]
  refine ⟨hm, ?_, ?_⟩
  · unfold Natural.Reference.get
    simp only [Option.bind_eq_bind]
    rw [hm, Option.none_bind]
  · unfold Natural.Reference.set
    simp only [Option.bind_eq_bind]
    rw [hm, Option.none_bind]

/-- Two writes in sequence through views of the same `Natural<Bits>`, both ranges
narrower than 64 bits (overlapping or not): both writes are defined; afterwards every
bit in the second range holds the corresponding bit of the second value, every bit in
the first range but outside the second holds the corresponding bit of the first
value, and every other bit is the original one. -/
theorem Natural.bits_set_twice_spec (Bits : Nat) (h1 : 1 ≤ Bits) (h64 : Bits ≤ 64)
    (x : Natural Bits) (hx : x.data ≤ 2 ^ Bits - 1) (lo1 hi1 lo2 hi2 : CInt)
    (a b c d : Nat) (ha : lo1.toInt = a) (hb : hi1.toInt = b) (hc : lo2.toInt = c)
    (hd : hi2.toInt = d) (hab : a ≤ b) (hbB : b < Bits) (hcd : c ≤ d) (hdB : d < Bits)
    (hw1 : b - a + 1 < 64) (hw2 : d - c + 1 < 64) (v1 v2 : CInt) :
    ∃ r1 r2 : Natural.Reference Bits,
      (x.bits lo1 hi1).assign v1 = some r1 ∧ (r1.source.bits lo2 hi2).assign v2 = some r2 ∧
      ∀ i, r2.source.data.testBit i =
        if c ≤ i ∧ i ≤ d then (v2.toInt % 2 ^ (d - c + 1)).toNat.testBit (i - c)
        else if a ≤ i ∧ i ≤ b then (v1.toInt % 2 ^ (b - a + 1)).toNat.testBit (i - a)
        else x.data.testBit i := by
  obtain ⟨r1, -, hr1, hle1, hout1, hin1, -, -⟩ :=
    Natural.bits_set_spec Bits h1 h64 x hx lo1 hi1 a b ha hb hab hbB hw1 v1
  obtain ⟨r2, -, hr2, -, hout2, hin2, -, -⟩ :=
    Natural.bits_set_spec Bits h1 h64 r1.source hle1 lo2 hi2 c d hc hd hcd hdB hw2 v2
  refine ⟨r1, r2, hr1, hr2, ?_⟩
  intro i
  by_cases h2 : c ≤ i ∧ i ≤ d
  · rw [if_pos h2, hin2 i h2.1 h2.2]
  · rw [if_neg h2, hout2 i h2]
    by_cases h1' : a ≤ i ∧ i ≤ b
    · rw [if_pos h1', hin1 i h1'.1 h1'.2]
    · rw [if_neg h1', hout1 i h1']

theorem Natural.bits_set_twice_spec_witness :
    (1 ≤ 8 ∧ 8 ≤ 64) ∧
      ((((Natural.construct 8 (lit 0)).bits (lit 0) (lit 5)).assign (lit 63)).bind fun r1 =>
        ((r1.source.bits (lit 4) (lit 7)).assign (lit 9)).map fun r2 => r2.source.data) =
        some 159 ∧
      ∃ r1 r2 : Natural.Reference 8,
        ((Natural.construct 8 (lit 0)).bits (lit 0) (lit 5)).assign (lit 63) = some r1 ∧
        (r1.source.bits (lit 4) (lit 7)).assign (lit 9) = some r2 :=
  ⟨⟨by decide, by decide⟩, by decide,
    (Natural.bits_set_twice_spec 8 (by decide) (by decide) (Natural.construct 8 (lit 0))
      (by decide) (lit 0) (lit 5) (lit 4) (lit 7) 0 5 4 7 (by decide) (by decide) (by decide)
      (by decide) (by decide) (by decide) (by decide) (by decide) (by decide) (by decide)
      (lit 63) (lit 9)).imp fun _ h => h.imp fun _ h2 => ⟨h2.1, h2.2.1⟩⟩

/-- C17 with a full-width range at 64 bits: for every `Natural<64>` and all values, a
sequence of two view writes in which either range is `[0, 63]` is undefined at that
write (its `RangeMask` shifts `1ull` by 64), so the bits do not compose as claimed. -/
theorem C17_natural_full_width_sequence_undefined (x : Natural 64) (v1 v2 : CInt) :
    (((x.bits (CType.uint.ofInt 0) (CType.uint.ofInt 63)).assign v1).bind fun r1 =>
      (r1.source.bits (CType.uint.ofInt 8) (CType.uint.ofInt 15)).assign v2) = none ∧
    (((x.bits (CType.uint.ofInt 8) (CType.uint.ofInt 15)).assign v1).bind fun r1 =>
      (r1.source.bits (CType.uint.ofInt 0) (CType.uint.ofInt 63)).assign v2) = none := by
  constructor
  · unfold Natural.Reference.assign
    rw [(Natural.full_view_undefined x _).2.2, Option.none_bind]
  · cases h : (x.bits (CType.uint.ofInt 8) (CType.uint.ofInt 15)).assign v1 with
    | none => rfl
    | some r1 =>
      rw [Option.some_bind]
      unfold Natural.Reference.assign
      exact (Natural.full_view_undefined r1.source _).2.2

/-! ## C19: compound operators on a view of Natural -/

/-- Writing a native result `s`, computed in a type `c` at least as wide as the range,
through a view narrower than 64 bits: the field then reads `s mod 2^(hi-lo+1)` and
the bits outside the range are unchanged. -/
theorem Natural.view_set_result {Bits : Nat} (h1 : 1 ≤ Bits) (h64 : Bits ≤ 64)
    (x : Natural Bits) (hx : x.data ≤ 2 ^ Bits - 1) {lo hi : CInt} {l h : Nat}
    (hl : lo.toInt = l) (hh : hi.toInt = h) (hlh : l ≤ h) (hB : h < Bits)
    (hw : h - l + 1 < 64) (c : CType) (hc : h - l + 1 ≤ c.width) (s : Int) :
    ∃ r2 : Natural.Reference Bits, (x.bits lo hi).set (c.ofInt s) = some r2 ∧
      r2.get = some ⟨Natural.type Bits, (s % 2 ^ (h - l + 1)).toNat⟩ ∧
      (∀ i, ¬ (l ≤ i ∧ i ≤ h) → r2.source.data.testBit i = x.data.testBit i) := by
  obtain ⟨r2, hr2, -, -, hout, -, hget, -⟩ :=
    Natural.bits_set_spec Bits h1 h64 x hx lo hi l h hl hh hlh hB hw (c.ofInt s)
  rw [CInt.toInt_ofInt_emod c s hc] at hget
  exact ⟨r2, hr2, hget, hout⟩

theorem emod_add_congr {k : Nat} {a b c : Int} (h : b % 2 ^ k = c % 2 ^ k) :
    (a + b) % 2 ^ k = (a + c) % 2 ^ k := by
  rw [Int.add_emod, h, ← Int.add_emod]

theorem emod_sub_congr {k : Nat} {a b c : Int} (h : b % 2 ^ k = c % 2 ^ k) :
    (a - b) % 2 ^ k = (a - c) % 2 ^ k := by
  rw [Int.sub_emod, h, ← Int.sub_emod]

/-- Compound operators on a view of a `Natural<Bits>` whose range `lo..hi` is narrower
than 64 bits, with `w = hi-lo+1` and `f` the field before the operation: `+= v` and
`-= v` are defined by `set(get() ± v)`, the field afterwards reads `(f + v) mod 2^w`
resp. `(f - v) mod 2^w`, pre-increment and pre-decrement are the cases `v = 1`, and in
each case every bit of the parent outside `lo..hi` is unchanged. -/
theorem Natural.view_compound_spec (Bits : Nat) (h1 : 1 ≤ Bits) (h64 : Bits ≤ 64)
    (x : Natural Bits) (hx : x.data ≤ 2 ^ Bits - 1) (lo hi : CInt) (l h : Nat)
    (hl : lo.toInt = l) (hh : hi.toInt = h) (hlh : l ≤ h) (hB : h < Bits)
    (hw : h - l + 1 < 64) (value : CInt) :
    (∃ r2 : Natural.Reference Bits, (x.bits lo hi).addAssign value = some r2 ∧
      r2.get = some ⟨Natural.type Bits,
        ((((x.data / 2 ^ l % 2 ^ (h - l + 1) : Nat) : Int) + value.toInt) %
          2 ^ (h - l + 1)).toNat⟩ ∧
      (∀ i, ¬ (l ≤ i ∧ i ≤ h) → r2.source.data.testBit i = x.data.testBit i)) ∧
    (∃ r2 : Natural.Reference Bits, (x.bits lo hi).subAssign value = some r2 ∧
      r2.get = some ⟨Natural.type Bits,
        ((((x.data / 2 ^ l % 2 ^ (h - l + 1) : Nat) : Int) - value.toInt) %
          2 ^ (h - l + 1)).toNat⟩ ∧
      (∀ i, ¬ (l ≤ i ∧ i ≤ h) → r2.source.data.testBit i = x.data.testBit i)) ∧
    (∃ r2 : Natural.Reference Bits, (x.bits lo hi).preInc = some r2 ∧
      r2.get = some ⟨Natural.type Bits,
        ((((x.data / 2 ^ l % 2 ^ (h - l + 1) : Nat) : Int) + 1) % 2 ^ (h - l + 1)).toNat⟩ ∧
      (∀ i, ¬ (l ≤ i ∧ i ≤ h) → r2.source.data.testBit i = x.data.testBit i)) ∧
    (∃ r2 : Natural.Reference Bits, (x.bits lo hi).preDec = some r2 ∧
      r2.get = some ⟨Natural.type Bits,
        ((((x.data / 2 ^ l % 2 ^ (h - l + 1) : Nat) : Int) - 1) % 2 ^ (h - l + 1)).toNat⟩ ∧
      (∀ i, ¬ (l ≤ i ∧ i ≤ h) → r2.source.data.testBit i = x.data.testBit i)) := by
  have hWl := le_storageWidth h64
  have hmin : min l h = l := by omega
  have hmax : max l h = h := by omega
  have hb := Natural.bits_eq x hl hh (by omega) (by omega)
  rw [hmin, hmax] at hb
  have hget : (x.bits lo hi).get =
      some ⟨Natural.type Bits, x.data / 2 ^ l % 2 ^ (h - l + 1)⟩ := by
    rw [hb, Natural.Reference.get_eq h64 x hx hlh hB hw]
  have hfW : x.data / 2 ^ l % 2 ^ (h - l + 1) < 2 ^ storageWidth Bits :=
    lt_of_lt_of_le (Nat.mod_lt _ (by positivity)) (two_pow_mono (by omega))
  have ff := Natural.fits_type hfW
  have hvW : (value.toInt % 2 ^ storageWidth Bits).toNat < 2 ^ storageWidth Bits :=
    toNat_emod_lt _ _
  have fv := Natural.fits_type hvW
  have hcast : value.cast (Natural.type Bits) =
      ⟨Natural.type Bits, (value.toInt % 2 ^ storageWidth Bits).toNat⟩ := CInt.cast_eq_mk _ _
  have hvmod : (((value.toInt % 2 ^ storageWidth Bits).toNat : Nat) : Int) % 2 ^ (h - l + 1) =
      value.toInt % 2 ^ (h - l + 1) := by
    rw [Int.toNat_of_nonneg (Int.emod_nonneg _ (by positivity)),
      Int.emod_emod_of_dvd _ (pow_dvd_pow 2 (by omega : h - l + 1 ≤ storageWidth Bits))]
  have l1 : lit 1 = ⟨CType.int, 1⟩ := lit_eq (n := 1) (by decide)
  have hcw : ∀ tb : CType, h - l + 1 ≤ ((Natural.type Bits).common tb).width := fun tb =>
    le_trans (by omega) (Natural.le_common_width h64 tb)
  have hnot : Natural.type Bits = CType.int → (value.toInt % 2 ^ storageWidth Bits).toNat < 2 ^ 16 :=
    fun ht => by
      have e : (Natural.type Bits).isSigned = false := rfl
      rw [ht] at e
      exact absurd e (by decide)
  refine ⟨?_, ?_, ?_, ?_⟩
  · obtain ⟨r2, hr2, hg2, hout⟩ := Natural.view_set_result h1 h64 x hx hl hh hlh hB hw _
      (hcw (Natural.type Bits))
      (((x.data / 2 ^ l % 2 ^ (h - l + 1) : Nat) : Int) +
        ((value.toInt % 2 ^ storageWidth Bits).toNat : Nat))
    refine ⟨r2, ?_, ?_, hout⟩
    · unfold Natural.Reference.addAssign
      simp only [Option.bind_eq_bind]
      rw [hget, Option.some_bind, hcast,
        Natural.add_defined h64 ff fv (Or.inr rfl) hnot, Option.some_bind, hr2]
    · rw [hg2, emod_add_congr hvmod]
  · obtain ⟨r2, hr2, hg2, hout⟩ := Natural.view_set_result h1 h64 x hx hl hh hlh hB hw _
      (hcw (Natural.type Bits))
      (((x.data / 2 ^ l % 2 ^ (h - l + 1) : Nat) : Int) -
        ((value.toInt % 2 ^ storageWidth Bits).toNat : Nat))
    refine ⟨r2, ?_, ?_, hout⟩
    · unfold Natural.Reference.subAssign
      simp only [Option.bind_eq_bind]
      rw [hget, Option.some_bind, hcast, Natural.sub_defined ff fv, Option.some_bind, hr2]
    · rw [hg2, emod_sub_congr hvmod]
  · obtain ⟨r2, hr2, hg2, hout⟩ := Natural.view_set_result h1 h64 x hx hl hh hlh hB hw _
      (hcw CType.int) (((x.data / 2 ^ l % 2 ^ (h - l + 1) : Nat) : Int) + ((1 : Nat) : Int))
    refine ⟨r2, ?_, ?_, hout⟩
    · unfold Natural.Reference.preInc
      simp only [Option.bind_eq_bind]
      rw [hget, Option.some_bind, l1,
        Natural.add_defined h64 ff (CType.fits_int (by decide)) (Or.inl rfl)
          (fun _ => by decide),
        Option.some_bind, hr2]
    · rw [hg2]; rfl
  · obtain ⟨r2, hr2, hg2, hout⟩ := Natural.view_set_result h1 h64 x hx hl hh hlh hB hw _
      (hcw CType.int) (((x.data / 2 ^ l % 2 ^ (h - l + 1) : Nat) : Int) - ((1 : Nat) : Int))
    refine ⟨r2, ?_, ?_, hout⟩
    · unfold Natural.Reference.preDec
      simp only [Option.bind_eq_bind]
      rw [hget, Option.some_bind, l1,
        Natural.sub_defined ff (CType.fits_int (by decide)), Option.some_bind, hr2]
    · rw [hg2]; rfl

/-- A small instance of the compound view operators: on `Natural<8>` holding `0xA7`,
the three-bit field at bits 4..6 holds 2; adding 7 makes it read 1 and subtracting 3
makes it read 7, without touching bit 7 or bits 0..3. -/
theorem Natural.view_compound_spec_witness :
    (∃ r2 : Natural.Reference 8,
      ((Natural.mk 167 : Natural 8).bits (lit 4) (lit 6)).addAssign (lit 7) = some r2 ∧
      r2.get = some ⟨Natural.type 8,
        ((((167 / 2 ^ 4 % 2 ^ (6 - 4 + 1) : Nat) : Int) + (lit 7).toInt) %
          2 ^ (6 - 4 + 1)).toNat⟩ ∧
      (∀ i, ¬ (4 ≤ i ∧ i ≤ 6) → r2.source.data.testBit i = (167 : Nat).testBit i)) ∧
    (((Natural.mk 167 : Natural 8).bits (lit 4) (lit 6)).addAssign (lit 7)).map
      (fun r => r.source.data) = some 151 ∧
    (((Natural.mk 167 : Natural 8).bits (lit 4) (lit 6)).subAssign (lit 3)).map
      (fun r => r.source.data) = some 247 :=
  ⟨(Natural.view_compound_spec 8 (by decide) (by decide) ⟨167⟩ (by decide) (lit 4) (lit 6)
      4 6 (by decide) (by decide) (by decide) (by decide) (by decide) (lit 7)).1,
    by decide, by decide⟩

/-- Claim C19, at the full-width view of a 64-bit value. The compound operators on a
view are `set(get() op v)`, and for `Natural<64>` the view `bits(0,63)` has
`RangeBits = 64`, so that `get()` evaluates `1ull << 64`, which is undefined: `+=`,
`-=`, pre-increment and pre-decrement on that view have no defined result, for every
stored value and every operand, where the claim says the field reads
`(old ± v) mod 2^64`. -/
theorem C19_natural_full_width_view_compound_undefined (x : Natural 64) (v : CInt) :
    (x.bits (CType.uint.ofInt 0) (CType.uint.ofInt 63)).addAssign v = none ∧
    (x.bits (CType.uint.ofInt 0) (CType.uint.ofInt 63)).subAssign v = none ∧
    (x.bits (CType.uint.ofInt 0) (CType.uint.ofInt 63)).preInc = none ∧
    (x.bits (CType.uint.ofInt 0) (CType.uint.ofInt 63)).preDec = none := by
  have hg := (Natural.full_view_undefined x v).2.1
  refine ⟨?_, ?_, ?_, ?_⟩
  · unfold Natural.Reference.addAssign
    simp only [Option.bind_eq_bind]
    rw [hg, Option.none_bind]
  · unfold Natural.Reference.subAssign
    simp only [Option.bind_eq_bind]
    rw [hg, Option.none_bind]
  · unfold Natural.Reference.preInc
    simp only [Option.bind_eq_bind]
    rw [hg, Option.none_bind]
  · unfold Natural.Reference.preDec
    simp only [Option.bind_eq_bind]
    rw [hg, Option.none_bind]

/-! ## C21: clamp and clip on values that already fit the target width -/

/-- The value of `clamp` of `Natural`, for a target width `1 ≤ bits ≤ 64`. -/
theorem Natural.clamp_value {Bits : Nat} (h64 : Bits ≤ 64) (x : Natural Bits)
    (hx : x.data ≤ 2 ^ Bits - 1) {bits : CInt} {n : Nat} (hn : bits.toInt = n)
    (hn1 : 1 ≤ n) (hn64 : n ≤ 64) :
    x.clamp bits = some ⟨CType.uintmax, min x.data (2 ^ n - 1)⟩ := by
  obtain ⟨e1, e2, e3, e4⟩ := clamp_locals hn hn1 hn64
  have hp : 2 ^ (n - 1) < 2 ^ 64 := Nat.pow_lt_pow_right (by decide) (by omega)
  have hpos : 0 < 2 ^ n := by positivity
  have hle : 2 ^ n ≤ 2 ^ 64 := two_pow_mono hn64
  have hm : CType.uintmax.fits (2 ^ n - 1) := CType.fits_uintmax (by omega)
  have hd := Natural.fits_data h64 hx
  have hdlt : x.data < 2 ^ 64 := by
    have := two_pow_mono h64
    have : 0 < 2 ^ Bits := by positivity
    omega
  have c1 : (CInt.mk CType.uintmax (2 ^ (n - 1))).cast CType.uintmax = ⟨CType.uintmax, 2 ^ (n - 1)⟩ :=
    CInt.cast_mk_fits (CType.fits_uintmax hp) (CType.fits_uintmax hp)
  have c2 : (CInt.mk CType.uintmax (2 ^ n - 1)).cast CType.uintmax = ⟨CType.uintmax, 2 ^ n - 1⟩ :=
    CInt.cast_mk_fits hm hm
  unfold Natural.clamp
  simp only [Option.bind_eq_bind, Option.pure_def, e1, Option.some_bind, e2, c1, e3, e4, c2]
  rw [Natural.dataC_eq h64 hx, CInt.lt_mk hd hm, CInt.cond_mk _ hd hm,
    Natural.common_type_uintmax]
  have hr : (if decide (x.data < 2 ^ n - 1) = true then x.data else 2 ^ n - 1) =
      min x.data (2 ^ n - 1) := by
    simp only [decide_eq_true_eq]
    split <;> omega
  rw [hr, CInt.cast_mk_fits (CType.fits_uintmax (by omega)) (CType.fits_uintmax (by omega))]

/-- The value of `clip` of `Natural`, for a target width `1 ≤ bits ≤ 64`. -/
theorem Natural.clip_value {Bits : Nat} (h64 : Bits ≤ 64) (x : Natural Bits)
    (hx : x.data ≤ 2 ^ Bits - 1) {bits : CInt} {n : Nat} (hn : bits.toInt = n)
    (hn1 : 1 ≤ n) (hn64 : n ≤ 64) :
    x.clip bits = some ⟨CType.uintmax, x.data % 2 ^ n⟩ := by
  obtain ⟨e1, e2, e3, e4⟩ := clamp_locals hn hn1 hn64
  have hp : 2 ^ (n - 1) < 2 ^ 64 := Nat.pow_lt_pow_right (by decide) (by omega)
  have hpos : 0 < 2 ^ n := by positivity
  have hle : 2 ^ n ≤ 2 ^ 64 := two_pow_mono hn64
  have hm : CType.uintmax.fits (2 ^ n - 1) := CType.fits_uintmax (by omega)
  have hd := Natural.fits_data h64 hx
  have hand : x.data &&& (2 ^ n - 1) < 2 ^ 64 :=
    lt_of_le_of_lt Nat.and_le_right (by omega)
  have c1 : (CInt.mk CType.uintmax (2 ^ (n - 1))).cast CType.uintmax = ⟨CType.uintmax, 2 ^ (n - 1)⟩ :=
    CInt.cast_mk_fits (CType.fits_uintmax hp) (CType.fits_uintmax hp)
  have c2 : (CInt.mk CType.uintmax (2 ^ n - 1)).cast CType.uintmax = ⟨CType.uintmax, 2 ^ n - 1⟩ :=
    CInt.cast_mk_fits hm hm
  unfold Natural.clip
  simp only [Option.bind_eq_bind, Option.pure_def, e1, Option.some_bind, e2, c1, e3, e4, c2]
  rw [Natural.dataC_eq h64 hx, CInt.band_mk hd hm, Natural.common_type_uintmax,
    CInt.cast_mk_fits (CType.fits_uintmax hand) (CType.fits_uintmax hand),
    Nat.and_pow_two_sub_one_eq_mod]

/-- The value of `clip` of `Integer`, for a target width `1 ≤ bits ≤ 64`: the
two's-complement wrap of the stored value to `bits` bits, as an `intmax`. -/
theorem Integer.int_clip_value {Bits : Nat} (h1 : 1 ≤ Bits) (h64 : Bits ≤ 64)
    (x : Integer Bits) (hlo : -(2 : Int) ^ (Bits - 1) ≤ x.data)
    (hhi : x.data ≤ 2 ^ (Bits - 1) - 1) {bits : CInt} {n : Nat} (hn : bits.toInt = n)
    (hn1 : 1 ≤ n) (hn64 : n ≤ 64) :
    x.clip bits = some (CType.intmax.ofInt (wrapSigned n x.data)) := by
  obtain ⟨e1, e2, e3, e4⟩ := clamp_locals hn hn1 hn64
  have hp : 2 ^ (n - 1) < 2 ^ 64 := Nat.pow_lt_pow_right (by decide) (by omega)
  have hpos : 0 < 2 ^ n := by positivity
  have hle : 2 ^ n ≤ 2 ^ 64 := two_pow_mono hn64
  have hm : CType.uintmax.fits (2 ^ n - 1) := CType.fits_uintmax (by omega)
  have hb : CType.uintmax.fits (2 ^ (n - 1)) := CType.fits_uintmax hp
  have c1 : (CInt.mk CType.uintmax (2 ^ (n - 1))).cast CType.uintmax = ⟨CType.uintmax, 2 ^ (n - 1)⟩ :=
    CInt.cast_mk_fits hb hb
  have c2 : (CInt.mk CType.uintmax (2 ^ n - 1)).cast CType.uintmax = ⟨CType.uintmax, 2 ^ n - 1⟩ :=
    CInt.cast_mk_fits hm hm
  have hq : (x.data % 2 ^ n).toNat < 2 ^ n := toNat_emod_lt _ _
  have hqx : (x.data % 2 ^ n).toNat ^^^ 2 ^ (n - 1) < 2 ^ n :=
    Nat.xor_lt_two_pow hq (Nat.pow_lt_pow_right (by decide) (by omega))
  have hdata := Integer.toInt_dataC h1 h64 x hlo hhi
  rw [← xor_sub_eq_wrapSigned hn1 x.data]
  unfold Integer.clip
  simp only [Option.bind_eq_bind, Option.pure_def, e1, Option.some_bind, e2, c1, e3, e4, c2]
  rw [CInt.band_mask x.dataC (show n ≤ CType.uintmax.width from hn64) hm, hdata]
  have hty : x.dataC.ty = Integer.type Bits := rfl
  have hc : CType.uintmax.common CType.uintmax = CType.uintmax := rfl
  have hqf : CType.uintmax.fits (x.data % 2 ^ n).toNat := CType.fits_uintmax (by omega)
  have hqxf : CType.uintmax.fits ((x.data % 2 ^ n).toNat ^^^ 2 ^ (n - 1)) :=
    CType.fits_uintmax (by omega)
  rw [hty, Integer.int_common_type_uintmax, CInt.bxor_mk hqf hb, hc, CInt.sub_mk hqxf hb,
    Option.some_bind, hc, CInt.cast_ofInt CType.uintmax _ CType.intmax (le_refl _)]
  push_cast
  rfl

/-- C21: clamp and clip agree, and are the identity, whenever the stored value already
fits the target width. For every `Natural<Bits>` holding `s` and `1 ≤ bits ≤ 64` with
`s ≤ 2^bits - 1`, `clamp(bits)` and `clip(bits)` both return `s` (as a `uintmax`); for
every `Integer<Bits>` holding `s` and `1 ≤ bits ≤ 64` (in particular `bits ≤ Bits`) with
`-2^(bits-1) ≤ s ≤ 2^(bits-1) - 1`, `clamp(bits)` and `clip(bits)` both return `s` (as an
`intmax`). -/
theorem C21_clamp_clip_agree (Bits : Nat) (h1 : 1 ≤ Bits) (h64 : Bits ≤ 64)
    (x : Natural Bits) (hx : x.data ≤ 2 ^ Bits - 1)
    (y : Integer Bits) (hlo : -(2 : Int) ^ (Bits - 1) ≤ y.data)
    (hhi : y.data ≤ 2 ^ (Bits - 1) - 1)
    (bits : CInt) (n : Nat) (hn : bits.toInt = n) (hn1 : 1 ≤ n) (hn64 : n ≤ 64) :
    (x.data ≤ 2 ^ n - 1 →
      x.clamp bits = some ⟨CType.uintmax, x.data⟩ ∧
      x.clip bits = some ⟨CType.uintmax, x.data⟩ ∧
      x.clamp bits = x.clip bits ∧
      (CInt.mk CType.uintmax x.data).toInt = x.data) ∧
    (-(2 : Int) ^ (n - 1) ≤ y.data → y.data ≤ 2 ^ (n - 1) - 1 →
      y.clamp bits = some (CType.intmax.ofInt y.data) ∧
      y.clip bits = some (CType.intmax.ofInt y.data) ∧
      y.clamp bits = y.clip bits ∧
      (CType.intmax.ofInt y.data).toInt = y.data) := by
  constructor
  · intro hs
    have hpos : 0 < 2 ^ n := by positivity
    have hle : 2 ^ n ≤ 2 ^ 64 := two_pow_mono hn64
    have hc : x.clamp bits = some ⟨CType.uintmax, x.data⟩ := by
      rw [Natural.clamp_value h64 x hx hn hn1 hn64, min_eq_left hs]
    have hp : x.clip bits = some ⟨CType.uintmax, x.data⟩ := by
      rw [Natural.clip_value h64 x hx hn hn1 hn64, Nat.mod_eq_of_lt (by omega)]
    exact ⟨hc, hp, hc.trans hp.symm, CInt.toInt_mk (CType.fits_uintmax (by omega))⟩
  · intro hslo hshi
    have hB63 : (2 : Int) ^ (Bits - 1) ≤ 2 ^ (64 - 1) := two_pow_pred_le h1 h64
    have hc : y.clamp bits = some (CType.intmax.ofInt y.data) := by
      rw [Integer.int_clamp_value h1 h64 y hlo hhi hn hn1 hn64, min_eq_left hshi,
        max_eq_right hslo]
    have hp : y.clip bits = some (CType.intmax.ofInt y.data) := by
      rw [Integer.int_clip_value h1 h64 y hlo hhi hn hn1 hn64,
        wrapSigned_of_range hn1 hslo (by omega)]
    exact ⟨hc, hp, hc.trans hp.symm,
      CInt.toInt_ofInt_of_holds (by decide) (CType.holds_intmax (by omega) (by omega))⟩

theorem C21_clamp_clip_agree_witness :
    (1 ≤ 64 ∧ 64 ≤ 64) ∧
      ((Natural.construct 64 (litull 18446744073709551615)).data ≤ 2 ^ 64 - 1) ∧
      (-(2 : Int) ^ (64 - 1) ≤ (⟨-200⟩ : Integer 64).data ∧
        (⟨-200⟩ : Integer 64).data ≤ 2 ^ (64 - 1) - 1) ∧
      ((CType.uint.ofInt 64).toInt = (64 : Nat) ∧ 1 ≤ 64 ∧ 64 ≤ 64) ∧
      (Natural.construct 64 (litull 18446744073709551615)).clamp (CType.uint.ofInt 64) =
        some ⟨CType.uintmax, 18446744073709551615⟩ ∧
      (Natural.construct 64 (litull 18446744073709551615)).clip (CType.uint.ofInt 64) =
        some ⟨CType.uintmax, 18446744073709551615⟩ ∧
      (Natural.construct 16 (lit 200)).clamp (CType.uint.ofInt 8) = some ⟨CType.uintmax, 200⟩ ∧
      (Natural.construct 16 (lit 200)).clip (CType.uint.ofInt 8) = some ⟨CType.uintmax, 200⟩ ∧
      ((⟨-200⟩ : Integer 64).clamp (CType.uint.ofInt 64)).map CInt.toInt = some (-200) ∧
      ((⟨-200⟩ : Integer 64).clip (CType.uint.ofInt 64)).map CInt.toInt = some (-200) ∧
      ((⟨-100⟩ : Integer 16).clamp (CType.uint.ofInt 8)).map CInt.toInt = some (-100) ∧
      ((⟨-100⟩ : Integer 16).clip (CType.uint.ofInt 8)).map CInt.toInt = some (-100) ∧
      (Natural.construct 64 (litull 18446744073709551615)).clamp (CType.uint.ofInt 64) =
        (Natural.construct 64 (litull 18446744073709551615)).clip (CType.uint.ofInt 64) ∧
      (⟨-200⟩ : Integer 64).clamp (CType.uint.ofInt 64) =
        (⟨-200⟩ : Integer 64).clip (CType.uint.ofInt 64) :=
  ⟨⟨by decide, by decide⟩, by decide, ⟨by decide, by decide⟩,
    ⟨by decide, by decide, by decide⟩, by decide, by decide, by decide, by decide,
    by decide, by decide, by decide, by decide,
    ((C21_clamp_clip_agree 64 (by decide) (by decide)
      (Natural.construct 64 (litull 18446744073709551615)) (by decide) ⟨-200⟩ (by decide)
      (by decide) (CType.uint.ofInt 64) 64 (by decide) (by decide) (by decide)).1
      (by decide)).2.2.1,
    ((C21_clamp_clip_agree 64 (by decide) (by decide)
      (Natural.construct 64 (litull 18446744073709551615)) (by decide) ⟨-200⟩ (by decide)
      (by decide) (CType.uint.ofInt 64) 64 (by decide) (by decide) (by decide)).2
      (by decide) (by decide)).2.2.1⟩

/-! ## C5: the state invariant of Integer -/

/-- Whatever one mutator does in a run, it leaves the object in range. -/
theorem Integer.stepAny_inv {Bits : Nat} (h1 : 1 ≤ Bits) (h64 : Bits ≤ 64) {x y : Integer Bits}
    {o : Op} {u : CInt} (h : x.stepAny o u = some y) :
    -(2 : Int) ^ (Bits - 1) ≤ y.data ∧ y.data ≤ 2 ^ (Bits - 1) - 1 := by
  unfold Integer.stepAny at h
  split at h
  · exact absurd h (by simp)
  · split at h
    · next z hz =>
      rw [Option.some.injEq] at h
      subst h
      exact Integer.int_step_inv h1 h64 hz
    · exact Integer.set_range h1 h64 h

/-- A mutator leaves no object exactly when its division traps. -/
theorem Integer.stepAny_eq_none {Bits : Nat} (h1 : 1 ≤ Bits) (h64 : Bits ≤ 64)
    (x : Integer Bits) (o : Op) (u : CInt) :
    x.stepAny o u = none ↔ x.traps o = true := by
  unfold Integer.stepAny
  constructor
  · intro h
    by_contra ht
    rw [if_neg ht] at h
    split at h
    · exact absurd h (by simp)
    · obtain ⟨y, hy, -⟩ := Integer.set_total h1 h64 u
      rw [hy] at h
      exact absurd h (by simp)
  · intro ht
    rw [if_pos ht]

/-- Where the operators of a mutator have a result, no division traps. -/
theorem Integer.traps_of_step {Bits : Nat} {x y : Integer Bits} {o : Op}
    (h : x.step o = some y) : x.traps o = false := by
  cases o with
  | divAssign v =>
    simp only [Integer.step, Integer.divAssign, Option.bind_eq_bind, Option.bind_eq_some] at h
    obtain ⟨r, hr, -⟩ := h
    simp only [Integer.traps, hr, Option.isNone_some]
  | modAssign v =>
    simp only [Integer.step, Integer.modAssign, Option.bind_eq_bind, Option.bind_eq_some] at h
    obtain ⟨r, hr, -⟩ := h
    simp only [Integer.traps, hr, Option.isNone_some]
  | view w vo =>
    cases vo with
    | divAssign v =>
      simp only [Integer.step, Integer.Reference.apply, Integer.Reference.divAssign,
        Option.bind_eq_bind, Option.pure_def, Option.bind_eq_some, Option.some.injEq] at h
      obtain ⟨r, -, r2, ⟨g, -, q, hq, -⟩, -⟩ := h
      simp only [Integer.traps, decide_eq_false_iff_not]
      intro hz
      rw [(CInt.div_mod_zero g hz).1] at hq
      exact absurd hq (by simp)
    | modAssign v =>
      simp only [Integer.step, Integer.Reference.apply, Integer.Reference.modAssign,
        Option.bind_eq_bind, Option.pure_def, Option.bind_eq_some, Option.some.injEq] at h
      obtain ⟨r, -, r2, ⟨g, -, q, hq, -⟩, -⟩ := h
      simp only [Integer.traps, decide_eq_false_iff_not]
      intro hz
      rw [(CInt.div_mod_zero g hz).2] at hq
      exact absurd hq (by simp)
    | _ => rfl
  | _ => rfl

/-- Where the operators of a mutator have a result, that result is what every run
leaves. -/
theorem Integer.stepAny_of_step {Bits : Nat} {x y : Integer Bits} {o : Op}
    (h : x.step o = some y) (u : CInt) : x.stepAny o u = some y := by
  unfold Integer.stepAny
  rw [Integer.traps_of_step h, h]
  rfl

/-- The invariant along a sequence of mutators, in every run. -/
theorem Integer.runAny_inv {Bits : Nat} (h1 : 1 ≤ Bits) (h64 : Bits ≤ 64)
    (ops : List (Op × CInt)) :
    ∀ x : Integer Bits,
      (-(2 : Int) ^ (Bits - 1) ≤ x.data ∧ x.data ≤ 2 ^ (Bits - 1) - 1) →
      -(2 : Int) ^ (Bits - 1) ≤ (x.runAny ops).data ∧
        (x.runAny ops).data ≤ 2 ^ (Bits - 1) - 1 := by
  induction ops with
  | nil => intro x hx; exact hx
  | cons p os ih =>
    intro x hx
    obtain ⟨o, u⟩ := p
    unfold Integer.runAny
    split
    · next y hy => exact ih y (Integer.stepAny_inv h1 h64 hy)
    · exact hx

/-- A sequence of mutators whose operators all have a result leaves the same object in
every run. -/
theorem Integer.runAny_of_run {Bits : Nat} (os : List Op) (u : CInt) :
    ∀ {x y : Integer Bits}, x.run os = some y → x.runAny (os.map fun o => (o, u)) = y := by
  induction os with
  | nil =>
    intro x y h
    simp only [Integer.run, Option.some.injEq] at h
    rw [← h]
    rfl
  | cons o os ih =>
    intro x y h
    simp only [Integer.run, Option.bind_eq_some] at h
    obtain ⟨z, hz, h⟩ := h
    simp only [List.map_cons, Integer.runAny, Integer.stepAny_of_step hz u]
    exact ih h

/-- Through a view of an `Integer<Bits>` whose range `lo..hi` lies inside the value and
is narrower than 64 bits, every write built from assignment, `+`, `-`, `*`, `&`, `|`,
`^` has a result. -/
theorem Integer.step_view_arith {Bits : Nat} (h1 : 1 ≤ Bits) (h64 : Bits ≤ 64)
    (x : Integer Bits) {lo hi : CInt} {l h : Nat} (hl : lo.toInt = l) (hh : hi.toInt = h)
    (hlh : l ≤ h) (hB : h < Bits) (hw : h - l + 1 < 64) (vo : ViewOp)
    (hvo : vo.isArith = true) :
    ∃ y : Integer Bits, x.step (.view (.bits lo hi) vo) = some y := by
  have hget := (Integer.bits_spec Bits h1 h64 x lo hi l h hl hh hlh hB hw (lit 0)).1
  have hset : ∀ v : CInt, ∃ r2 : Integer.Reference Bits, (x.bits lo hi).set v = some r2 :=
    fun v => (Integer.bits_spec Bits h1 h64 x lo hi l h hl hh hlh hB hw v).2.imp
      fun _ hr => hr.1
  have hstep : ∀ r2 : Integer.Reference Bits, (x.bits lo hi).apply vo = some r2 →
      ∃ y : Integer Bits, x.step (.view (.bits lo hi) vo) = some y := by
    intro r2 hr2
    refine ⟨r2.source, ?_⟩
    simp only [Integer.step, Integer.view, Option.bind_eq_bind, Option.some_bind, hr2,
      Option.pure_def]
  cases vo with
  | set v =>
    obtain ⟨r2, hr2⟩ := hset v
    exact hstep r2 hr2
  | assign v =>
    obtain ⟨r2, hr2⟩ := hset (v.cast (Integer.utype Bits))
    exact hstep r2 hr2
  | andAssign v =>
    obtain ⟨r2, hr2⟩ := hset ((CInt.mk (Integer.utype Bits)
      ((x.data % 2 ^ Bits).toNat / 2 ^ l % 2 ^ (h - l + 1))).band (v.cast (Integer.utype Bits)))
    exact hstep r2 (by
      simp only [Integer.Reference.apply, Integer.Reference.andAssign, Option.bind_eq_bind,
        hget, Option.some_bind, hr2])
  | orAssign v =>
    obtain ⟨r2, hr2⟩ := hset ((CInt.mk (Integer.utype Bits)
      ((x.data % 2 ^ Bits).toNat / 2 ^ l % 2 ^ (h - l + 1))).bor (v.cast (Integer.utype Bits)))
    exact hstep r2 (by
      simp only [Integer.Reference.apply, Integer.Reference.orAssign, Option.bind_eq_bind,
        hget, Option.some_bind, hr2])
  | xorAssign v =>
    obtain ⟨r2, hr2⟩ := hset ((CInt.mk (Integer.utype Bits)
      ((x.data % 2 ^ Bits).toNat / 2 ^ l % 2 ^ (h - l + 1))).bxor (v.cast (Integer.utype Bits)))
    exact hstep r2 (by
      simp only [Integer.Reference.apply, Integer.Reference.xorAssign, Option.bind_eq_bind,
        hget, Option.some_bind, hr2])
  | addAssign v =>
    obtain ⟨q, hq⟩ : ∃ q, (CInt.mk (Integer.utype Bits)
        ((x.data % 2 ^ Bits).toNat / 2 ^ l % 2 ^ (h - l + 1))).add
        (v.cast (Integer.utype Bits)) = some q := ⟨_, rfl⟩
    obtain ⟨r2, hr2⟩ := hset q
    exact hstep r2 (by
      simp only [Integer.Reference.apply, Integer.Reference.addAssign, Option.bind_eq_bind,
        hget, Option.some_bind, hq, hr2])
  | subAssign v =>
    obtain ⟨q, hq⟩ : ∃ q, (CInt.mk (Integer.utype Bits)
        ((x.data % 2 ^ Bits).toNat / 2 ^ l % 2 ^ (h - l + 1))).sub
        (v.cast (Integer.utype Bits)) = some q := ⟨_, rfl⟩
    obtain ⟨r2, hr2⟩ := hset q
    exact hstep r2 (by
      simp only [Integer.Reference.apply, Integer.Reference.subAssign, Option.bind_eq_bind,
        hget, Option.some_bind, hq, hr2])
  | mulAssign v =>
    obtain ⟨q, hq⟩ : ∃ q, (CInt.mk (Integer.utype Bits)
        ((x.data % 2 ^ Bits).toNat / 2 ^ l % 2 ^ (h - l + 1))).mul
        (v.cast (Integer.utype Bits)) = some q := ⟨_, rfl⟩
    obtain ⟨r2, hr2⟩ := hset q
    exact hstep r2 (by
      simp only [Integer.Reference.apply, Integer.Reference.mulAssign, Option.bind_eq_bind,
        hget, Option.some_bind, hq, hr2])
  | postInc =>
    obtain ⟨q, hq⟩ : ∃ q, (CInt.mk (Integer.utype Bits)
        ((x.data % 2 ^ Bits).toNat / 2 ^ l % 2 ^ (h - l + 1))).add (lit 1) = some q :=
      ⟨_, rfl⟩
    obtain ⟨r2, hr2⟩ := hset q
    exact hstep r2 (by
      simp only [Integer.Reference.apply, Integer.Reference.postInc, Option.bind_eq_bind,
        hget, Option.some_bind, hq, hr2, Option.pure_def, Option.map_some'])
  | postDec =>
    obtain ⟨q, hq⟩ : ∃ q, (CInt.mk (Integer.utype Bits)
        ((x.data % 2 ^ Bits).toNat / 2 ^ l % 2 ^ (h - l + 1))).sub (lit 1) = some q :=
      ⟨_, rfl⟩
    obtain ⟨r2, hr2⟩ := hset q
    exact hstep r2 (by
      simp only [Integer.Reference.apply, Integer.Reference.postDec, Option.bind_eq_bind,
        hget, Option.some_bind, hq, hr2, Option.pure_def, Option.map_some'])
  | preInc =>
    obtain ⟨q, hq⟩ : ∃ q, (CInt.mk (Integer.utype Bits)
        ((x.data % 2 ^ Bits).toNat / 2 ^ l % 2 ^ (h - l + 1))).add (lit 1) = some q :=
      ⟨_, rfl⟩
    obtain ⟨r2, hr2⟩ := hset q
    exact hstep r2 (by
      simp only [Integer.Reference.apply, Integer.Reference.preInc, Option.bind_eq_bind,
        hget, Option.some_bind, hq, hr2])
  | preDec =>
    obtain ⟨q, hq⟩ : ∃ q, (CInt.mk (Integer.utype Bits)
        ((x.data % 2 ^ Bits).toNat / 2 ^ l % 2 ^ (h - l + 1))).sub (lit 1) = some q :=
      ⟨_, rfl⟩
    obtain ⟨r2, hr2⟩ := hset q
    exact hstep r2 (by
      simp only [Integer.Reference.apply, Integer.Reference.preDec, Option.bind_eq_bind,
        hget, Option.some_bind, hq, hr2])
  | shlAssign v => exact absurd hvo (by simp [ViewOp.isArith])
  | shrAssign v => exact absurd hvo (by simp [ViewOp.isArith])
  | divAssign v => exact absurd hvo (by simp [ViewOp.isArith])
  | modAssign v => exact absurd hvo (by simp [ViewOp.isArith])

/-- The compound `>>=` of `Integer` has a result exactly for a shift count in
`0 .. width - 1` of the promoted storage type. -/
theorem Integer.step_shr {Bits : Nat} (h1 : 1 ≤ Bits) (h64 : Bits ≤ 64) (x : Integer Bits)
    (v : CInt) :
    x.step (.shrAssign v) = none ↔
      ((v.cast (Integer.type Bits)).toInt < 0 ∨
        ((Integer.type Bits).promote.width : Int) ≤ (v.cast (Integer.type Bits)).toInt) := by
  have hty : x.dataC.ty = Integer.type Bits := rfl
  simp only [Integer.step, Integer.shrAssign, CInt.shr, hty, Option.bind_eq_bind]
  constructor
  · intro h
    by_contra hc
    rw [if_neg hc, Option.some_bind] at h
    obtain ⟨y, hy, -⟩ := Integer.set_total h1 h64
      ((Integer.type Bits).promote.ofInt ((x.dataC.cast (Integer.type Bits).promote).toInt /
        2 ^ (v.cast (Integer.type Bits)).toInt.toNat))
    rw [hy] at h
    exact absurd h (by simp)
  · intro hc
    rw [if_pos hc, Option.none_bind]

/-- The compound `<<=` of `Integer` has a result exactly for a shift count in
`0 .. width - 1` of the promoted storage type. -/
theorem Integer.step_shl {Bits : Nat} (h1 : 1 ≤ Bits) (h64 : Bits ≤ 64) (x : Integer Bits)
    (v : CInt) :
    x.step (.shlAssign v) = none ↔
      ((v.cast (Integer.type Bits)).toInt < 0 ∨
        ((Integer.type Bits).promote.width : Int) ≤ (v.cast (Integer.type Bits)).toInt) := by
  have hty : x.dataC.ty = Integer.type Bits := rfl
  simp only [Integer.step, Integer.shlAssign, CInt.shl, hty, Option.bind_eq_bind]
  constructor
  · intro h
    by_contra hc
    rw [if_neg hc, Option.some_bind] at h
    obtain ⟨y, hy, -⟩ := Integer.set_total h1 h64
      ((Integer.type Bits).promote.ofInt ((x.dataC.cast (Integer.type Bits).promote).toInt *
        2 ^ (v.cast (Integer.type Bits)).toInt.toNat))
    rw [hy] at h
    exact absurd h (by simp)
  · intro hc
    rw [if_pos hc, Option.none_bind]

/-- The compound `/=` and `%=` of `Integer` have no result exactly when the division
traps. -/
theorem Integer.step_div_mod {Bits : Nat} (h1 : 1 ≤ Bits) (h64 : Bits ≤ 64) (x : Integer Bits)
    (v : CInt) :
    (x.step (.divAssign v) = none ↔ x.traps (.divAssign v) = true) ∧
    (x.step (.modAssign v) = none ↔ x.traps (.modAssign v) = true) := by
  have hs : ∀ q : CInt, Integer.set Bits q ≠ none := fun q h => by
    obtain ⟨y, hy, -⟩ := Integer.set_total h1 h64 q
    rw [hy] at h
    exact absurd h (by simp)
  constructor
  · simp only [Integer.step, Integer.divAssign, Integer.traps, Option.bind_eq_bind,
      Option.isNone_iff_eq_none]
    cases hd : x.dataC.div (v.cast (Integer.type Bits)) with
    | none => simp
    | some q => simpa using hs q
  · simp only [Integer.step, Integer.modAssign, Integer.traps, Option.bind_eq_bind,
      Option.isNone_iff_eq_none]
    cases hd : x.dataC.mod (v.cast (Integer.type Bits)) with
    | none => simp
    | some q => simpa using hs q

/-- Through a view of an `Integer<Bits>` whose range `lo..hi` lies inside the value and
is narrower than 64 bits, with `g` the value that `get()` reads: the compound shifts
have a result exactly when the shift of `g` has one, and `/=` and `%=` exactly when the
division does not trap. -/
theorem Integer.step_view_shift_div {Bits : Nat} (h1 : 1 ≤ Bits) (h64 : Bits ≤ 64)
    (x : Integer Bits) {lo hi : CInt} {l h : Nat} (hl : lo.toInt = l) (hh : hi.toInt = h)
    (hlh : l ≤ h) (hB : h < Bits) (hw : h - l + 1 < 64) (v : CInt) :
    (x.step (.view (.bits lo hi) (.shlAssign v)) = none ↔
      (CInt.mk (Integer.utype Bits) ((x.data % 2 ^ Bits).toNat / 2 ^ l % 2 ^ (h - l + 1))).shl
        (v.cast (Integer.utype Bits)) = none) ∧
    (x.step (.view (.bits lo hi) (.shrAssign v)) = none ↔
      (CInt.mk (Integer.utype Bits) ((x.data % 2 ^ Bits).toNat / 2 ^ l % 2 ^ (h - l + 1))).shr
        (v.cast (Integer.utype Bits)) = none) ∧
    (x.step (.view (.bits lo hi) (.divAssign v)) = none ↔
      x.traps (.view (.bits lo hi) (.divAssign v)) = true) ∧
    (x.step (.view (.bits lo hi) (.modAssign v)) = none ↔
      x.traps (.view (.bits lo hi) (.modAssign v)) = true) := by
  have hget := (Integer.bits_spec Bits h1 h64 x lo hi l h hl hh hlh hB hw (lit 0)).1
  have hset : ∀ q : CInt, ∃ r2 : Integer.Reference Bits, (x.bits lo hi).set q = some r2 :=
    fun q => (Integer.bits_spec Bits h1 h64 x lo hi l h hl hh hlh hB hw q).2.imp
      fun _ hr => hr.1
  have hWl := le_storageWidth h64
  have hg : (Integer.utype Bits).fits ((x.data % 2 ^ Bits).toNat / 2 ^ l % 2 ^ (h - l + 1)) :=
    Integer.fits_utype (lt_of_lt_of_le (Nat.mod_lt _ (by positivity)) (two_pow_mono (by omega)))
  have hv : (Integer.utype Bits).fits
      ((v.toInt % 2 ^ (Integer.utype Bits).width).toNat) :=
    Integer.fits_utype (toNat_emod_lt _ _)
  have hz : (v.cast (Integer.utype Bits)).toInt =
      ((v.toInt % 2 ^ (Integer.utype Bits).width).toNat : Nat) := by
    rw [CInt.cast_eq_mk, CInt.toInt_mk hv]
  obtain ⟨hdiv, hmod⟩ := @CInt.div_mod_mk (Integer.utype Bits) (Integer.utype Bits) _ _ hg hv
  rw [← CInt.cast_eq_mk] at hdiv hmod
  have key : ∀ q : Option CInt,
      ((q.bind fun w => (x.bits lo hi).set w).bind fun r2 => some r2.source) = none ↔
        q = none := by
    intro q
    cases q with
    | none => simp
    | some w =>
      obtain ⟨r2, hr2⟩ := hset w
      simp [hr2]
  refine ⟨?_, ?_, ?_, ?_⟩
  · simp only [Integer.step, Integer.view, Integer.Reference.apply,
      Integer.Reference.shlAssign, Option.bind_eq_bind, Option.some_bind, hget,
      Option.pure_def]
    exact key _
  · simp only [Integer.step, Integer.view, Integer.Reference.apply,
      Integer.Reference.shrAssign, Option.bind_eq_bind, Option.some_bind, hget,
      Option.pure_def]
    exact key _
  · simp only [Integer.step, Integer.view, Integer.Reference.apply,
      Integer.Reference.divAssign, Option.bind_eq_bind, Option.some_bind, hget,
      Option.pure_def, Integer.traps, decide_eq_true_eq]
    rw [key, hdiv, hz]
    by_cases h0 : (v.toInt % 2 ^ (Integer.utype Bits).width).toNat = 0
    · simp [h0]
    · simp only [h0, ↓reduceIte]
      constructor
      · intro hc; exact absurd hc (by simp)
      · intro hc; exact absurd (by exact_mod_cast hc) h0
  · simp only [Integer.step, Integer.view, Integer.Reference.apply,
      Integer.Reference.modAssign, Option.bind_eq_bind, Option.some_bind, hget,
      Option.pure_def, Integer.traps, decide_eq_true_eq]
    rw [key, hmod, hz]
    by_cases h0 : (v.toInt % 2 ^ (Integer.utype Bits).width).toNat = 0
    · simp [h0]
    · simp only [h0, ↓reduceIte]
      constructor
      · intro hc; exact absurd hc (by simp)
      · intro hc; exact absurd (by exact_mod_cast hc) h0

/-- C5: `Integer<Bits>` state invariant. For every width `1 ≤ Bits ≤ 64`, starting from a
constructed `Integer<Bits>` (default-constructed or constructed from any value;
construction from any value succeeds) and applying any sequence of public mutators
(assignment, compound assignments, increments and decrements) and of writes through
`bits` / `bit` / `byte` views, the stored value lies in `[-2^(Bits-1), 2^(Bits-1) - 1]`
after every step. This holds in every run of the code, not only where each operator
of the mutator has a result: where a shift count is out of range (as in the view over
all 64 bits), the mutator still ends in the setter, and the setter puts whatever
value reaches it into the range. A mutator leaves no object only when its division traps.
In particular a write through any view leaves the parent in range. Where the
operators have a result, that result is what every run leaves. The mutators built
from assignment, `+`, `-`, `*`, `&`, `|`, `^` always have a result, on the object and
through every view inside the value that is narrower than 64 bits; the compound
shifts have one exactly for a shift count in `0 .. width - 1`, and the compound
divisions exactly when they do not trap. -/
theorem C5_integer_invariant (Bits : Nat) (h1 : 1 ≤ Bits) (h64 : Bits ≤ 64)
    (x0 : Integer Bits)
    (hx0 : x0 = Integer.zero Bits ∨ ∃ v : CInt, Integer.construct Bits v = some x0)
    (ops : List (Op × CInt)) :
    (-(2 : Int) ^ (Bits - 1) ≤ (x0.runAny ops).data ∧
      (x0.runAny ops).data ≤ 2 ^ (Bits - 1) - 1) ∧
    (∀ v : CInt, ∃ x : Integer Bits, Integer.construct Bits v = some x ∧
      -(2 : Int) ^ (Bits - 1) ≤ x.data ∧ x.data ≤ 2 ^ (Bits - 1) - 1) ∧
    (∀ (x : Integer Bits) (o : Op) (u : CInt),
      (x.stepAny o u = none ↔ x.traps o = true) ∧
      (∀ y : Integer Bits, x.stepAny o u = some y →
        -(2 : Int) ^ (Bits - 1) ≤ y.data ∧ y.data ≤ 2 ^ (Bits - 1) - 1)) ∧
    (∀ (x y : Integer Bits) (o : Op), x.step o = some y →
      (-(2 : Int) ^ (Bits - 1) ≤ y.data ∧ y.data ≤ 2 ^ (Bits - 1) - 1) ∧
      ∀ u : CInt, x.stepAny o u = some y) ∧
    (∀ (os : List Op) (y : Integer Bits), x0.run os = some y →
      (-(2 : Int) ^ (Bits - 1) ≤ y.data ∧ y.data ≤ 2 ^ (Bits - 1) - 1) ∧
      ∀ u : CInt, x0.runAny (os.map fun o => (o, u)) = y) ∧
    (∀ (x : Integer Bits) (o : Op), o.isArith = true → ∃ y : Integer Bits, x.step o = some y) ∧
    (∀ (x : Integer Bits) (lo hi : CInt) (l h : Nat), lo.toInt = l → hi.toInt = h →
      l ≤ h → h < Bits → h - l + 1 < 64 → ∀ vo : ViewOp, vo.isArith = true →
        ∃ y : Integer Bits, x.step (.view (.bits lo hi) vo) = some y) ∧
    (∀ (x : Integer Bits) (v : CInt),
      (x.step (.shrAssign v) = none ↔
        ((v.cast (Integer.type Bits)).toInt < 0 ∨
          ((Integer.type Bits).promote.width : Int) ≤ (v.cast (Integer.type Bits)).toInt)) ∧
      (x.step (.shlAssign v) = none ↔
        ((v.cast (Integer.type Bits)).toInt < 0 ∨
          ((Integer.type Bits).promote.width : Int) ≤ (v.cast (Integer.type Bits)).toInt)) ∧
      (x.step (.divAssign v) = none ↔ x.traps (.divAssign v) = true) ∧
      (x.step (.modAssign v) = none ↔ x.traps (.modAssign v) = true)) ∧
    (∀ (x : Integer Bits) (lo hi : CInt) (l h : Nat), lo.toInt = l → hi.toInt = h →
      l ≤ h → h < Bits → h - l + 1 < 64 → ∀ v : CInt,
      (x.step (.view (.bits lo hi) (.shlAssign v)) = none ↔
        (CInt.mk (Integer.utype Bits)
          ((x.data % 2 ^ Bits).toNat / 2 ^ l % 2 ^ (h - l + 1))).shl
            (v.cast (Integer.utype Bits)) = none) ∧
      (x.step (.view (.bits lo hi) (.shrAssign v)) = none ↔
        (CInt.mk (Integer.utype Bits)
          ((x.data % 2 ^ Bits).toNat / 2 ^ l % 2 ^ (h - l + 1))).shr
            (v.cast (Integer.utype Bits)) = none) ∧
      (x.step (.view (.bits lo hi) (.divAssign v)) = none ↔
        x.traps (.view (.bits lo hi) (.divAssign v)) = true) ∧
      (x.step (.view (.bits lo hi) (.modAssign v)) = none ↔
        x.traps (.view (.bits lo hi) (.modAssign v)) = true)) := by
  have hx : -(2 : Int) ^ (Bits - 1) ≤ x0.data ∧ x0.data ≤ 2 ^ (Bits - 1) - 1 := by
    rcases hx0 with rfl | ⟨v, hv⟩
    · have hpos : (0 : Int) < 2 ^ (Bits - 1) := by positivity
      simp only [Integer.zero]
      omega
    · exact Integer.set_range h1 h64 hv
  refine ⟨Integer.runAny_inv h1 h64 ops x0 hx, fun v => Integer.set_total h1 h64 v,
    fun x o u => ⟨Integer.stepAny_eq_none h1 h64 x o u,
      fun y hy => Integer.stepAny_inv h1 h64 hy⟩,
    fun x y o h => ⟨Integer.int_step_inv h1 h64 h, Integer.stepAny_of_step h⟩,
    fun os y h => ⟨Integer.int_run_inv h1 h64 os hx h, fun u => Integer.runAny_of_run os u h⟩,
    fun x o ho => Integer.step_arith h1 h64 x o ho,
    fun x lo hi l h hl hh hlh hB hw vo hvo =>
      Integer.step_view_arith h1 h64 x hl hh hlh hB hw vo hvo,
    fun x v => ⟨Integer.step_shr h1 h64 x v, Integer.step_shl h1 h64 x v,
      Integer.step_div_mod h1 h64 x v⟩,
    fun x lo hi l h hl hh hlh hB hw v =>
      Integer.step_view_shift_div h1 h64 x hl hh hlh hB hw v⟩

set_option maxRecDepth 100000

theorem C5_integer_invariant_witness :
    (1 ≤ 8 ∧ 8 ≤ 64) ∧ Integer.construct 8 (lit 300) = some ⟨44⟩ ∧
      (⟨44⟩ : Integer 8).run [.preInc, .addAssign (lit 100),
        .view (.bits (lit 7) (lit 4)) (.assign (lit 255)), .shrAssign (lit 1), .postDec,
        .view (.byte (lit 0)) .preInc, .mulAssign (lit (-3)),
        .view (.bit (lit 7)) (.xorAssign (lit 1)), .divAssign (lit 3), .modAssign (lit 100),
        .xorAssign (lit (-1)), .subAssign (lit 100)] = some ⟨-67⟩ ∧
      (⟨44⟩ : Integer 8).runAny [(.preInc, lit 0), (.addAssign (lit 100), lit 0),
        (.view (.bits (lit 7) (lit 4)) (.assign (lit 255)), lit 0),
        (.shrAssign (lit 1), lit 0), (.postDec, lit 0),
        (.view (.byte (lit 0)) .preInc, lit 0), (.mulAssign (lit (-3)), lit 0),
        (.view (.bit (lit 7)) (.xorAssign (lit 1)), lit 0), (.divAssign (lit 3), lit 0),
        (.modAssign (lit 100), lit 0), (.xorAssign (lit (-1)), lit 0),
        (.subAssign (lit 100), lit 0)] = ⟨-67⟩ ∧
      (⟨2147483647⟩ : Integer 32).step .preInc = some ⟨-2147483648⟩ ∧
      (⟨9223372036854775807⟩ : Integer 64).step .postInc = some ⟨-9223372036854775808⟩ ∧
      (⟨-1⟩ : Integer 8).step (.shlAssign (lit 1)) = some ⟨-2⟩ ∧
      (⟨-1⟩ : Integer 8).step (.shlAssign (lit 40)) = none ∧
      (⟨-1⟩ : Integer 8).stepAny (.shlAssign (lit 40)) (lit 1000) = some ⟨-24⟩ ∧
      (⟨-1⟩ : Integer 64).step (.view (.bits (lit 0) (lit 63)) (.assign (lit 5))) = none ∧
      (⟨-1⟩ : Integer 64).stepAny (.view (.bits (lit 0) (lit 63)) (.assign (lit 5))) (lit (-1)) =
        some ⟨-1⟩ ∧
      (⟨-1⟩ : Integer 64).stepAny (.view (.bits (lit 0) (lit 63)) (.assign (lit 5))) (lit 5) =
        some ⟨5⟩ ∧
      (⟨7⟩ : Integer 8).stepAny (.divAssign (lit 0)) (lit 0) = none ∧
      (⟨-2147483648⟩ : Integer 32).stepAny (.divAssign (lit (-1))) (lit 0) = none ∧
      (⟨-128⟩ : Integer 8).stepAny (.divAssign (lit (-1))) (lit 0) = some ⟨-128⟩ ∧
      (⟨7⟩ : Integer 8).runAny [(.preInc, lit 0), (.divAssign (lit 0), lit 0),
        (.preInc, lit 0)] = ⟨8⟩ ∧
      (-(2 : Int) ^ (8 - 1) ≤ ((⟨44⟩ : Integer 8).runAny [(.shlAssign (lit 40), lit 77),
          (.view (.bits (lit 9) (lit 70)) (.shlAssign (lit 3)), lit 200)]).data ∧
        ((⟨44⟩ : Integer 8).runAny [(.shlAssign (lit 40), lit 77),
          (.view (.bits (lit 9) (lit 70)) (.shlAssign (lit 3)), lit 200)]).data ≤
            2 ^ (8 - 1) - 1) :=
  ⟨⟨by decide, by decide⟩, by decide, by decide, by decide, by decide, by decide, by decide,
    by decide, by decide, by decide, by decide, by decide, by decide, by decide, by decide,
    by decide,
    (C5_integer_invariant 8 (by decide) (by decide) ⟨44⟩ (Or.inr ⟨lit 300, by decide⟩)
      [(.shlAssign (lit 40), lit 77),
        (.view (.bits (lit 9) (lit 70)) (.shlAssign (lit 3)), lit 200)]).1⟩

end nall
